import Mathlib

/-!
# Relaxed-plan guided Iterative Width search (`include/aptk/rp_iw.hxx`)

A shallow embedding of the search node `Node<State>` and of the engine `RP_IW`
of `rp_iw.hxx`, followed by theorems about them.

Conventions of the embedding.

* A `Node<State>*` is represented by the node value it points to, the parent
  link included.  A node's fields are only written before the node can become a
  parent (`prune` writes `m_partition` before the node is queued, `set_state`
  runs before the node is expanded), so a child's copy of its parent never goes
  stale.  A null pointer is `none`.
* `float` values are rationals; `unsigned` values are naturals, reduced modulo
  `2 ^ 32` where the source increments a counter or converts a `float`.  The
  sum `parent->m_g + cost` of the node constructor is computed as the source
  computes it: the `unsigned` is converted to `float`, the sum is rounded to
  `float` (IEEE 754 binary32, to nearest, ties to even) and truncated to
  `unsigned`.  Comparisons of scores and the cost total of `extract_plan` are
  kept exact.
* Dereferencing a null pointer and erasing the end iterator are faults; the
  `while` loop of `do_search` is driven by a fuel argument.
* The planning model, the novelty evaluator and the relaxed-plan heuristic are
  template parameters of the source; they are parameters here.
-/

namespace RpIw

/-- Ways in which an execution fails to produce a value. -/
inductive Fault where
  | null_deref
  | bad_iterator
  | out_of_fuel
deriving DecidableEq, Repr

deriving instance DecidableEq for Except

/-- Index of an action in the action table of the problem (`Action_Idx`, an `int`). -/
abbrev Action_Idx := Int

/-- List of fluent indices (`Fluent_Vec`). -/
abbrev Fluent_Vec := List Nat

/-- Modelled from the spec: `Fluent_Set` (bit_set.hxx is not part of the sources), a set of
fluent ids with `isset`, `set` and `reset`. -/
abbrev Fluent_Set := Finset Nat

/-- Modelled from the spec: the sentinel "no-op" action carried by the root (`no_op` is
declared in a header that is not part of the sources). -/
def no_op : Action_Idx := -1

/-- Modulus of the `unsigned` type. -/
def UNSIGNED_MOD : Nat := 2 ^ 32

/-- Conversion `float → unsigned` of a non-negative value: truncation, kept in the range of
`unsigned`.  The conversion of a value outside that range is undefined in the source; here
a negative value gives 0 and a large one wraps. -/
def float_to_unsigned (q : ℚ) : Nat := (q.num / (q.den : Int)).toNat % UNSIGNED_MOD

/-- Search for the unit in the last place of a `float` of magnitude `q ≥ 1`: the unit `u`
is doubled once for every halving of `q` that leaves it at least 2, at most `fuel`
times. -/
def float_ulp_up : Nat → ℚ → ℚ → ℚ
  | 0, _, u => u
  | fuel + 1, q, u => if q < 2 then u else float_ulp_up fuel (q / 2) (u * 2)

/-- Search for the unit in the last place of a `float` of magnitude `q < 1`: the unit `u`
is halved once for every doubling of `q` that it takes to reach 1, at most `fuel` times. -/
def float_ulp_down : Nat → ℚ → ℚ → ℚ
  | 0, _, u => u
  | fuel + 1, q, u => if 1 ≤ q then u else float_ulp_down fuel (q * 2) (u / 2)

/-- The unit in the last place of the `float` format (24 significant bits) at the magnitude
of `q`: `2 ^ (e - 23)` where `2 ^ e ≤ |q| < 2 ^ (e + 1)`, with `e` kept within the
exponent range `-126 .. 127` of the format. -/
def float_ulp (q : ℚ) : ℚ :=
  if 1 ≤ (if q < 0 then -q else q) then float_ulp_up 127 (if q < 0 then -q else q) (1 / 8388608)
  else float_ulp_down 126 (if q < 0 then -q else q) (1 / 8388608)

/-- Rounding of a rational to the nearest integer, a tie going to the even one. -/
def round_half_even (x : ℚ) : Int :=
  if x - ((x.num / (x.den : Int) : Int) : ℚ) < 1 / 2 then x.num / (x.den : Int)
  else if 1 / 2 < x - ((x.num / (x.den : Int) : Int) : ℚ) then x.num / (x.den : Int) + 1
  else if (x.num / (x.den : Int)) % 2 = 0 then x.num / (x.den : Int)
  else x.num / (x.den : Int) + 1

/-- Rounding of a value to `float`: to the nearest multiple of the unit in the last place,
a tie going to the even multiple.  A value beyond the largest `float`, which the source
would turn into an infinity, is rounded in the same way. -/
def float_round (q : ℚ) : ℚ := (round_half_even (q / float_ulp q) : ℚ) * float_ulp q

/-- The expression `parent->m_g + cost` as stored into the `unsigned` field `m_g`: the
`unsigned` `g` of the parent is converted to `float`, the `float` sum is rounded, and the
result is truncated to `unsigned`. -/
def child_g (g : Nat) (cost : ℚ) : Nat :=
  float_to_unsigned (float_round (float_round (g : ℚ) + cost))

/-- The `++` of an `unsigned` counter. -/
def unsigned_inc (c : Nat) : Nat := (c + 1) % UNSIGNED_MOD

/-- A conditional effect of an action: only its add list is read by the engine. -/
structure Conditional_Effect where
  add_vec : Fluent_Vec
deriving DecidableEq, Repr

/-- An action of the planning problem: add list, conditional effects and its own cost, the
`float` value that its `cost()` returns. -/
structure Action where
  add_vec : Fluent_Vec
  ceff_vec : List Conditional_Effect
  cost : ℚ
deriving DecidableEq

/-- The planning model `Search_Model` as consumed by the engine (`init`, `goal`,
`applicable_set_v2`, `next`, `cost`) together with the action table of the problem. -/
structure Search_Model (σ : Type) where
  init : σ
  goal : σ → Bool
  applicable_set_v2 : σ → List Action_Idx
  next : σ → Action_Idx → σ
  cost : σ → Action_Idx → ℚ
  actions : Action_Idx → Action

/-- The search node `Node<State>`: state (possibly absent), parent, generating action,
accumulated cost `m_g`, `m_partition` and the equality flag.  `m_h` is never assigned or
read, and `m_hash` is only assigned for a node without a state and only read by the hash
table; neither is kept. -/
inductive Node (σ : Type) where
  | mk (m_state : Option σ) (m_parent : Option (Node σ)) (m_action : Action_Idx)
      (m_g : Nat) (m_partition : Nat) (m_compare_only_state : Bool) : Node σ

namespace Node

variable {σ : Type}

def m_state : Node σ → Option σ
  | mk s _ _ _ _ _ => s

def m_parent : Node σ → Option (Node σ)
  | mk _ p _ _ _ _ => p

def m_action : Node σ → Action_Idx
  | mk _ _ a _ _ _ => a

def m_g : Node σ → Nat
  | mk _ _ _ g _ _ => g

def m_partition : Node σ → Nat
  | mk _ _ _ _ p _ => p

def m_compare_only_state : Node σ → Bool
  | mk _ _ _ _ _ c => c

/-- Assignment through `partition()`. -/
def set_partition : Node σ → Nat → Node σ
  | mk s p a g _ c, v => mk s p a g v c

/-- The method `set_state`. -/
def set_state : Node σ → Option σ → Node σ
  | mk _ p a g pt c, s => mk s p a g pt c

/-- The method `has_state`. -/
def has_state (n : Node σ) : Bool := n.m_state.isSome

/-- Number of parent links from a node up to the parentless node of its chain. -/
def depth : Node σ → Nat
  | mk _ none _ _ _ _ => 0
  | mk _ (some p) _ _ _ _ => depth p + 1

/-- Structural equality of nodes is decidable when equality of states is. -/
def decEq [DecidableEq σ] : (a b : Node σ) → Decidable (a = b)
  | mk s none a g p c, mk s2 none a2 g2 p2 c2 =>
    if h : s = s2 ∧ a = a2 ∧ g = g2 ∧ p = p2 ∧ c = c2 then
      isTrue (by obtain ⟨h1, h2, h3, h4, h5⟩ := h; subst h1 h2 h3 h4 h5; rfl)
    else
      isFalse (by
        intro hh
        injection hh with h1 _ h3 h4 h5 h6
        exact h ⟨h1, h3, h4, h5, h6⟩)
  | mk s (some q) a g p c, mk s2 (some q2) a2 g2 p2 c2 =>
    match decEq q q2 with
    | isTrue hq =>
      if h : s = s2 ∧ a = a2 ∧ g = g2 ∧ p = p2 ∧ c = c2 then
        isTrue (by obtain ⟨h1, h2, h3, h4, h5⟩ := h; subst hq h1 h2 h3 h4 h5; rfl)
      else
        isFalse (by
          intro hh
          injection hh with h1 _ h3 h4 h5 h6
          exact h ⟨h1, h3, h4, h5, h6⟩)
    | isFalse hq =>
      isFalse (by
        intro hh
        injection hh with _ h2 _ _ _ _
        injection h2 with h2
        exact hq h2)
  | mk _ none _ _ _ _, mk _ (some _) _ _ _ _ =>
    isFalse (by intro hh; injection hh with _ h2 _ _ _ _; cases h2)
  | mk _ (some _) _ _ _ _, mk _ none _ _ _ _ =>
    isFalse (by intro hh; injection hh with _ h2 _ _ _ _; cases h2)

instance [DecidableEq σ] : DecidableEq (Node σ) := decEq

/-- The constructor `Node(s, action, parent, cost, compute_hash)`: `m_g` receives
`parent->m_g + cost` (a `float` sum stored into an `unsigned`) or `0.0f` for a parentless
node; `m_partition` is 0 and the equality flag is off.  The argument `compute_hash` is not
used by the source. -/
def new (s : Option σ) (action : Action_Idx) (parent : Option (Node σ)) (cost : ℚ) : Node σ :=
  mk s parent action
    (match parent with
     | some p => child_g p.m_g cost
     | none => float_to_unsigned 0)
    0 false

/-- The method `operator==`.  With both states present: content equality of the states,
and equality of the partitions unless the flag is set on either side.  Otherwise the
"lazy" comparison through the parents, which dereferences the parents' states. -/
def eq [DecidableEq σ] (self o : Node σ) : Except Fault Bool :=
  let flag := self.m_compare_only_state || o.m_compare_only_state
  match o.m_state, self.m_state with
  | some so, some ss =>
    if flag then .ok (decide (so = ss))
    else .ok (decide (so = ss) && decide (o.m_partition = self.m_partition))
  | _, _ =>
    match self.m_parent with
    | none => .ok o.m_parent.isNone
    | some p =>
      match o.m_parent with
      | none => .ok false
      | some op =>
        if self.m_action = o.m_action then
          match p.m_state, op.m_state with
          | some ps, some ops =>
            if flag then .ok (decide (ps = ops))
            else .ok (decide (ps = ops) && decide (o.m_partition = self.m_partition))
          | _, _ => .error Fault.null_deref
        else .ok false

end Node

/-- Modelled from the spec: the closed/open index `Closed_List` (closed_list.hxx is not part
of the sources): a collection of nodes with `put`, `retrieve`, `erase` of an iterator and
`clear`, searched with the node equality `operator==`.  Entries are kept in insertion
order. -/
abbrev Closed_List (σ : Type) := List (Node σ)

namespace Closed_List

variable {σ : Type}

/-- Modelled from the spec: `put(node)`. -/
def put (l : Closed_List σ) (n : Node σ) : Closed_List σ := l ++ [n]

/-- Modelled from the spec: `retrieve(node) -> node|null`, the first stored node
equality-equal to `n`. -/
def retrieve [DecidableEq σ] : Closed_List σ → Node σ → Except Fault (Option (Node σ))
  | [], _ => .ok none
  | m :: rest, n =>
    match Node.eq m n with
    | .error f => .error f
    | .ok true => .ok (some m)
    | .ok false => retrieve rest n

/-- Modelled from the spec: `retrieve_iterator(node)`, the position of the first stored
node equality-equal to `n`; `none` is the end iterator. -/
def retrieve_iterator [DecidableEq σ] : Closed_List σ → Node σ → Except Fault (Option Nat)
  | [], _ => .ok none
  | m :: rest, n =>
    match Node.eq m n with
    | .error f => .error f
    | .ok true => .ok (some 0)
    | .ok false =>
      match retrieve_iterator rest n with
      | .error f => .error f
      | .ok none => .ok none
      | .ok (some i) => .ok (some (i + 1))

/-- Modelled from the spec: `erase(iterator)`; erasing the end iterator is a fault. -/
def erase (l : Closed_List σ) : Option Nat → Except Fault (Closed_List σ)
  | none => .error Fault.bad_iterator
  | some i => .ok (l.eraseIdx i)

end Closed_List

/-- The novelty evaluator `Abstract_Novelty`, with its internal state `ν` made explicit:
`init`, `set_arity(bound, count)` and `eval(node, score)`, which returns the score. -/
structure Abstract_Novelty (σ ν : Type) where
  init : ν → ν
  set_arity : ν → ℚ → Nat → ν
  eval : ν → Node σ → ν × ℚ

/-- The relaxed-plan heuristic `RP_Heuristic`: of the results of `eval` only the relaxed
plan is read.  `eval_goals` is the overload taking an explicit goal set. -/
structure RP_Heuristic (σ : Type) where
  eval : σ → List Action_Idx
  eval_goals : σ → Fluent_Vec → List Action_Idx

/-- The collaborators the engine is instantiated with. -/
structure Env (σ ν : Type) where
  m_problem : Search_Model σ
  novelty : Abstract_Novelty σ ν
  m_rp_h : RP_Heuristic σ

/-- The data members of `RP_IW`; `m_novelty` is the state of the novelty evaluator and
`counted` is the function-local static marker set of `rp_fl_achieved`. -/
structure RP_IW (σ ν : Type) where
  m_open : List (Node σ)
  m_closed : Closed_List σ
  m_open_hash : Closed_List σ
  m_exp_count : Nat
  m_gen_count : Nat
  m_cl_count : Nat
  m_max_depth : Nat
  m_root : Option (Node σ)
  m_novelty : ν
  m_rp_fl_vec : Fluent_Vec
  m_rp_fl_set : Fluent_Set
  m_pruned_B_count : Nat
  m_B : ℚ
  m_use_relplan : Bool
  m_goals : Option Fluent_Vec
  counted : Fluent_Set
deriving DecidableEq

section Engine

variable {σ ν : Type}

/-- The constructor `RP_IW(search_problem)`: counters at 0, bound `infty`, relaxed-plan
mode on, no goal override.  `infty` is declared outside the sources and `nov` is the fresh
evaluator. -/
def RP_IW.new (infty : ℚ) (nov : ν) : RP_IW σ ν :=
  { m_open := [], m_closed := [], m_open_hash := [], m_exp_count := 0, m_gen_count := 0,
    m_cl_count := 0, m_max_depth := 0, m_root := none, m_novelty := nov, m_rp_fl_vec := [],
    m_rp_fl_set := ∅, m_pruned_B_count := 0, m_B := infty, m_use_relplan := true,
    m_goals := none, counted := ∅ }

/-- The method `reset`. -/
def reset (e : RP_IW σ ν) : RP_IW σ ν :=
  { e with m_open := [], m_closed := [], m_open_hash := [], m_rp_fl_vec := [],
           m_rp_fl_set := ∅, m_exp_count := 0, m_gen_count := 0, m_cl_count := 0,
           m_pruned_B_count := 0, m_max_depth := 0 }

/-- The method `set_goals`. -/
def set_goals (e : RP_IW σ ν) (g : Option Fluent_Vec) : RP_IW σ ν := { e with m_goals := g }

/-- The method `set_use_relplan`. -/
def set_use_relplan (e : RP_IW σ ν) (b : Bool) : RP_IW σ ν := { e with m_use_relplan := b }

/-- The method `set_bound`. -/
def set_bound (C : Env σ ν) (e : RP_IW σ ν) (v : ℚ) : RP_IW σ ν :=
  { e with m_B := v, m_novelty := C.novelty.set_arity e.m_novelty v 1 }

/-- Body of the two innermost loops of `set_relplan`: a fluent not yet in `m_rp_fl_set` is
appended to `m_rp_fl_vec` and set in `m_rp_fl_set`. -/
def set_relplan_fluent (acc : Fluent_Vec × Fluent_Set) (p : Nat) : Fluent_Vec × Fluent_Set :=
  if p ∉ acc.2 then (acc.1 ++ [p], insert p acc.2) else acc

/-- Body of the outer loop of `set_relplan` for one action of the relaxed plan: first the
add lists of its conditional effects, then its own add list. -/
def set_relplan_action (a : Action) (acc : Fluent_Vec × Fluent_Set) : Fluent_Vec × Fluent_Set :=
  let acc1 :=
    if !a.ceff_vec.isEmpty then
      a.ceff_vec.foldl (fun r ce => ce.add_vec.foldl set_relplan_fluent r) acc
    else acc
  a.add_vec.foldl set_relplan_fluent acc1

/-- The method `set_relplan`. -/
def set_relplan (C : Env σ ν) (e : RP_IW σ ν) (s : σ) : RP_IW σ ν :=
  let rel_plan :=
    match e.m_goals with
    | some g => C.m_rp_h.eval_goals s g
    | none => C.m_rp_h.eval s
  let r := rel_plan.foldl (fun acc a => set_relplan_action (C.m_problem.actions a) acc)
    (e.m_rp_fl_vec, e.m_rp_fl_set)
  { e with m_rp_fl_vec := r.1, m_rp_fl_set := r.2 }

/-- The methods `inc_pruned_bound`, `inc_gen`, `inc_exp`, `inc_closed`. -/
def inc_pruned_bound (e : RP_IW σ ν) : RP_IW σ ν :=
  { e with m_pruned_B_count := unsigned_inc e.m_pruned_B_count }

def inc_gen (e : RP_IW σ ν) : RP_IW σ ν := { e with m_gen_count := unsigned_inc e.m_gen_count }

def inc_exp (e : RP_IW σ ν) : RP_IW σ ν := { e with m_exp_count := unsigned_inc e.m_exp_count }

def inc_closed (e : RP_IW σ ν) : RP_IW σ ν := { e with m_cl_count := unsigned_inc e.m_cl_count }

/-- The method `close`. -/
def close (e : RP_IW σ ν) (n : Node σ) : RP_IW σ ν :=
  { e with m_closed := Closed_List.put e.m_closed n }

/-- The method `is_closed`. -/
def is_closed [DecidableEq σ] (e : RP_IW σ ν) (n : Node σ) : Except Fault Bool :=
  match Closed_List.retrieve e.m_closed n with
  | .error f => .error f
  | .ok r => .ok r.isSome

/-- The method `previously_hashed`. -/
def previously_hashed [DecidableEq σ] (e : RP_IW σ ν) (n : Node σ) : Except Fault Bool :=
  match Closed_List.retrieve e.m_open_hash n with
  | .error f => .error f
  | .ok r => .ok r.isSome

/-- The method `search_exhausted`. -/
def search_exhausted (e : RP_IW σ ν) : Bool := e.m_open.isEmpty

/-- The method `is_goal`.  On a null node the call dereferences null.  On a node without a
state the source evaluates the goal on `*(n->state())`, a null state. -/
def is_goal (C : Env σ ν) : Option (Node σ) → Except Fault Bool
  | none => .error Fault.null_deref
  | some n =>
    match n.m_state with
    | some s => .ok (C.m_problem.goal s)
    | none => .error Fault.null_deref

/-- The method `get_node`: pops the front of the queue and erases from the open index the
entry found by `retrieve_iterator`. -/
def get_node [DecidableEq σ] (e : RP_IW σ ν) : Except Fault (Option (Node σ) × RP_IW σ ν) :=
  match e.m_open with
  | [] => .ok (none, e)
  | next :: rest =>
    match Closed_List.retrieve_iterator e.m_open_hash next with
    | .error f => .error f
    | .ok it =>
      match Closed_List.erase e.m_open_hash it with
      | .error f => .error f
      | .ok h => .ok (some next, { e with m_open := rest, m_open_hash := h })

/-- The method `open_node`. -/
def open_node (e : RP_IW σ ν) (n : Node σ) : RP_IW σ ν :=
  let e1 := inc_gen { e with m_open := e.m_open ++ [n],
                             m_open_hash := Closed_List.put e.m_open_hash n }
  if (n.m_g + 1) % UNSIGNED_MOD > e1.m_max_depth then
    { e1 with m_max_depth := (n.m_g + 1) % UNSIGNED_MOD }
  else e1

/-- Body of the two innermost loops of `rp_fl_achieved`: a relevant fluent not yet marked
is counted and marked.  The count never exceeds the number of fluents, which the source
holds in an `unsigned`, so it is not reduced. -/
def rp_fl_mark (R : Fluent_Set) (acc : Nat × Fluent_Set) (p : Nat) : Nat × Fluent_Set :=
  if p ∈ R ∧ p ∉ acc.2 then (acc.1 + 1, insert p acc.2) else acc

/-- Body of the `while` loop of `rp_fl_achieved` for one action: the add lists of its
conditional effects, then its own add list. -/
def rp_fl_action (R : Fluent_Set) (a : Action) (acc : Nat × Fluent_Set) : Nat × Fluent_Set :=
  let acc1 :=
    if !a.ceff_vec.isEmpty then
      a.ceff_vec.foldl (fun r ce => ce.add_vec.foldl (rp_fl_mark R) r) acc
    else acc
  a.add_vec.foldl (rp_fl_mark R) acc1

/-- The `while` loop of `rp_fl_achieved`: climbs the parent links until a node whose action
is `no_op`; stepping to a null parent makes the next test dereference null. -/
def rp_fl_walk (C : Env σ ν) (R : Fluent_Set) :
    Node σ → Nat × Fluent_Set → Except Fault (Nat × Fluent_Set)
  | Node.mk _ parent action _ _ _, acc =>
    if action ≠ no_op then
      match parent with
      | none => .error Fault.null_deref
      | some p => rp_fl_walk C R p (rp_fl_action R (C.m_problem.actions action) acc)
    else .ok acc

/-- The method `rp_fl_achieved`: runs the loop from count 0 on the static marker set and
resets the marker set before returning the count. -/
def rp_fl_achieved (C : Env σ ν) (e : RP_IW σ ν) (n : Node σ) :
    Except Fault (Nat × RP_IW σ ν) :=
  match rp_fl_walk C e.m_rp_fl_set n (0, e.counted) with
  | .error f => .error f
  | .ok r => .ok (r.1, { e with counted := ∅ })

/-- The method `prune`.  Returns the decision, the node with its partition assigned, and
the engine. -/
def prune [DecidableEq σ] (C : Env σ ν) (e : RP_IW σ ν) (n : Node σ) :
    Except Fault (Bool × Node σ × RP_IW σ ν) :=
  match rp_fl_achieved C e n with
  | .error f => .error f
  | .ok (count, e1) =>
    let n1 := n.set_partition count
    match is_closed e1 n1 with
    | .error f => .error f
    | .ok true => .ok (true, n1, e1)
    | .ok false =>
      match previously_hashed e1 n1 with
      | .error f => .error f
      | .ok true => .ok (true, n1, e1)
      | .ok false =>
        let r := C.novelty.eval e1.m_novelty n1
        let e2 := { e1 with m_novelty := r.1 }
        if r.2 > e2.m_B then .ok (true, n1, inc_pruned_bound e2)
        else .ok (false, n1, e2)

/-- One iteration of the `for` loop of `process`, for the applicable action `a`; `hs` is the
state of `head`.  The successor is built with the action's own `cost()`, pruned or queued,
and tested for the goal when queued.  The first component is the node returned by
`return n`, if any. -/
def process_step [DecidableEq σ] (C : Env σ ν) (head : Node σ) (hs : σ) (a : Action_Idx)
    (e : RP_IW σ ν) : Except Fault (Option (Node σ) × RP_IW σ ν) :=
  let succ := C.m_problem.next hs a
  let n := Node.new (some succ) a (some head) (C.m_problem.actions a).cost
  match prune C e n with
  | .error f => .error f
  | .ok (true, _, e1) => .ok (none, e1)
  | .ok (false, n1, e1) =>
    let e2 := open_node e1 n1
    match is_goal C (some n1) with
    | .error f => .error f
    | .ok true => .ok (some n1, e2)
    | .ok false => .ok (none, e2)

/-- The `for` loop of `process` over the applicable actions still to be tried. -/
def process_loop [DecidableEq σ] (C : Env σ ν) (head : Node σ) (hs : σ) :
    List Action_Idx → RP_IW σ ν → Except Fault (Option (Node σ) × RP_IW σ ν)
  | [], e => .ok (none, e)
  | a :: rest, e =>
    match process_step C head hs a e with
    | .error f => .error f
    | .ok (some g, e1) => .ok (some g, e1)
    | .ok (none, e1) => process_loop C head hs rest e1

/-- The method `process`. -/
def process [DecidableEq σ] (C : Env σ ν) (e : RP_IW σ ν) (head : Node σ) :
    Except Fault (Option (Node σ) × RP_IW σ ν) :=
  match head.m_state with
  | none => .error Fault.null_deref
  | some hs => process_loop C head hs (C.m_problem.applicable_set_v2 hs) e

/-- The statement `if (!n->has_state()) n->set_state(m_problem.next(*(n->parent()->state()),
n->action()))`. -/
def materialize (C : Env σ ν) (n : Node σ) : Except Fault (Node σ) :=
  if n.has_state then .ok n
  else
    match n.m_parent with
    | none => .error Fault.null_deref
    | some p =>
      match p.m_state with
      | none => .error Fault.null_deref
      | some ps => .ok (n.set_state (some (C.m_problem.next ps n.m_action)))

/-- Writes made through a pointer to a queued node are seen through the queue and the open
index: every copy of `old` is replaced by `new`. -/
def alias_update [DecidableEq σ] (e : RP_IW σ ν) (old new : Node σ) : RP_IW σ ν :=
  { e with m_open := e.m_open.map (fun x => if x = old then new else x),
           m_open_hash := e.m_open_hash.map (fun x => if x = old then new else x) }

/-- The `while (head)` loop of `do_search`. -/
def do_search_loop [DecidableEq σ] (C : Env σ ν) :
    Nat → Option (Node σ) → RP_IW σ ν → Except Fault (Option (Node σ) × RP_IW σ ν)
  | _, none, e => .ok (none, e)
  | 0, some _, _ => .error Fault.out_of_fuel
  | fuel + 1, some head0, e =>
    match materialize C head0 with
    | .error f => .error f
    | .ok head =>
      match process C e head with
      | .error f => .error f
      | .ok (goal, e1) =>
        let e2 := close (inc_exp e1) head
        match goal with
        | some g =>
          match materialize C g with
          | .error f => .error f
          | .ok g1 => .ok (some g1, alias_update e2 g g1)
        | none =>
          match get_node e2 with
          | .error f => .error f
          | .ok (next, e3) => do_search_loop C fuel next e3

/-- The method `do_search`. -/
def do_search [DecidableEq σ] (C : Env σ ν) (fuel : Nat) (e : RP_IW σ ν) :
    Except Fault (Option (Node σ) × RP_IW σ ν) :=
  match get_node e with
  | .error f => .error f
  | .ok (head, e1) =>
    match is_goal C head with
    | .error f => .error f
    | .ok true => .ok (head, e1)
    | .ok false => do_search_loop C fuel head e1

/-- The `while (tmp != s)` loop of `extract_plan`, entered with a non-null `tmp`. -/
def extract_plan_walk [DecidableEq σ] (C : Env σ ν) (s : Option (Node σ)) :
    Node σ → List Action_Idx → ℚ → Except Fault (List Action_Idx × ℚ)
  | Node.mk st parent action g pt c, plan, cost =>
    if some (Node.mk st parent action g pt c) = s then .ok (plan, cost)
    else
      match st with
      | none => .error Fault.null_deref
      | some x =>
        match parent with
        | none =>
          if s = none then .ok (plan ++ [action], cost + C.m_problem.cost x action)
          else .error Fault.null_deref
        | some p =>
          extract_plan_walk C s p (plan ++ [action]) (cost + C.m_problem.cost x action)

/-- The method `extract_plan`; returns the plan vector and the cost. -/
def extract_plan [DecidableEq σ] (C : Env σ ν) (s t : Option (Node σ))
    (plan : List Action_Idx) (reverse : Bool) : Except Fault (List Action_Idx × ℚ) :=
  let r : Except Fault (List Action_Idx × ℚ) :=
    match t with
    | none => if s = none then .ok (plan, 0) else .error Fault.null_deref
    | some tn => extract_plan_walk C s tn plan 0
  match r with
  | .error f => .error f
  | .ok (p, c) => .ok (if reverse then p.reverse else p, c)

/-- The method `find_solution`: the returned tuple is the result, the cost and plan
arguments as left by the call, and the engine. -/
def find_solution [DecidableEq σ] (C : Env σ ν) (fuel : Nat) (e : RP_IW σ ν) (cost : ℚ)
    (plan : List Action_Idx) : Except Fault (Bool × ℚ × List Action_Idx × RP_IW σ ν) :=
  match do_search C fuel e with
  | .error f => .error f
  | .ok (none, e1) => .ok (false, cost, plan, e1)
  | .ok (some t, e1) =>
    match extract_plan C e1.m_root (some t) plan true with
    | .error f => .error f
    | .ok (p, c) => .ok (true, c, p, e1)

/-- The part of `start` that precedes the call of `prune`: the root node is built from the
given state or the initial state, the engine is reset, the evaluator initialised, the
relevant fluents computed when relaxed-plan mode is on, and the arity set. -/
def start_prepare (C : Env σ ν) (e : RP_IW σ ν) (s : Option σ) : Node σ × RP_IW σ ν :=
  let s0 := match s with
    | none => C.m_problem.init
    | some x => x
  let root := Node.new (some s0) no_op none 1
  let e1 := reset { e with m_root := some root, m_pruned_B_count := 0 }
  let e2 := { e1 with m_novelty := C.novelty.init e1.m_novelty }
  let e3 := if e2.m_use_relplan then set_relplan C e2 s0 else e2
  (root, { e3 with m_novelty := C.novelty.set_arity e3.m_novelty e3.m_B e3.m_rp_fl_vec.length })

/-- The method `start`; `s` is the optional start state.  A pruned root is not queued. -/
def start [DecidableEq σ] (C : Env σ ν) (e : RP_IW σ ν) (s : Option σ) :
    Except Fault (RP_IW σ ν) :=
  match prune C (start_prepare C e s).2 (start_prepare C e s).1 with
  | .error f => .error f
  | .ok (true, root1, e5) => .ok { e5 with m_root := some root1 }
  | .ok (false, root1, e5) =>
    .ok (inc_gen { e5 with m_root := some root1, m_open := e5.m_open ++ [root1],
                           m_open_hash := Closed_List.put e5.m_open_hash root1 })

end Engine

/-- Fluents added by an action, in the order in which the engine reads them: the add lists
of the conditional effects, then the action's own add list. -/
def Action.added (a : Action) : Fluent_Vec :=
  a.ceff_vec.flatMap (fun ce => ce.add_vec) ++ a.add_vec

/-- The relaxed plan that `set_relplan` obtains from the heuristic for the state `s`. -/
def relaxed_plan {σ ν : Type} (C : Env σ ν) (e : RP_IW σ ν) (s : σ) : List Action_Idx :=
  match e.m_goals with
  | some g => C.m_rp_h.eval_goals s g
  | none => C.m_rp_h.eval s

/-- All fluents added along a list of actions, in the order of reading. -/
def encounter_order {σ ν : Type} (C : Env σ ν) (plan : List Action_Idx) : Fluent_Vec :=
  plan.flatMap (fun a => (C.m_problem.actions a).added)

/-- Actions on the path from the root to a node, read from the node upwards; the action
of the parentless root is not part of the path. -/
def Node.path_actions {σ : Type} : Node σ → List Action_Idx
  | Node.mk _ none _ _ _ _ => []
  | Node.mk _ (some p) a _ _ _ => a :: Node.path_actions p

/-- The parent chain of the node ends at a parentless root that carries `no_op`, and every
node below the root was generated by an action proper. -/
def Node.rooted {σ : Type} : Node σ → Prop
  | Node.mk _ none a _ _ _ => a = no_op
  | Node.mk _ (some p) a _ _ _ => a ≠ no_op ∧ Node.rooted p

/-- Fluents added along the path of a node, in the order in which `rp_fl_achieved` reads
them. -/
def Node.path_fluents {σ ν : Type} (C : Env σ ν) (n : Node σ) : Fluent_Vec :=
  encounter_order C n.path_actions

/-- An equality-equal node exists in the index: some stored node compares equal to `n`
under `operator==`. -/
def in_index {σ : Type} [DecidableEq σ] (l : Closed_List σ) (n : Node σ) : Prop :=
  ∃ m ∈ l, Node.eq m n = .ok true

/-- The node was generated from the root `r` by the successor function: it is `r` itself,
or it has a state obtained by applying its action to the state of its parent, which was
generated from `r` in the same way. -/
inductive Descends {σ ν : Type} (C : Env σ ν) (r : Node σ) : Node σ → Prop where
  | root : Descends C r r
  | child (p : Node σ) (ps : σ) (a : Action_Idx) (g pt : Nat) (c : Bool) :
      Descends C r p → p.m_state = some ps →
      Descends C r (Node.mk (some (C.m_problem.next ps a)) (some p) a g pt c)

/-- Sum of the costs that `extract_plan` queries along the path of a node: for every
edge, the model's cost at the state of the child with the action that generated it. -/
def Node.queried_cost {σ ν : Type} (C : Env σ ν) : Node σ → ℚ
  | Node.mk _ none _ _ _ _ => 0
  | Node.mk st (some p) a _ _ _ =>
    (match st with
     | some x => C.m_problem.cost x a
     | none => 0) + Node.queried_cost C p

/-- The engine is searching from the root `r`: the root pointer is `r` and every queued
node was generated from `r`. -/
def Searching {σ ν : Type} (C : Env σ ν) (r : Node σ) (e : RP_IW σ ν) : Prop :=
  e.m_root = some r ∧ ∀ n ∈ e.m_open, Descends C r n

/-- The node was generated from `r` and its state satisfies the goal test. -/
def Goal_Node {σ ν : Type} (C : Env σ ν) (r : Node σ) (x : Node σ) : Prop :=
  Descends C r x ∧ ∃ sg, x.m_state = some sg ∧ C.m_problem.goal sg = true

/-- The state from which `start` builds the root: the state passed, or the problem's
initial state. -/
def start_state {σ ν : Type} (C : Env σ ν) (s : Option σ) : σ :=
  match s with
  | none => C.m_problem.init
  | some x => x


/-! ### Concrete problems used to exercise the definitions -/

/-- The largest finite `float`, taken as the value of the constant `infty` (declared in a
header outside the sources) with which the constructor initialises the bound. -/
def infty : ℚ := 340282346638528859811704183484516925440

/-- A counter: states are naturals, the only action `0` is always applicable and adds one;
the goal is the state 2.  Action `0` adds fluent 1 and, through a conditional effect,
fluent 2; its cost is 1. -/
def chainModel : Search_Model Nat :=
  { init := 0, goal := fun s => decide (s = 2), applicable_set_v2 := fun _ => [0],
    next := fun s _ => s + 1, cost := fun _ _ => 1,
    actions := fun _ => { add_vec := [1], ceff_vec := [⟨[2]⟩], cost := 1 } }

/-- The counter with an evaluator that scores every node 1 (its state counts the
evaluations) and a heuristic whose relaxed plan is the single action `0`. -/
def chainEnv : Env Nat Nat :=
  { m_problem := chainModel,
    novelty := { init := fun _ => 0, set_arity := fun u _ _ => u, eval := fun u _ => (u + 1, 1) },
    m_rp_h := { eval := fun _ => [0], eval_goals := fun _ _ => [0] } }

/-- A freshly constructed engine for the counter, with the bound set to 1. -/
def chainEngine : RP_IW Nat Nat := set_bound chainEnv (RP_IW.new infty 0) 1

/-- The engine for the counter after `start()`. -/
def chainStarted : RP_IW Nat Nat :=
  match start chainEnv chainEngine none with
  | .ok e => e
  | .error _ => chainEngine

/-- The root node of the counter as queued by `start()`. -/
def chainRoot : Node Nat := Node.mk (some 0) none no_op 0 0 false

/-- The first successor of the root of the counter, before pruning. -/
def chainChild : Node Nat := Node.mk (some 1) (some chainRoot) 0 1 0 false

/-- The engine for the counter after the root has been dequeued. -/
def chainPopped : RP_IW Nat Nat :=
  match get_node chainStarted with
  | .ok r => r.2
  | .error _ => chainStarted

/-- The result of pruning the first successor of the root of the counter. -/
def chainPruneResult : Bool × Node Nat × RP_IW Nat Nat :=
  match prune chainEnv chainPopped chainChild with
  | .ok r => r
  | .error _ => (true, chainChild, chainPopped)

/-- The outcome of `find_solution` on the started engine of the counter. -/
def chainSolved : Bool × ℚ × List Action_Idx × RP_IW Nat Nat :=
  match find_solution chainEnv 10 chainStarted 0 [] with
  | .ok r => r
  | .error _ => (false, 0, [], chainStarted)

/-- The counter with goal state 1 and a transition cost that depends on the state in which
the action is applied: 1 in state 0 and 2 elsewhere. -/
def stateCostModel : Search_Model Nat :=
  { init := 0, goal := fun s => decide (s = 1), applicable_set_v2 := fun _ => [0],
    next := fun s _ => s + 1, cost := fun s _ => if s = 0 then 1 else 2,
    actions := fun _ => { add_vec := [1], ceff_vec := [⟨[2]⟩], cost := 1 } }

def stateCostEnv : Env Nat Nat :=
  { m_problem := stateCostModel, novelty := chainEnv.novelty, m_rp_h := chainEnv.m_rp_h }

def stateCostStarted : RP_IW Nat Nat :=
  match start stateCostEnv (set_bound stateCostEnv (RP_IW.new infty 0) 1) none with
  | .ok e => e
  | .error _ => RP_IW.new infty 0

def stateCostSolved : Bool × ℚ × List Action_Idx × RP_IW Nat Nat :=
  match find_solution stateCostEnv 10 stateCostStarted 0 [] with
  | .ok r => r
  | .error _ => (false, 0, [], stateCostStarted)

/-- A problem with one state and one action that leaves the state as it is and adds no
fluent; no state satisfies the goal. -/
def loopModel : Search_Model Nat :=
  { init := 0, goal := fun _ => false, applicable_set_v2 := fun _ => [0],
    next := fun s _ => s, cost := fun _ _ => 1,
    actions := fun _ => { add_vec := [], ceff_vec := [], cost := 1 } }

def loopEnv : Env Nat Nat :=
  { m_problem := loopModel, novelty := chainEnv.novelty, m_rp_h := chainEnv.m_rp_h }

/-- The engine for the one-state problem as constructed: the bound is `infty`. -/
def loopEngine : RP_IW Nat Nat := RP_IW.new infty 0

def loopStarted : RP_IW Nat Nat :=
  match start loopEnv loopEngine none with
  | .ok e => e
  | .error _ => loopEngine

def loopSearched : Option (Node Nat) × RP_IW Nat Nat :=
  match do_search loopEnv 10 loopStarted with
  | .ok r => r
  | .error _ => (none, loopStarted)

/-- The root of the one-state problem, as queued by `start()`. -/
def loopRoot : Node Nat := Node.mk (some 0) none no_op 0 0 false

/-- The successor of the root in the one-state problem, as queued. -/
def loopChild : Node Nat := Node.mk (some 0) (some loopRoot) 0 1 0 false

/-- The engine for the counter with the bound set to 0: the root, scored 1, is pruned. -/
def zeroBoundEngine : RP_IW Nat Nat := set_bound chainEnv (RP_IW.new infty 0) 0

def zeroBoundStarted : RP_IW Nat Nat :=
  match start chainEnv zeroBoundEngine none with
  | .ok e => e
  | .error _ => zeroBoundEngine

/-- The counter with the goal already satisfied by the initial state. -/
def goalAtInitModel : Search_Model Nat :=
  { init := 0, goal := fun s => decide (s = 0), applicable_set_v2 := fun _ => [0],
    next := fun s _ => s + 1, cost := fun _ _ => 1,
    actions := fun _ => { add_vec := [1], ceff_vec := [⟨[2]⟩], cost := 1 } }

def goalAtInitEnv : Env Nat Nat :=
  { m_problem := goalAtInitModel, novelty := chainEnv.novelty, m_rp_h := chainEnv.m_rp_h }

def goalAtInitPruned : RP_IW Nat Nat :=
  match start goalAtInitEnv (set_bound goalAtInitEnv (RP_IW.new infty 0) 0) none with
  | .ok e => e
  | .error _ => RP_IW.new infty 0

/-- The counter whose action costs one half, both as the action's own cost and as the
model's transition cost. -/
def halfModel : Search_Model Nat :=
  { init := 0, goal := fun s => decide (s = 2), applicable_set_v2 := fun _ => [0],
    next := fun s _ => s + 1, cost := fun _ _ => 1 / 2,
    actions := fun _ => { add_vec := [1], ceff_vec := [⟨[2]⟩], cost := 1 / 2 } }

def halfEnv : Env Nat Nat :=
  { m_problem := halfModel, novelty := chainEnv.novelty, m_rp_h := chainEnv.m_rp_h }

/-- The engine for the half-cost counter after `start()` and the first `get_node()`. -/
def halfPopped : RP_IW Nat Nat :=
  match start halfEnv (set_bound halfEnv (RP_IW.new infty 0) 1) none with
  | .ok e =>
    (match get_node e with
     | .ok r => r.2
     | .error _ => e)
  | .error _ => RP_IW.new infty 0

def halfProcessed : Option (Node Nat) × RP_IW Nat Nat :=
  match process halfEnv halfPopped chainRoot with
  | .ok r => r
  | .error _ => (none, halfPopped)

/-- The successor of the root of the half-cost counter, as queued: its `m_g` is 0. -/
def halfChild : Node Nat := Node.mk (some 1) (some chainRoot) 0 0 2 false

/-- The counter whose action has own cost 1 while the model's transition cost is 2. -/
def mismatchModel : Search_Model Nat :=
  { init := 0, goal := fun s => decide (s = 2), applicable_set_v2 := fun _ => [0],
    next := fun s _ => s + 1, cost := fun _ _ => 2,
    actions := fun _ => { add_vec := [1], ceff_vec := [⟨[2]⟩], cost := 1 } }

def mismatchEnv : Env Nat Nat :=
  { m_problem := mismatchModel, novelty := chainEnv.novelty, m_rp_h := chainEnv.m_rp_h }

def mismatchProcessed : Option (Node Nat) × RP_IW Nat Nat :=
  match process mismatchEnv chainPopped chainRoot with
  | .ok r => r
  | .error _ => (none, chainPopped)


/-- A binary tree of states: action `0` leads from `s` to `2 s + 1`, adds fluent 1 and
costs one half; action `1` leads to `2 s + 2`, adds fluent 2 and costs three halves.  The
goal is the state 13. -/
def forkModel : Search_Model Nat :=
  { init := 0, goal := fun s => decide (s = 13), applicable_set_v2 := fun _ => [0, 1],
    next := fun s a => if a = 0 then 2 * s + 1 else 2 * s + 2,
    cost := fun _ a => if a = 0 then 1 / 2 else 3 / 2,
    actions := fun a =>
      if a = 0 then { add_vec := [1], ceff_vec := [], cost := 1 / 2 }
      else { add_vec := [2], ceff_vec := [], cost := 3 / 2 } }

/-- The binary tree with the evaluator that scores every node 1 and a heuristic whose
relaxed plan is the two actions. -/
def forkEnv : Env Nat Nat :=
  { m_problem := forkModel, novelty := chainEnv.novelty,
    m_rp_h := { eval := fun _ => [0, 1], eval_goals := fun _ _ => [0, 1] } }

/-- A freshly constructed engine for the binary tree, with the bound set to 1. -/
def forkEngine : RP_IW Nat Nat := set_bound forkEnv (RP_IW.new infty 0) 1

/-- The engine for the binary tree after `start()`. -/
def forkStarted : RP_IW Nat Nat :=
  match start forkEnv forkEngine none with
  | .ok e => e
  | .error _ => forkEngine

/-- The engine for the binary tree after the root has been dequeued. -/
def forkPopped : RP_IW Nat Nat :=
  match get_node forkStarted with
  | .ok r => r.2
  | .error _ => forkStarted

/-- The two children of the root of the binary tree, as queued. -/
def forkLeft : Node Nat := Node.mk (some 1) (some chainRoot) 0 0 1 false

def forkRight : Node Nat := Node.mk (some 2) (some chainRoot) 1 1 1 false

/-- The two children of the left child of the root, as queued. -/
def forkLeftLeft : Node Nat := Node.mk (some 3) (some forkLeft) 0 0 1 false

def forkLeftRight : Node Nat := Node.mk (some 4) (some forkLeft) 1 1 2 false

/-- The engine for the binary tree after `process(root)`. -/
def forkExpanded1 : RP_IW Nat Nat :=
  match process forkEnv forkPopped chainRoot with
  | .ok r => r.2
  | .error _ => forkPopped

/-- The engine for the binary tree at the second test of the loop of `do_search`: the root
is closed, the left child is in hand. -/
def forkState1 : RP_IW Nat Nat :=
  match get_node (close (inc_exp forkExpanded1) chainRoot) with
  | .ok r => r.2
  | .error _ => forkExpanded1

/-- The engine for the binary tree after `process` of the left child. -/
def forkExpanded2 : RP_IW Nat Nat :=
  match process forkEnv forkState1 forkLeft with
  | .ok r => r.2
  | .error _ => forkState1

/-- The engine for the binary tree at the third test of the loop of `do_search`: the root
and the left child are closed, the right child is in hand, and the two children of the
left child are queued. -/
def forkState2 : RP_IW Nat Nat :=
  match get_node (close (inc_exp forkExpanded2) forkLeft) with
  | .ok r => r.2
  | .error _ => forkExpanded2

/-- The engine for the binary tree after `process` of the right child. -/
def forkExpanded3 : RP_IW Nat Nat :=
  match process forkEnv forkState2 forkRight with
  | .ok r => r.2
  | .error _ => forkState2

/-- The engine for the binary tree at the fourth test of the loop of `do_search`. -/
def forkState3 : RP_IW Nat Nat :=
  match get_node (close (inc_exp forkExpanded3) forkRight) with
  | .ok r => r.2
  | .error _ => forkExpanded3

/-! ### Further definitions: hash, generated nodes, loop states, reference search -/

/-- The method `hash`: the hash of the state when the node has one, else the cached
`m_hash`.  The hash function of the state type and the cached value are passed in. -/
def Node.hash {σ : Type} (state_hash : σ → Nat) (m_hash : Nat) (n : Node σ) : Nat :=
  match n.m_state with
  | some s => state_hash s
  | none => m_hash

/-- The engine of the one-state problem when its second node, the successor of the root,
has been dequeued: the root is in the closed set. -/
def loopSecond : RP_IW Nat Nat :=
  match get_node loopStarted with
  | .error _ => loopStarted
  | .ok r1 =>
    match process loopEnv r1.2 loopRoot with
    | .error _ => loopStarted
    | .ok r2 =>
      match get_node (close (inc_exp r2.2) loopRoot) with
      | .error _ => loopStarted
      | .ok r3 => r3.2

/-- The successor of the successor of the root in the one-state problem, as built by
`process` before pruning. -/
def loopGrandchild : Node Nat := Node.mk (some 0) (some loopChild) 0 2 0 false

/-- The result of pruning the second successor in the one-state problem. -/
def loopPruneResult : Bool × Node Nat × RP_IW Nat Nat :=
  match prune loopEnv loopSecond loopGrandchild with
  | .ok r => r
  | .error _ => (false, loopGrandchild, loopSecond)

/-- The node was built by the search from the root `r`: it is `r` itself, or it is what
`process` builds for an action `a` from a built parent with a state: the successor state,
the parent link, `m_g` the `unsigned` sum of the parent's `m_g` and the own cost of `a`, some
partition, and the equality flag off. -/
inductive Built {σ ν : Type} (C : Env σ ν) (r : Node σ) : Node σ → Prop where
  | root : Built C r r
  | child (p : Node σ) (ps : σ) (a : Action_Idx) (pt : Nat) :
      Built C r p → p.m_state = some ps →
      Built C r (Node.mk (some (C.m_problem.next ps a)) (some p) a
        (child_g p.m_g (C.m_problem.actions a).cost) pt false)

/-- The node was built from `r` and its partition is the count that the loop of
`rp_fl_achieved` computes for it with the relevant-fluent set `R` and a clear marker set. -/
def Good {σ ν : Type} (C : Env σ ν) (r : Node σ) (R : Fluent_Set) (n : Node σ) : Prop :=
  Built C r n ∧ ∃ K, rp_fl_walk C R n (0, ∅) = .ok (n.m_partition, K)

/-- The nodes queued so far, in the order in which they were queued: the closed set in
the order of closing, the node being expanded if any, and the frontier. -/
def history {σ ν : Type} (head : Option (Node σ)) (e : RP_IW σ ν) : List (Node σ) :=
  e.m_closed ++ head.toList ++ e.m_open

/-- The discipline of the engine during a search from the root `r` with relevant-fluent
set `R`, `head` being the node dequeued and not yet closed, if any. -/
structure Inv {σ ν : Type} [DecidableEq σ] (C : Env σ ν) (r : Node σ) (R : Fluent_Set)
    (head : Option (Node σ)) (e : RP_IW σ ν) : Prop where
  root : e.m_root = some r
  root_shape : ∃ rs, r = Node.mk (some rs) none no_op 0 0 false
  rp_set : e.m_rp_fl_set = R
  counted : e.counted = ∅
  cl_count : e.m_cl_count = 0
  index : e.m_open_hash = e.m_open
  distinct : e.m_open.Pairwise (fun m n => Node.eq m n ≠ .ok true)
  hist_good : ∀ n ∈ history head e, Good C r R n
  hist_nodup : (history head e).Nodup
  hist_sorted : (history head e).Pairwise (fun m n => m.depth ≤ n.depth)
  depth_spread : ∀ m ∈ head.toList ++ e.m_open, ∀ n ∈ head.toList ++ e.m_open,
    n.depth ≤ m.depth + 1
  gen_count : e.m_gen_count
    = (e.m_closed.length + e.m_open.length + head.toList.length) % UNSIGNED_MOD
  exp_count : e.m_exp_count = e.m_closed.length % UNSIGNED_MOD

/-- The pairs of a dequeued node and an engine at the test of the `while (head)` loop of
`do_search` run on the engine `e0`: the first, when the node dequeued before the loop is
not a goal, and the one reached from another by an iteration that does not return. -/
inductive Loop_State {σ ν : Type} [DecidableEq σ] (C : Env σ ν) (e0 : RP_IW σ ν) :
    Option (Node σ) → RP_IW σ ν → Prop where
  | entry (head : Option (Node σ)) (e1 : RP_IW σ ν) :
      get_node e0 = .ok (head, e1) → is_goal C head = .ok false → Loop_State C e0 head e1
  | iter (head0 head : Node σ) (e e1 e3 : RP_IW σ ν) (next : Option (Node σ)) :
      Loop_State C e0 (some head0) e → materialize C head0 = .ok head →
      process C e head = .ok (none, e1) →
      get_node (close (inc_exp e1) head) = .ok (next, e3) → Loop_State C e0 next e3

/-- The frontier, the open index and the closed set are consistent: the open index holds
exactly the queued nodes, no two distinct queued nodes compare equal, and no queued node
is in the closed set. -/
def Frontier_Discipline {σ ν : Type} [DecidableEq σ] (e : RP_IW σ ν) : Prop :=
  e.m_open_hash = e.m_open ∧
  (∀ m ∈ e.m_open, ∀ n ∈ e.m_open, m ≠ n → Node.eq m n = .ok false) ∧
  (∀ n ∈ e.m_open, n ∉ e.m_closed)

/-- The node `n` is a child of `head` that a call of `prune` in `process(head)` accepted:
it is the node that call returned, with the partition that call assigned. -/
def Accepted_Child {σ ν : Type} [DecidableEq σ] (C : Env σ ν) (head n : Node σ) : Prop :=
  n.m_parent = some head ∧
  ∃ (hs : σ) (a : Action_Idx) (x x1 : RP_IW σ ν), head.m_state = some hs ∧
    prune C x (Node.new (some (C.m_problem.next hs a)) a (some head)
      (C.m_problem.actions a).cost) = .ok (false, n, x1)

/-- The node has a state, and the state fails the goal test. -/
def Non_Goal {σ ν : Type} (C : Env σ ν) (n : Node σ) : Prop :=
  ∃ s, n.m_state = some s ∧ C.m_problem.goal s = false

/-- The node has a materialised state, and the state satisfies the goal test. -/
def Has_Goal {σ ν : Type} (C : Env σ ν) (n : Node σ) : Prop :=
  ∃ s, n.m_state = some s ∧ C.m_problem.goal s = true

/-- Reference search with the goal test at dequeueing, one iteration of the expansion of
`head`: the successor is built and pruned or queued as in `process`, and is not tested
for the goal. -/
def ref_process_step {σ ν : Type} [DecidableEq σ] (C : Env σ ν) (head : Node σ) (hs : σ)
    (a : Action_Idx) (e : RP_IW σ ν) : Except Fault (RP_IW σ ν) :=
  let succ := C.m_problem.next hs a
  let n := Node.new (some succ) a (some head) (C.m_problem.actions a).cost
  match prune C e n with
  | .error f => .error f
  | .ok (true, _, e1) => .ok e1
  | .ok (false, n1, e1) => .ok (open_node e1 n1)

/-- Reference search with the goal test at dequeueing: the expansion loop over the
applicable actions still to be tried. -/
def ref_process_loop {σ ν : Type} [DecidableEq σ] (C : Env σ ν) (head : Node σ) (hs : σ) :
    List Action_Idx → RP_IW σ ν → Except Fault (RP_IW σ ν)
  | [], e => .ok e
  | a :: rest, e =>
    match ref_process_step C head hs a e with
    | .error f => .error f
    | .ok e1 => ref_process_loop C head hs rest e1

/-- Reference search with the goal test at dequeueing: the expansion of `head`. -/
def ref_process {σ ν : Type} [DecidableEq σ] (C : Env σ ν) (e : RP_IW σ ν) (head : Node σ) :
    Except Fault (RP_IW σ ν) :=
  match head.m_state with
  | none => .error Fault.null_deref
  | some hs => ref_process_loop C head hs (C.m_problem.applicable_set_v2 hs) e

/-- Reference search with the goal test at dequeueing: the main loop.  The dequeued node
is materialised and tested for the goal; a goal node is returned, any other node is
expanded and closed and the next node is dequeued.  An empty frontier ends the search
without a node. -/
def ref_search_loop {σ ν : Type} [DecidableEq σ] (C : Env σ ν) :
    Nat → Option (Node σ) → RP_IW σ ν → Except Fault (Option (Node σ) × RP_IW σ ν)
  | _, none, e => .ok (none, e)
  | 0, some _, _ => .error Fault.out_of_fuel
  | fuel + 1, some head0, e =>
    match materialize C head0 with
    | .error f => .error f
    | .ok head =>
      match is_goal C (some head) with
      | .error f => .error f
      | .ok true => .ok (some head, e)
      | .ok false =>
        match ref_process C e head with
        | .error f => .error f
        | .ok e1 =>
          match get_node (close (inc_exp e1) head) with
          | .error f => .error f
          | .ok (next, e3) => ref_search_loop C fuel next e3

/-- Reference search with the goal test at dequeueing, from a started engine. -/
def ref_search {σ ν : Type} [DecidableEq σ] (C : Env σ ν) (fuel : Nat) (e : RP_IW σ ν) :
    Except Fault (Option (Node σ) × RP_IW σ ν) :=
  match get_node e with
  | .error f => .error f
  | .ok (head, e1) => ref_search_loop C fuel head e1

/-- The result of `do_search` on the started engine of the counter. -/
def chainFound : Option (Node Nat) × RP_IW Nat Nat :=
  match do_search chainEnv 10 chainStarted with
  | .ok r => r
  | .error _ => (none, chainStarted)

/-- The goal node of the counter: state 2, reached by applying action `0` twice. -/
def chainGoal : Node Nat :=
  Node.mk (some 2) (some (Node.mk (some 1) (some chainRoot) 0 1 2 false)) 0 2 2 false

/-- Along the parent chain of the node, `g` never decreases from parent to child, and it
is 0 at the parentless node. -/
def Node.g_monotone {σ : Type} : Node σ → Prop
  | Node.mk _ none _ g _ _ => g = 0
  | Node.mk _ (some p) _ g _ _ => p.m_g ≤ g ∧ Node.g_monotone p

/-- No link of the parent chain of the node overflows the `unsigned` field `g`: at each
node with a parent, the `float` sum of the `g` of the parent and the cost of the node's
action, which the constructor converts to `unsigned`, is below 2^32. -/
def Node.g_in_range {σ ν : Type} (C : Env σ ν) : Node σ → Prop
  | Node.mk _ none _ _ _ _ => True
  | Node.mk _ (some p) a _ _ _ =>
    float_round (float_round (p.m_g : ℚ) + (C.m_problem.actions a).cost) < (UNSIGNED_MOD : ℚ) ∧
      Node.g_in_range C p

/-- The engine for the counter with relaxed-plan mode switched off, after `start()`. -/
def chainPlainStarted : RP_IW Nat Nat :=
  match start chainEnv (set_use_relplan chainEngine false) none with
  | .ok e => e
  | .error _ => chainEngine

/-- The engine for the counter with relaxed-plan mode off after the first `get_node()`. -/
def chainPlainPopped : RP_IW Nat Nat :=
  match get_node chainPlainStarted with
  | .ok r => r.2
  | .error _ => chainPlainStarted

/-- The engine for the one-state problem with the bound set to 0: the root, scored 1, is
pruned by `start()`. -/
def loopZeroEngine : RP_IW Nat Nat := set_bound loopEnv (RP_IW.new infty 0) 0

def loopZeroStarted : RP_IW Nat Nat :=
  match start loopEnv loopZeroEngine none with
  | .ok e => e
  | .error _ => loopZeroEngine

/-- What `operator==` compares on a node with a state: the state and the partition. -/
def Node.key {σ : Type} (n : Node σ) : Option σ × Nat := (n.m_state, n.m_partition)

/-- The loop state of a search over the finite set of states `S`: the discipline of the
loop holds, every stored node has a state in `S` and a partition of at most the number of
relevant fluents, and at most two stored nodes carry the same state and partition. -/
structure Exhaust_Inv {σ ν : Type} [DecidableEq σ] (C : Env σ ν) (S : Finset σ)
    (r : Node σ) (R : Fluent_Set) (head : Option (Node σ)) (e : RP_IW σ ν) : Prop where
  inv : Inv C r R head e
  states : ∀ n ∈ history head e, ∃ x ∈ S, n.m_state = some x
  parts : ∀ n ∈ history head e, n.m_partition ≤ R.card
  twice : ∀ k : Option σ × Nat, (history head e).countP (fun n => decide (n.key = k)) ≤ 2


/-- Induction along the parent chain of a node. -/
theorem Node.chain_induction {σ : Type} {motive : Node σ → Prop}
    (root : ∀ s a g pt c, motive (Node.mk s none a g pt c))
    (child : ∀ s p a g pt c, motive p → motive (Node.mk s (some p) a g pt c)) :
    ∀ n, motive n
  | Node.mk s none a g pt c => root s a g pt c
  | Node.mk s (some p) a g pt c => child s p a g pt c (Node.chain_induction root child p)

theorem foldl_flatMap_aux {α β γ : Type} (f : γ → β → γ) (g : α → List β) :
    ∀ (l : List α) (acc : γ),
      l.foldl (fun r x => (g x).foldl f r) acc = (l.flatMap g).foldl f acc := by
  intro l
  induction l with
  | nil => intro acc; rfl
  | cons x xs ih =>
    intro acc
    simp only [List.foldl_cons, List.flatMap_cons, List.foldl_append]
    exact ih _

theorem mem_encounter_order {σ ν : Type} (C : Env σ ν) (plan : List Action_Idx) (p : Nat) :
    p ∈ encounter_order C plan ↔
      ∃ a ∈ plan, p ∈ (C.m_problem.actions a).add_vec ∨
        ∃ ce ∈ (C.m_problem.actions a).ceff_vec, p ∈ ce.add_vec := by
  unfold encounter_order Action.added
  simp only [List.mem_flatMap, List.mem_append]
  constructor
  · rintro ⟨a, ha, h | h⟩
    · exact ⟨a, ha, Or.inr h⟩
    · exact ⟨a, ha, Or.inl h⟩
  · rintro ⟨a, ha, h | h⟩
    · exact ⟨a, ha, Or.inr h⟩
    · exact ⟨a, ha, Or.inl h⟩


theorem float_to_unsigned_floor (q : ℚ) : float_to_unsigned q = ⌊q⌋₊ % 2 ^ 32 := by
  unfold float_to_unsigned UNSIGNED_MOD
  rw [← Int.floor_toNat, Rat.floor_def]

theorem float_to_unsigned_nat (m : Nat) : float_to_unsigned (m : ℚ) = m % 2 ^ 32 := by
  rw [float_to_unsigned_floor, Nat.floor_natCast]
theorem float_ulp_up_spec : ∀ (fuel : Nat) (q u : ℚ), 1 ≤ q →
    ∃ j : Nat, j ≤ fuel ∧ float_ulp_up fuel q u = u * 2 ^ j ∧ (2 : ℚ) ^ j ≤ q ∧
      (q < 2 ^ (j + 1) ∨ j = fuel) := by
  intro fuel
  induction fuel with
  | zero =>
    intro q u hq
    exact ⟨0, le_refl _, by simp [float_ulp_up], by simpa using hq, Or.inr rfl⟩
  | succ fuel ih =>
    intro q u hq
    unfold float_ulp_up
    by_cases h2 : q < 2
    · rw [if_pos h2]
      exact ⟨0, Nat.zero_le _, by simp, by simpa using hq, Or.inl (by simpa using h2)⟩
    · rw [if_neg h2]
      have hq2 : 1 ≤ q / 2 := by linarith [not_lt.1 h2]
      obtain ⟨j, hj, he, hlo, hhi⟩ := ih (q / 2) (u * 2) hq2
      refine ⟨j + 1, by omega, ?_, ?_, ?_⟩
      · rw [he]; ring
      · rw [pow_succ]; linarith
      · rcases hhi with h | h
        · left
          rw [pow_succ]
          linarith
        · right
          omega

theorem float_ulp_down_spec : ∀ (fuel : Nat) (q u : ℚ),
    ∃ k : Nat, float_ulp_down fuel q u = u / 2 ^ k := by
  intro fuel
  induction fuel with
  | zero =>
    intro q u
    exact ⟨0, by simp [float_ulp_down]⟩
  | succ fuel ih =>
    intro q u
    unfold float_ulp_down
    by_cases h1 : 1 ≤ q
    · rw [if_pos h1]
      exact ⟨0, by simp⟩
    · rw [if_neg h1]
      obtain ⟨k, hk⟩ := ih (q * 2) (u / 2)
      refine ⟨k + 1, ?_⟩
      rw [hk, pow_succ, div_div]
      congr 1
      ring

/-- The unit in the last place at a magnitude of at least 1. -/
theorem float_ulp_large (q : ℚ) (hq : 1 ≤ q) :
    ∃ j : Nat, j ≤ 127 ∧ float_ulp q = 2 ^ j / 2 ^ 23 ∧ (2 : ℚ) ^ j ≤ q ∧
      (q < 2 ^ (j + 1) ∨ j = 127) := by
  have hn : ¬ q < 0 := by linarith
  obtain ⟨j, hj, he, hlo, hhi⟩ := float_ulp_up_spec 127 q (1 / 8388608) hq
  refine ⟨j, hj, ?_, hlo, hhi⟩
  unfold float_ulp
  simp only [hn, if_false, hq, if_true]
  rw [he]
  norm_num
  ring

/-- The unit in the last place at a magnitude below 1 is one over a natural number. -/
theorem float_ulp_small (q : ℚ) (h0 : 0 ≤ q) (h1 : q < 1) :
    ∃ k : Nat, float_ulp q = 1 / (2 ^ 23 * 2 ^ k) := by
  have hn : ¬ q < 0 := by linarith
  have h1n : ¬ 1 ≤ q := by linarith
  obtain ⟨k, hk⟩ := float_ulp_down_spec 126 q (1 / 8388608)
  refine ⟨k, ?_⟩
  unfold float_ulp
  simp only [hn, if_false, h1n]
  rw [hk]
  norm_num
  ring

theorem float_ulp_pos (q : ℚ) (h0 : 0 ≤ q) : 0 < float_ulp q := by
  by_cases h1 : 1 ≤ q
  · obtain ⟨j, _, he, _, _⟩ := float_ulp_large q h1
    rw [he]
    positivity
  · obtain ⟨k, hk⟩ := float_ulp_small q h0 (by linarith)
    rw [hk]
    positivity

theorem round_half_even_floor (x : ℚ) :
    round_half_even x = ⌊x⌋ ∨ round_half_even x = ⌊x⌋ + 1 := by
  unfold round_half_even
  rw [← Rat.floor_def]
  split
  · exact Or.inl rfl
  · split
    · exact Or.inr rfl
    · split
      · exact Or.inl rfl
      · exact Or.inr rfl

theorem round_half_even_int (k : Int) : round_half_even (k : ℚ) = k := by
  unfold round_half_even
  rw [← Rat.floor_def, Int.floor_intCast]
  simp

theorem le_round_half_even (k : Int) (x : ℚ) (h : (k : ℚ) ≤ x) : k ≤ round_half_even x := by
  have hf : k ≤ ⌊x⌋ := Int.le_floor.2 h
  rcases round_half_even_floor x with hr | hr <;> rw [hr] <;> omega

theorem round_half_even_le (k : Int) (x : ℚ) (h : x ≤ (k : ℚ)) : round_half_even x ≤ k := by
  rcases eq_or_lt_of_le h with he | hl
  · rw [he, round_half_even_int]
  · have hf : ⌊x⌋ < k := Int.floor_lt.2 hl
    rcases round_half_even_floor x with hr | hr <;> rw [hr] <;> omega

/-- A value that is a whole number of units in the last place is a `float`. -/
theorem float_round_of_units (q : ℚ) (h0 : 0 ≤ q) (k : Int)
    (hk : q / float_ulp q = (k : ℚ)) : float_round q = q := by
  have hu := float_ulp_pos q h0
  unfold float_round
  rw [hk, round_half_even_int, ← hk]
  field_simp

theorem float_round_nonneg (q : ℚ) (h0 : 0 ≤ q) : 0 ≤ float_round q := by
  have hu := float_ulp_pos q h0
  unfold float_round
  have h1 : (0 : Int) ≤ round_half_even (q / float_ulp q) :=
    le_round_half_even 0 _ (by simpa using div_nonneg h0 hu.le)
  have h2 : (0 : ℚ) ≤ (round_half_even (q / float_ulp q) : ℚ) := by exact_mod_cast h1
  exact mul_nonneg h2 hu.le

theorem pow_two_exp_le {a b : Nat} (h : (2 : ℚ) ^ a ≤ 2 ^ b) : a ≤ b :=
  (pow_le_pow_iff_right₀ (by norm_num : (1 : ℚ) < 2)).1 h

theorem pow_two_exp_lt {a b : Nat} (h : (2 : ℚ) ^ a < 2 ^ b) : a < b :=
  (pow_lt_pow_iff_right₀ (by norm_num : (1 : ℚ) < 2)).1 h

/-- Every natural number up to `2 ^ 24` is a `float`. -/
theorem float_round_nat (n : Nat) (hn : n ≤ 2 ^ 24) : float_round (n : ℚ) = n := by
  rcases Nat.eq_zero_or_pos n with h0 | hpos
  · subst h0
    exact float_round_of_units _ (by simp) 0 (by simp)
  · have h1 : (1 : ℚ) ≤ n := by exact_mod_cast hpos
    have hnq : (n : ℚ) ≤ 2 ^ 24 := by exact_mod_cast hn
    obtain ⟨j, _, he, hlo, _⟩ := float_ulp_large (n : ℚ) h1
    have hj : j ≤ 24 := pow_two_exp_le (le_trans hlo hnq)
    rcases Nat.lt_or_ge j 24 with hlt | hge
    · refine float_round_of_units _ (by positivity) ((n * 2 ^ (23 - j) : Nat) : Int) ?_
      rw [he]
      have hsplit : (2 : ℚ) ^ 23 = 2 ^ j * 2 ^ (23 - j) := by
        rw [← pow_add]
        congr 1
        omega
      rw [hsplit]
      push_cast
      field_simp
      ring
    · have hj24 : j = 24 := by omega
      subst hj24
      have hn24 : (n : ℚ) = 2 ^ 24 := le_antisymm hnq hlo
      refine float_round_of_units _ (by positivity) ((2 ^ 23 : Nat) : Int) ?_
      rw [he, hn24]
      norm_num

/-- Rounding to `float` does not take a value below a `float` natural number under it. -/
theorem float_round_ge_nat (m : Nat) (hrep : float_round (m : ℚ) = m) (x : ℚ)
    (hx : (m : ℚ) ≤ x) : (m : ℚ) ≤ float_round x := by
  rcases Nat.eq_zero_or_pos m with h0 | hpos
  · subst h0
    simpa using float_round_nonneg x (by simpa using hx)
  · have h1 : (1 : ℚ) ≤ m := by exact_mod_cast hpos
    have hx1 : (1 : ℚ) ≤ x := le_trans h1 hx
    have hx0 : (0 : ℚ) ≤ x := by linarith
    obtain ⟨jm, hjm, hem, hlom, hhim⟩ := float_ulp_large (m : ℚ) h1
    obtain ⟨jx, hjx, hex, hlox, hhix⟩ := float_ulp_large x hx1
    have hle : jm ≤ jx := by
      rcases hhix with h | h
      · have := pow_two_exp_lt (lt_of_le_of_lt (le_trans hlom hx) h)
        omega
      · omega
    have hux : 0 < float_ulp x := float_ulp_pos x hx0
    rcases Nat.eq_or_lt_of_le hle with heq | hlt
    · have hu : float_ulp (m : ℚ) = float_ulp x := by rw [hem, hex, heq]
      have hm : ((round_half_even ((m : ℚ) / float_ulp x) : Int) : ℚ) * float_ulp x = m := by
        have := hrep
        unfold float_round at this
        rw [hu] at this
        exact this
      have hK : ((round_half_even ((m : ℚ) / float_ulp x) : Int) : ℚ) ≤ x / float_ulp x := by
        rw [le_div_iff₀ hux, hm]
        exact hx
      have hK2 := le_round_half_even _ _ hK
      have hK3 : ((round_half_even ((m : ℚ) / float_ulp x) : Int) : ℚ)
          ≤ (round_half_even (x / float_ulp x) : ℚ) := by exact_mod_cast hK2
      unfold float_round
      calc (m : ℚ) = ((round_half_even ((m : ℚ) / float_ulp x) : Int) : ℚ) * float_ulp x :=
            hm.symm
        _ ≤ (round_half_even (x / float_ulp x) : ℚ) * float_ulp x :=
            mul_le_mul_of_nonneg_right hK3 hux.le
    · have hm2 : (m : ℚ) < 2 ^ jx := by
        rcases hhim with h | h
        · exact lt_of_lt_of_le h (pow_le_pow_right₀ (by norm_num) (by omega))
        · omega
      have hq : ((2 ^ 23 : Nat) : Int) ≤ round_half_even (x / float_ulp x) := by
        apply le_round_half_even
        rw [le_div_iff₀ hux, hex]
        push_cast
        have h8 : (8388608 : ℚ) * (2 ^ jx / 2 ^ 23) = 2 ^ jx := by
          rw [show (2 : ℚ) ^ 23 = 8388608 by norm_num]
          field_simp
        rw [h8]
        exact hlox
      have hq2 : ((2 : ℚ) ^ 23) ≤ (round_half_even (x / float_ulp x) : ℚ) := by
        exact_mod_cast hq
      unfold float_round
      have : (2 : ℚ) ^ jx ≤ (round_half_even (x / float_ulp x) : ℚ) * float_ulp x := by
        calc (2 : ℚ) ^ jx = 2 ^ 23 * float_ulp x := by rw [hex]; field_simp
          _ ≤ _ := mul_le_mul_of_nonneg_right hq2 hux.le
      linarith

/-- A value below 1 is rounded to at most 1. -/
theorem float_round_small (x : ℚ) (h0 : 0 ≤ x) (h1 : x < 1) : float_round x ≤ 1 := by
  obtain ⟨k, hk⟩ := float_ulp_small x h0 h1
  have hu := float_ulp_pos x h0
  have hD : (0 : ℚ) < 2 ^ 23 * 2 ^ k := by positivity
  have hr : round_half_even (x / float_ulp x) ≤ ((2 ^ 23 * 2 ^ k : Nat) : Int) := by
    apply round_half_even_le
    rw [hk]
    push_cast
    rw [div_le_iff₀ (by positivity)]
    have : (8388608 : ℚ) * 2 ^ k * (1 / (2 ^ 23 * 2 ^ k)) = 1 := by
      rw [show (2 : ℚ) ^ 23 = 8388608 by norm_num]
      field_simp
    rw [this]
    exact h1.le
  have hr2 : (round_half_even (x / float_ulp x) : ℚ) ≤ ((2 ^ 23 * 2 ^ k : Nat) : ℚ) := by
    exact_mod_cast hr
  unfold float_round
  calc (round_half_even (x / float_ulp x) : ℚ) * float_ulp x
      ≤ ((2 ^ 23 * 2 ^ k : Nat) : ℚ) * float_ulp x := mul_le_mul_of_nonneg_right hr2 hu.le
    _ = 1 := by
      rw [hk]
      push_cast
      field_simp
      norm_num

/-- The integer part of a `float` below `2 ^ 32` is a `float`: what the constructor stores
in `m_g` converts back to `float` without rounding. -/
theorem float_round_floor (x : ℚ) (h0 : 0 ≤ x) (hlt : float_round x < 2 ^ 32) :
    float_round ((⌊float_round x⌋₊ : Nat) : ℚ) = (⌊float_round x⌋₊ : Nat) := by
  have hf0 := float_round_nonneg x h0
  rcases le_or_lt ⌊float_round x⌋₊ (2 ^ 24) with hsmall | hbig
  · exact float_round_nat _ hsmall
  · have hfbig : (2 : ℚ) ^ 24 < float_round x := by
      have h1 : ((2 ^ 24 : Nat) : ℚ) < (⌊float_round x⌋₊ : ℚ) := by exact_mod_cast hbig
      have h2 : (⌊float_round x⌋₊ : ℚ) ≤ float_round x := Nat.floor_le hf0
      push_cast at h1
      linarith
    have hx1 : (1 : ℚ) ≤ x := by
      by_contra hc
      have := float_round_small x h0 (lt_of_not_le hc)
      have h24 : (1 : ℚ) < 2 ^ 24 := by norm_num
      linarith
    have hu := float_ulp_pos x h0
    obtain ⟨j, hj, he, hlo, hhi⟩ := float_ulp_large x hx1
    have hunit : (2 : ℚ) ^ 23 * float_ulp x = 2 ^ j := by rw [he]; field_simp
    -- the rounded quotient lies between 2^23 and 2^24
    have hr1 : ((2 ^ 23 : Nat) : Int) ≤ round_half_even (x / float_ulp x) := by
      apply le_round_half_even
      rw [le_div_iff₀ hu]
      push_cast
      rw [show (8388608 : ℚ) = 2 ^ 23 by norm_num, hunit]
      exact hlo
    have hr1q : (2 : ℚ) ^ 23 ≤ (round_half_even (x / float_ulp x) : ℚ) := by
      exact_mod_cast hr1
    have hfval : float_round x = (round_half_even (x / float_ulp x) : ℚ) * float_ulp x := rfl
    have hjf : (2 : ℚ) ^ j ≤ float_round x := by
      rw [hfval, ← hunit]
      exact mul_le_mul_of_nonneg_right hr1q hu.le
    have hj32 : j < 32 := pow_two_exp_lt (lt_of_le_of_lt hjf hlt)
    have hxhi : x < 2 ^ (j + 1) := by
      rcases hhi with h | h
      · exact h
      · omega
    have hr2 : round_half_even (x / float_ulp x) ≤ ((2 ^ 24 : Nat) : Int) := by
      apply round_half_even_le
      rw [div_le_iff₀ hu]
      push_cast
      have : (16777216 : ℚ) * float_ulp x = 2 ^ (j + 1) := by
        rw [pow_succ, ← hunit]
        norm_num
        ring
      rw [this]
      exact hxhi.le
    have hr2q : (round_half_even (x / float_ulp x) : ℚ) ≤ 2 ^ 24 := by
      exact_mod_cast hr2
    have hfle : float_round x ≤ 2 ^ (j + 1) := by
      rw [hfval]
      calc (round_half_even (x / float_ulp x) : ℚ) * float_ulp x
          ≤ 2 ^ 24 * float_ulp x := mul_le_mul_of_nonneg_right hr2q hu.le
        _ = 2 ^ (j + 1) := by
          rw [pow_succ (2 : ℚ) j, ← hunit]
          ring
    have hj24 : 24 ≤ j := by
      have := pow_two_exp_lt (lt_of_lt_of_le hfbig hfle)
      omega
    -- the unit is a natural number and the rounded value is a natural number
    obtain ⟨d, hd⟩ : ∃ d, j = 23 + d := ⟨j - 23, by omega⟩
    have hud : float_ulp x = 2 ^ d := by
      rw [he, hd, pow_add]
      field_simp
    have hrpos : (0 : Int) ≤ round_half_even (x / float_ulp x) := le_trans (by positivity) hr1
    obtain ⟨r, hr⟩ := Int.eq_ofNat_of_zero_le hrpos
    have hN : float_round x = ((r * 2 ^ d : Nat) : ℚ) := by
      rw [hfval, hr, hud]
      push_cast
      rfl
    have hfloor : ⌊float_round x⌋₊ = r * 2 ^ d := by
      rw [hN, Nat.floor_natCast]
    rw [hfloor]
    have hNq : ((r * 2 ^ d : Nat) : ℚ) = float_round x := hN.symm
    have hN1 : (1 : ℚ) ≤ ((r * 2 ^ d : Nat) : ℚ) := by
      rw [hNq]
      have : (1 : ℚ) ≤ 2 ^ j := one_le_pow₀ (by norm_num)
      linarith
    obtain ⟨j2, hj2, he2, hlo2, hhi2⟩ := float_ulp_large ((r * 2 ^ d : Nat) : ℚ) hN1
    rw [hNq] at hlo2 hhi2
    have hj2lt : j2 < 32 := pow_two_exp_lt (lt_of_le_of_lt hlo2 hlt)
    have hhi3 : float_round x < 2 ^ (j2 + 1) := by
      rcases hhi2 with h | h
      · exact h
      · omega
    have hjle : j ≤ j2 := by
      have := pow_two_exp_lt (lt_of_le_of_lt hjf hhi3)
      omega
    have hjle2 : j2 ≤ j + 1 := pow_two_exp_le (le_trans hlo2 hfle)
    rcases Nat.eq_or_lt_of_le hjle with heq | hlt2
    · refine float_round_of_units _ (by positivity) (r : Int) ?_
      rw [he2, ← heq, ← he, hud]
      push_cast
      field_simp
    · have hj2eq : j2 = j + 1 := by omega
      have hfeq : float_round x = 2 ^ (j + 1) := le_antisymm hfle (by rw [← hj2eq]; exact hlo2)
      refine float_round_of_units _ (by positivity) ((2 ^ 23 : Nat) : Int) ?_
      rw [he2, hNq, hfeq, hj2eq]
      push_cast
      field_simp
      norm_num


/-- With a natural cost and a sum below `2 ^ 24` the constructor stores the exact sum: both
operands and the sum are `float`s. -/
theorem child_g_nat (g k : Nat) (h : g + k < 2 ^ 24) : child_g g (k : ℚ) = g + k := by
  unfold child_g
  rw [float_round_nat g (by omega), ← Nat.cast_add, float_round_nat (g + k) (by omega),
    float_to_unsigned_nat]
  exact Nat.mod_eq_of_lt (lt_trans h (by norm_num))

/-- When the `g` of the parent is a `float`, the cost is not negative and the `float` sum
is below `2 ^ 32`, the stored value is the integer part of the `float` sum, it is not
below the `g` of the parent, and it is a `float` again. -/
theorem child_g_ge (g : Nat) (c : ℚ) (hrep : float_round (g : ℚ) = g) (hc : 0 ≤ c)
    (hlt : float_round (float_round (g : ℚ) + c) < (UNSIGNED_MOD : ℚ)) :
    g ≤ child_g g c ∧ float_round ((child_g g c : Nat) : ℚ) = (child_g g c : Nat) := by
  have hM : ((UNSIGNED_MOD : Nat) : ℚ) = 2 ^ 32 := by
    unfold UNSIGNED_MOD
    norm_num
  rw [hM] at hlt
  have hx0 : (0 : ℚ) ≤ float_round (g : ℚ) + c := by
    rw [hrep]
    exact add_nonneg (Nat.cast_nonneg g) hc
  have hf0 := float_round_nonneg _ hx0
  have hfl : ⌊float_round (float_round (g : ℚ) + c)⌋₊ < 2 ^ 32 := by
    have := (Nat.floor_lt hf0).2 (by exact_mod_cast hlt :
      float_round (float_round (g : ℚ) + c) < ((2 ^ 32 : Nat) : ℚ))
    exact this
  have hval : child_g g c = ⌊float_round (float_round (g : ℚ) + c)⌋₊ := by
    unfold child_g
    rw [float_to_unsigned_floor, Nat.mod_eq_of_lt hfl]
  rw [hval]
  refine ⟨?_, float_round_floor _ hx0 hlt⟩
  apply Nat.le_floor
  apply float_round_ge_nat g hrep
  rw [hrep]
  exact le_add_of_nonneg_right hc

/-- The constructor's sum on a few inputs: a cost of one half is truncated away; a tie is
rounded to the even `float` before the truncation; a parent `g` that no `float` holds is
rounded on conversion, so the stored sum falls below it; and a sum within 128 of `2 ^ 32`
is rounded to `2 ^ 32`, which the `unsigned` field cannot hold. -/
theorem child_g_examples :
    child_g 0 (1 / 2) = 0 ∧ child_g 1 (3 / 2) = 2 ∧ child_g 8388609 (1 / 2) = 8388610 ∧
    child_g 16777217 0 = 16777216 ∧ float_round 16777217 ≠ 16777217 ∧
    float_round 4294967040 = 4294967040 ∧
    float_round (float_round 4294967040 + 200) = 4294967296 := by
  refine ⟨by decide!, by decide!, by decide!, by decide!, by decide!, by decide!, by decide!⟩

theorem retrieve_none {σ : Type} [DecidableEq σ] (n : Node σ) :
    ∀ l : Closed_List σ, Closed_List.retrieve l n = .ok none → ¬ in_index l n := by
  intro l
  induction l with
  | nil => intro _ h; obtain ⟨m, hm, _⟩ := h; cases hm
  | cons x xs ih =>
    intro h hin
    unfold Closed_List.retrieve at h
    split at h
    · cases h
    · cases h
    · rename_i hx
      obtain ⟨m, hm, hmeq⟩ := hin
      rcases List.mem_cons.1 hm with rfl | hm
      · rw [hx] at hmeq; cases hmeq
      · exact ih h ⟨m, hm, hmeq⟩

theorem retrieve_some {σ : Type} [DecidableEq σ] (n m : Node σ) :
    ∀ l : Closed_List σ, Closed_List.retrieve l n = .ok (some m) → in_index l n := by
  intro l
  induction l with
  | nil => intro h; cases h
  | cons x xs ih =>
    intro h
    unfold Closed_List.retrieve at h
    split at h
    · cases h
    · rename_i hx
      exact ⟨x, List.mem_cons_self _ _, hx⟩
    · obtain ⟨k, hk, hkeq⟩ := ih h
      exact ⟨k, List.mem_cons_of_mem _ hk, hkeq⟩

theorem retrieve_isSome {σ : Type} [DecidableEq σ] (l : Closed_List σ) (n : Node σ)
    (r : Option (Node σ)) (h : Closed_List.retrieve l n = .ok r) :
    r.isSome = true ↔ in_index l n := by
  cases r with
  | none => simpa using retrieve_none n l h
  | some m => simpa using retrieve_some n m l h

theorem is_closed_iff {σ ν : Type} [DecidableEq σ] (e : RP_IW σ ν) (n : Node σ) (b : Bool)
    (h : is_closed e n = .ok b) : b = true ↔ in_index e.m_closed n := by
  unfold is_closed at h
  split at h
  · cases h
  · rename_i r hr
    injection h with h
    rw [← h]
    exact retrieve_isSome _ _ _ hr

theorem previously_hashed_iff {σ ν : Type} [DecidableEq σ] (e : RP_IW σ ν) (n : Node σ)
    (b : Bool) (h : previously_hashed e n = .ok b) : b = true ↔ in_index e.m_open_hash n := by
  unfold previously_hashed at h
  split at h
  · cases h
  · rename_i r hr
    injection h with h
    rw [← h]
    exact retrieve_isSome _ _ _ hr

theorem rp_fl_achieved_ok {σ ν : Type} (C : Env σ ν) (e e1 : RP_IW σ ν) (n : Node σ)
    (c : Nat) (h : rp_fl_achieved C e n = .ok (c, e1)) : e1 = { e with counted := ∅ } := by
  unfold rp_fl_achieved at h
  split at h
  · cases h
  · injection h with h
    injection h with _ h2
    exact h2.symm

/-- The possible outcomes of a returning `prune`, in the order of its checks. -/
theorem prune_ok {σ ν : Type} [DecidableEq σ] (C : Env σ ν) (e e2 : RP_IW σ ν)
    (n n1 : Node σ) (b : Bool) (h : prune C e n = .ok (b, n1, e2)) :
    ∃ count, rp_fl_achieved C e n = .ok (count, { e with counted := ∅ }) ∧
      n1 = n.set_partition count ∧
      ((in_index e.m_closed n1 ∧ b = true ∧ e2 = { e with counted := ∅ }) ∨
       (¬ in_index e.m_closed n1 ∧ in_index e.m_open_hash n1 ∧ b = true ∧
          e2 = { e with counted := ∅ }) ∨
       (¬ in_index e.m_closed n1 ∧ ¬ in_index e.m_open_hash n1 ∧
          (C.novelty.eval e.m_novelty n1).2 > e.m_B ∧ b = true ∧
          e2 = inc_pruned_bound
            { e with counted := ∅, m_novelty := (C.novelty.eval e.m_novelty n1).1 }) ∨
       (¬ in_index e.m_closed n1 ∧ ¬ in_index e.m_open_hash n1 ∧
          (C.novelty.eval e.m_novelty n1).2 ≤ e.m_B ∧ b = false ∧
          e2 = { e with counted := ∅, m_novelty := (C.novelty.eval e.m_novelty n1).1 })) := by
  unfold prune at h
  split at h
  · cases h
  · rename_i count e1 hrp
    have he1 := rp_fl_achieved_ok C e e1 n count hrp
    subst he1
    refine ⟨count, hrp, ?_⟩
    simp only [] at h
    split at h
    · cases h
    · rename_i hcl
      have hin := (is_closed_iff _ _ _ hcl).1 rfl
      injection h with h
      simp only [Prod.mk.injEq] at h
      obtain ⟨hb, hn, he⟩ := h
      exact ⟨hn.symm, Or.inl ⟨by rw [← hn]; exact hin, hb.symm, he.symm⟩⟩
    · rename_i hcl
      have hnin : ¬ in_index e.m_closed (n.set_partition count) := by
        intro hh
        have := (is_closed_iff _ _ _ hcl).2 hh
        cases this
      split at h
      · cases h
      · rename_i hop
        have hin := (previously_hashed_iff _ _ _ hop).1 rfl
        injection h with h
        simp only [Prod.mk.injEq] at h
        obtain ⟨hb, hn, he⟩ := h
        subst hn
        exact ⟨rfl, Or.inr (Or.inl ⟨hnin, hin, hb.symm, he.symm⟩)⟩
      · rename_i hop
        have hnop : ¬ in_index e.m_open_hash (n.set_partition count) := by
          intro hh
          have := (previously_hashed_iff _ _ _ hop).2 hh
          cases this
        split at h
        · rename_i hgt
          injection h with h
          simp only [Prod.mk.injEq] at h
          obtain ⟨hb, hn, he⟩ := h
          subst hn
          exact ⟨rfl, Or.inr (Or.inr (Or.inl ⟨hnin, hnop, hgt, hb.symm, he.symm⟩))⟩
        · rename_i hgt
          injection h with h
          simp only [Prod.mk.injEq] at h
          obtain ⟨hb, hn, he⟩ := h
          subst hn
          exact ⟨rfl, Or.inr (Or.inr (Or.inr ⟨hnin, hnop, not_lt.1 hgt, hb.symm, he.symm⟩))⟩

theorem float_to_unsigned_zero : float_to_unsigned 0 = 0 := by decide!

theorem open_node_open {σ ν : Type} (e : RP_IW σ ν) (n : Node σ) :
    (open_node e n).m_open = e.m_open ++ [n] := by
  unfold open_node inc_gen
  simp only []
  split <;> rfl

theorem open_node_root {σ ν : Type} (e : RP_IW σ ν) (n : Node σ) :
    (open_node e n).m_root = e.m_root := by
  unfold open_node inc_gen
  simp only []
  split <;> rfl

theorem open_node_B {σ ν : Type} (e : RP_IW σ ν) (n : Node σ) :
    (open_node e n).m_B = e.m_B := by
  unfold open_node inc_gen
  simp only []
  split <;> rfl

theorem open_node_exp {σ ν : Type} (e : RP_IW σ ν) (n : Node σ) :
    (open_node e n).m_exp_count = e.m_exp_count := by
  unfold open_node inc_gen
  simp only []
  split <;> rfl

/-- Frame of a returning `prune`: the queue, the root pointer, the bound and the expansion
counter are as before. -/
theorem prune_frame {σ ν : Type} [DecidableEq σ] (C : Env σ ν) (e e2 : RP_IW σ ν)
    (n n1 : Node σ) (b : Bool) (h : prune C e n = .ok (b, n1, e2)) :
    e2.m_open = e.m_open ∧ e2.m_root = e.m_root ∧ e2.m_B = e.m_B ∧
      e2.m_exp_count = e.m_exp_count := by
  obtain ⟨count, _, _, hcases⟩ := prune_ok C e e2 n n1 b h
  rcases hcases with ⟨_, _, he⟩ | ⟨_, _, _, he⟩ | ⟨_, _, _, _, he⟩ | ⟨_, _, _, _, he⟩ <;>
    subst he <;> exact ⟨rfl, rfl, rfl, rfl⟩

/-- The outcomes of one returning iteration of the loop of `process`. -/
theorem process_step_ok {σ ν : Type} [DecidableEq σ] (C : Env σ ν) (head : Node σ) (hs : σ)
    (a : Action_Idx) (e e2 : RP_IW σ ν) (g : Option (Node σ))
    (h : process_step C head hs a e = .ok (g, e2)) :
    (∃ n1, prune C e (Node.new (some (C.m_problem.next hs a)) a (some head)
        (C.m_problem.actions a).cost) = .ok (true, n1, e2) ∧ g = none) ∨
    (∃ n1 e1, prune C e (Node.new (some (C.m_problem.next hs a)) a (some head)
        (C.m_problem.actions a).cost) = .ok (false, n1, e1) ∧ e2 = open_node e1 n1 ∧
      ((g = some n1 ∧ C.m_problem.goal (C.m_problem.next hs a) = true) ∨
       (g = none ∧ C.m_problem.goal (C.m_problem.next hs a) = false))) := by
  unfold process_step at h
  simp only [] at h
  split at h
  · cases h
  · rename_i n1 e1 hp
    injection h with h
    simp only [Prod.mk.injEq] at h
    exact Or.inl ⟨n1, by rw [← h.2]; exact hp, h.1.symm⟩
  · rename_i n1 e1 hp
    have hn1 := (prune_ok C e e1 _ n1 false hp).choose_spec.2.1
    have hst : n1.m_state = some (C.m_problem.next hs a) := by rw [hn1]; rfl
    right
    refine ⟨n1, e1, hp, ?_⟩
    unfold is_goal at h
    simp only [hst] at h
    split at h
    · cases h
    · rename_i hg
      injection hg with hg
      injection h with h
      simp only [Prod.mk.injEq] at h
      exact ⟨h.2.symm, Or.inl ⟨h.1.symm, hg⟩⟩
    · rename_i hg
      injection hg with hg
      injection h with h
      simp only [Prod.mk.injEq] at h
      exact ⟨h.2.symm, Or.inr ⟨h.1.symm, hg⟩⟩

/-- A property of the engine kept by every iteration is kept by the loop of `process`, and
the node it returns, if any, was returned by one of the iterations. -/
theorem process_loop_inv {σ ν : Type} [DecidableEq σ] (C : Env σ ν) (head : Node σ) (hs : σ)
    (I : RP_IW σ ν → Prop) (Q : Node σ → Prop)
    (hstep : ∀ a e g e2, I e → process_step C head hs a e = .ok (g, e2) →
      I e2 ∧ ∀ x, g = some x → Q x) :
    ∀ (acts : List Action_Idx) (e e2 : RP_IW σ ν) (g : Option (Node σ)),
      I e → process_loop C head hs acts e = .ok (g, e2) → I e2 ∧ ∀ x, g = some x → Q x := by
  intro acts
  induction acts with
  | nil =>
    intro e e2 g hI h
    unfold process_loop at h
    injection h with h
    simp only [Prod.mk.injEq] at h
    obtain ⟨hg, he⟩ := h
    subst hg he
    exact ⟨hI, fun x hx => by cases hx⟩
  | cons a rest ih =>
    intro e e2 g hI h
    unfold process_loop at h
    split at h
    · cases h
    · rename_i x e1 hst
      injection h with h
      simp only [Prod.mk.injEq] at h
      obtain ⟨hg, he⟩ := h
      subst hg he
      exact hstep a e _ _ hI hst
    · rename_i e1 hst
      exact ih e1 e2 g (hstep a e _ _ hI hst).1 h

theorem get_node_ok {σ ν : Type} [DecidableEq σ] (e e2 : RP_IW σ ν) (h : Option (Node σ))
    (hg : get_node e = .ok (h, e2)) :
    (e.m_open = [] ∧ h = none ∧ e2 = e) ∨
    (∃ next rest hsh, e.m_open = next :: rest ∧ h = some next ∧
      e2 = { e with m_open := rest, m_open_hash := hsh }) := by
  unfold get_node at hg
  split at hg
  · rename_i hopen
    injection hg with hg
    simp only [Prod.mk.injEq] at hg
    exact Or.inl ⟨hopen, hg.1.symm, hg.2.symm⟩
  · rename_i next rest hopen
    split at hg
    · cases hg
    · split at hg
      · cases hg
      · rename_i hsh _
        injection hg with hg
        simp only [Prod.mk.injEq] at hg
        exact Or.inr ⟨next, rest, hsh, hopen, hg.1.symm, hg.2.symm⟩

theorem descends_state {σ ν : Type} (C : Env σ ν) (r n : Node σ) (rs : σ)
    (hr : r.m_state = some rs) (h : Descends C r n) : ∃ s, n.m_state = some s := by
  cases h with
  | root => exact ⟨rs, hr⟩
  | child p ps a g pt c _ _ => exact ⟨_, rfl⟩

theorem materialize_of_state {σ ν : Type} (C : Env σ ν) (n : Node σ) (s : σ)
    (h : n.m_state = some s) : materialize C n = .ok n := by
  unfold materialize Node.has_state
  simp [h]

theorem alias_update_self {σ ν : Type} [DecidableEq σ] (e : RP_IW σ ν) (n : Node σ) :
    alias_update e n n = e := by
  unfold alias_update
  have hid : (fun x : Node σ => if x = n then n else x) = id := by
    funext x
    by_cases hx : x = n
    · simp [hx]
    · simp [hx]
  rw [hid]
  simp

/-- One iteration of the loop of `process` on a generated head keeps the engine searching
from the same root, and a node it returns is a generated goal node. -/
theorem process_step_searching {σ ν : Type} [DecidableEq σ] (C : Env σ ν) (r head : Node σ)
    (hs : σ) (hhead : Descends C r head) (hst : head.m_state = some hs)
    (a : Action_Idx) (e : RP_IW σ ν) (g : Option (Node σ)) (e2 : RP_IW σ ν)
    (hI : Searching C r e) (h : process_step C head hs a e = .ok (g, e2)) :
    Searching C r e2 ∧ ∀ x, g = some x → Goal_Node C r x := by
  rcases process_step_ok C head hs a e e2 g h with ⟨n1, hp, hg⟩ | ⟨n1, e1, hp, he2, hg⟩
  · obtain ⟨ho, hr, _, _⟩ := prune_frame C e e2 _ n1 true hp
    refine ⟨⟨by rw [hr]; exact hI.1, by rw [ho]; exact hI.2⟩, ?_⟩
    intro x hx; rw [hg] at hx; cases hx
  · obtain ⟨ho, hr, _, _⟩ := prune_frame C e e1 _ n1 false hp
    obtain ⟨count, _, hn1, _⟩ := prune_ok C e e1 _ n1 false hp
    have hd : Descends C r n1 := by
      rw [hn1]
      exact Descends.child head hs a _ _ _ hhead hst
    have hn1s : n1.m_state = some (C.m_problem.next hs a) := by rw [hn1]; rfl
    refine ⟨⟨?_, ?_⟩, ?_⟩
    · rw [he2, open_node_root, hr]; exact hI.1
    · intro n hn
      rw [he2, open_node_open, ho] at hn
      rcases List.mem_append.1 hn with hn | hn
      · exact hI.2 n hn
      · rw [List.mem_singleton.1 hn]; exact hd
    · intro x hx
      rcases hg with ⟨hg1, hgoal⟩ | ⟨hg1, _⟩
      · rw [hg1] at hx
        injection hx with hx
        subst hx
        exact ⟨hd, _, hn1s, hgoal⟩
      · rw [hg1] at hx; cases hx

theorem process_searching {σ ν : Type} [DecidableEq σ] (C : Env σ ν) (r head : Node σ)
    (hhead : Descends C r head) (e : RP_IW σ ν) (g : Option (Node σ)) (e2 : RP_IW σ ν)
    (hI : Searching C r e) (h : process C e head = .ok (g, e2)) :
    Searching C r e2 ∧ ∀ x, g = some x → Goal_Node C r x := by
  unfold process at h
  split at h
  · cases h
  · rename_i hs hst
    exact process_loop_inv C head hs (Searching C r) (Goal_Node C r)
      (fun a e g e2 hI h => process_step_searching C r head hs hhead hst a e g e2 hI h)
      _ e e2 g hI h

/-- The loop of `do_search`, run from an engine searching from `r`, can only return a goal
node generated from `r`, and leaves the root pointer in place. -/
theorem do_search_loop_searching {σ ν : Type} [DecidableEq σ] (C : Env σ ν) (r : Node σ)
    (rs : σ) (hr : r.m_state = some rs) :
    ∀ (fuel : Nat) (head : Option (Node σ)) (e e2 : RP_IW σ ν) (res : Option (Node σ)),
      Searching C r e → (∀ h, head = some h → Descends C r h) →
      do_search_loop C fuel head e = .ok (res, e2) →
      e2.m_root = some r ∧ ∀ x, res = some x → Goal_Node C r x := by
  intro fuel
  induction fuel with
  | zero =>
    intro head e e2 res hI hhead h
    cases head with
    | none =>
      unfold do_search_loop at h
      injection h with h
      simp only [Prod.mk.injEq] at h
      obtain ⟨h1, h2⟩ := h
      subst h1 h2
      exact ⟨hI.1, fun x hx => by cases hx⟩
    | some h0 =>
      unfold do_search_loop at h
      cases h
  | succ fuel ih =>
    intro head e e2 res hI hhead h
    cases head with
    | none =>
      unfold do_search_loop at h
      injection h with h
      simp only [Prod.mk.injEq] at h
      obtain ⟨h1, h2⟩ := h
      subst h1 h2
      exact ⟨hI.1, fun x hx => by cases hx⟩
    | some h0 =>
      have hd0 := hhead h0 rfl
      obtain ⟨s0, hs0⟩ := descends_state C r h0 rs hr hd0
      unfold do_search_loop at h
      rw [materialize_of_state C h0 s0 hs0] at h
      simp only [] at h
      split at h
      · cases h
      · rename_i goal e1 hproc
        obtain ⟨hI1, hQ⟩ := process_searching C r h0 hd0 e goal e1 hI hproc
        cases goal with
        | some g =>
          obtain ⟨hgd, sg, hsg, hgoal⟩ := hQ g rfl
          simp only [] at h
          rw [materialize_of_state C g sg hsg] at h
          simp only [] at h
          injection h with h
          simp only [Prod.mk.injEq] at h
          obtain ⟨h1, h2⟩ := h
          subst h1 h2
          rw [alias_update_self]
          exact ⟨hI1.1, fun x hx => by injection hx with hx; subst hx; exact ⟨hgd, sg, hsg, hgoal⟩⟩
        | none =>
          simp only [] at h
          split at h
          · cases h
          · rename_i next e3 hget
            have hI2 : Searching C r (close (inc_exp e1) h0) := ⟨hI1.1, hI1.2⟩
            rcases get_node_ok _ _ _ hget with ⟨_, hn, he⟩ | ⟨nx, rest, hsh, hopen, hn, he⟩
            · subst hn he
              exact ih none _ e2 res hI2 (fun h hh => by cases hh) h
            · subst hn he
              refine ih (some nx) _ e2 res ?_ ?_ h
              · refine ⟨hI2.1, ?_⟩
                intro n hn
                have hn2 : n ∈ rest := hn
                exact hI2.2 n (by rw [hopen]; exact List.mem_cons_of_mem _ hn2)
              · intro h hh
                injection hh with hh
                subst hh
                exact hI2.2 _ (by rw [hopen]; exact List.mem_cons_self _ _)

theorem do_search_searching {σ ν : Type} [DecidableEq σ] (C : Env σ ν) (r : Node σ)
    (rs : σ) (hr : r.m_state = some rs) (fuel : Nat) (e e2 : RP_IW σ ν)
    (res : Option (Node σ)) (hI : Searching C r e)
    (h : do_search C fuel e = .ok (res, e2)) :
    e2.m_root = some r ∧ ∀ x, res = some x → Goal_Node C r x := by
  unfold do_search at h
  split at h
  · cases h
  · rename_i head e1 hget
    have hI1 : Searching C r e1 ∧ ∀ h, head = some h → Descends C r h := by
      rcases get_node_ok _ _ _ hget with ⟨_, hn, he⟩ | ⟨nx, rest, hsh, hopen, hn, he⟩
      · subst hn he
        exact ⟨hI, fun h hh => by cases hh⟩
      · subst hn he
        refine ⟨⟨hI.1, ?_⟩, ?_⟩
        · intro n hn
          have hn2 : n ∈ rest := hn
          exact hI.2 n (by rw [hopen]; exact List.mem_cons_of_mem _ hn2)
        · intro h hh
          injection hh with hh
          subst hh
          exact hI.2 _ (by rw [hopen]; exact List.mem_cons_self _ _)
    split at h
    · cases h
    · rename_i hgoal
      injection h with h
      simp only [Prod.mk.injEq] at h
      obtain ⟨h1, h2⟩ := h
      subst h1 h2
      refine ⟨hI1.1.1, ?_⟩
      intro x hx
      subst hx
      cases hxs : x.m_state with
      | none => simp [is_goal, hxs] at hgoal
      | some sg =>
        simp only [is_goal, hxs, Except.ok.injEq] at hgoal
        exact ⟨hI1.2 x rfl, sg, hxs, hgoal⟩
    · exact do_search_loop_searching C r rs hr fuel head e1 e2 res hI1.1 hI1.2 h

theorem start_prepare_root {σ ν : Type} (C : Env σ ν) (e : RP_IW σ ν) (s : Option σ) :
    (start_prepare C e s).1 = Node.mk (some (start_state C s)) none no_op 0 0 false := by
  unfold start_prepare Node.new start_state
  simp only [float_to_unsigned_zero]

theorem start_prepare_fields {σ ν : Type} (C : Env σ ν) (e : RP_IW σ ν) (s : Option σ) :
    (start_prepare C e s).2.m_open = [] ∧ (start_prepare C e s).2.m_closed = [] ∧
    (start_prepare C e s).2.m_open_hash = [] ∧ (start_prepare C e s).2.m_exp_count = 0 ∧
    (start_prepare C e s).2.m_B = e.m_B ∧
    (start_prepare C e s).2.m_root = some (start_prepare C e s).1 := by
  unfold start_prepare
  simp only []
  split <;> simp [set_relplan, reset]

theorem rp_fl_achieved_root {σ ν : Type} (C : Env σ ν) (e : RP_IW σ ν) (st : Option σ)
    (p : Option (Node σ)) (g pt : Nat) (c : Bool) :
    rp_fl_achieved C e (Node.mk st p no_op g pt c) = .ok (0, { e with counted := ∅ }) := by
  unfold rp_fl_achieved rp_fl_walk
  simp

/-- The outcomes of a returning `start`: the root it built is the root pointer, and it is
alone in the queue and the open index unless `prune` rejected it. -/
theorem start_ok {σ ν : Type} [DecidableEq σ] (C : Env σ ν) (e e1 : RP_IW σ ν)
    (s : Option σ) (h : start C e s = .ok e1) :
    ∃ b e5, prune C (start_prepare C e s).2 (start_prepare C e s).1
        = .ok (b, (start_prepare C e s).1, e5) ∧
      e1.m_root = some (start_prepare C e s).1 ∧ e1.m_exp_count = 0 ∧ e1.m_B = e.m_B ∧
      ((b = true ∧ e1.m_open = []) ∨
       (b = false ∧ e1.m_open = [(start_prepare C e s).1] ∧
          e1.m_open_hash = [(start_prepare C e s).1])) := by
  obtain ⟨f1, f2, f3, f4, f5, f6⟩ := start_prepare_fields C e s
  have hroot := start_prepare_root C e s
  unfold start at h
  split at h
  · cases h
  · rename_i root1 e5 hp
    obtain ⟨count, hrp, hn1, _⟩ := prune_ok C _ e5 _ root1 true hp
    rw [hroot, rp_fl_achieved_root] at hrp
    injection hrp with hrp
    simp only [Prod.mk.injEq] at hrp
    have hr1 : root1 = (start_prepare C e s).1 := by
      rw [hn1, ← hrp.1, hroot]; rfl
    obtain ⟨ho, _, hB, hx⟩ := prune_frame C _ e5 _ root1 true hp
    injection h with h
    subst h
    refine ⟨true, e5, by rw [hr1] at hp; exact hp, by simp [hr1], ?_, ?_, Or.inl ⟨rfl, ?_⟩⟩
    · show e5.m_exp_count = 0; rw [hx, f4]
    · show e5.m_B = e.m_B; rw [hB, f5]
    · show e5.m_open = []; rw [ho, f1]
  · rename_i root1 e5 hp
    obtain ⟨count, hrp, hn1, hcases⟩ := prune_ok C _ e5 _ root1 false hp
    rw [hroot, rp_fl_achieved_root] at hrp
    injection hrp with hrp
    simp only [Prod.mk.injEq] at hrp
    have hr1 : root1 = (start_prepare C e s).1 := by
      rw [hn1, ← hrp.1, hroot]; rfl
    obtain ⟨ho, _, hB, hx⟩ := prune_frame C _ e5 _ root1 false hp
    have hoh : e5.m_open_hash = [] := by
      rcases hcases with ⟨_, hb, _⟩ | ⟨_, _, hb, _⟩ | ⟨_, _, _, hb, _⟩ | ⟨_, _, _, _, he⟩
      · cases hb
      · cases hb
      · cases hb
      · rw [he]; exact f3
    injection h with h
    subst h
    refine ⟨false, e5, by rw [hr1] at hp; exact hp, by simp [hr1, inc_gen], ?_, ?_,
      Or.inr ⟨rfl, ?_, ?_⟩⟩
    · show e5.m_exp_count = 0; rw [hx, f4]
    · show e5.m_B = e.m_B; rw [hB, f5]
    · show e5.m_open ++ [root1] = _; rw [ho, f1, hr1]; rfl
    · show Closed_List.put e5.m_open_hash root1 = _; rw [hoh, hr1]; rfl

theorem start_searching {σ ν : Type} [DecidableEq σ] (C : Env σ ν) (e e1 : RP_IW σ ν)
    (s : Option σ) (h : start C e s = .ok e1) :
    Searching C (Node.mk (some (start_state C s)) none no_op 0 0 false) e1 := by
  obtain ⟨b, e5, _, hr, _, _, hopen⟩ := start_ok C e e1 s h
  rw [start_prepare_root] at hr hopen
  refine ⟨hr, ?_⟩
  intro n hn
  rcases hopen with ⟨_, ho⟩ | ⟨_, ho, _⟩
  · rw [ho] at hn; cases hn
  · rw [ho] at hn
    rw [List.mem_singleton.1 hn]
    exact Descends.root

theorem path_actions_length {σ : Type} : ∀ n : Node σ, n.path_actions.length = n.depth := by
  intro n
  induction n using Node.chain_induction with
  | root s a g pt c => rfl
  | child s p a g pt c ih => simp [Node.path_actions, Node.depth, ih]

/-- Applying the actions of the path, root first, to the state of the root gives the state
of a generated node. -/
theorem descends_replay {σ ν : Type} (C : Env σ ν) (r : Node σ) (rs : σ)
    (hrp : r.m_parent = none) (hrs : r.m_state = some rs) (n : Node σ)
    (h : Descends C r n) :
    n.m_state = some (n.path_actions.reverse.foldl C.m_problem.next rs) := by
  induction h with
  | root =>
    cases r with
    | mk st p a g pt c =>
      have hp : p = none := hrp
      subst hp
      simpa [Node.path_actions] using hrs
  | child p ps a g pt c _ hps ih =>
    rw [hps] at ih
    injection ih with ih
    simp [Node.path_actions, Node.m_state, List.foldl_append, ← ih]

/-- The loop of `extract_plan` from a generated node up to the root returns: it appends
the actions of the path, read upwards, and adds the costs it queries. -/
theorem extract_plan_walk_descends {σ ν : Type} [DecidableEq σ] (C : Env σ ν) (r : Node σ)
    (hrp : r.m_parent = none) (n : Node σ) (h : Descends C r n) :
    ∀ (plan : List Action_Idx) (cost : ℚ),
      extract_plan_walk C (some r) n plan cost
        = .ok (plan ++ n.path_actions, cost + n.queried_cost C) := by
  induction h with
  | root =>
    intro plan cost
    cases r with
    | mk st p a g pt c =>
      have hp : p = none := hrp
      subst hp
      unfold extract_plan_walk
      simp [Node.path_actions, Node.queried_cost]
  | child p ps a g pt c _ hps ih =>
    intro plan cost
    have hne : some (Node.mk (some (C.m_problem.next ps a)) (some p) a g pt c) ≠ some r := by
      intro heq
      injection heq with heq
      rw [← heq] at hrp
      cases hrp
    rw [extract_plan_walk, if_neg hne]
    rw [ih]
    simp [Node.path_actions, Node.queried_cost, add_assoc]

theorem rp_fl_action_eq (R : Fluent_Set) (a : Action) (acc : Nat × Fluent_Set) :
    rp_fl_action R a acc = a.added.foldl (rp_fl_mark R) acc := by
  unfold rp_fl_action Action.added
  rw [List.foldl_append, ← foldl_flatMap_aux]
  cases h : a.ceff_vec with
  | nil => simp
  | cons x xs => simp

/-- Folding `rp_fl_mark` adds to the count the relevant fluents of the list that were not
marked, and marks them. -/
theorem rp_fl_mark_fold (R : Fluent_Set) (l : Fluent_Vec) :
    ∀ (c : Nat) (K : Fluent_Set),
      l.foldl (rp_fl_mark R) (c, K)
        = (c + ((l.toFinset ∩ R) \ K).card, K ∪ (l.toFinset ∩ R)) := by
  induction l with
  | nil => intro c K; simp
  | cons p ps ih =>
    intro c K
    rw [List.foldl_cons]
    have hstep : rp_fl_mark R (c, K) p
        = if p ∈ R ∧ p ∉ K then (c + 1, insert p K) else (c, K) := rfl
    rw [hstep]
    by_cases hp : p ∈ R ∧ p ∉ K
    · rw [if_pos hp, ih]
      have hset : ((p :: ps).toFinset ∩ R) \ K
          = insert p ((ps.toFinset ∩ R) \ insert p K) := by
        ext q
        simp only [List.toFinset_cons, Finset.mem_sdiff, Finset.mem_inter, Finset.mem_insert,
          List.mem_toFinset]
        constructor
        · rintro ⟨⟨h1 | h1, h2⟩, h3⟩
          · exact Or.inl h1
          · by_cases hq : q = p
            · exact Or.inl hq
            · exact Or.inr ⟨⟨h1, h2⟩, fun h => h.elim hq h3⟩
        · rintro (h | ⟨⟨h1, h2⟩, h3⟩)
          · subst h; exact ⟨⟨Or.inl rfl, hp.1⟩, hp.2⟩
          · exact ⟨⟨Or.inr h1, h2⟩, fun h => h3 (Or.inr h)⟩
      have hnot : p ∉ (ps.toFinset ∩ R) \ insert p K := by
        simp
      congr 1
      · rw [hset, Finset.card_insert_of_not_mem hnot]; omega
      · ext q
        simp only [List.toFinset_cons, Finset.mem_union, Finset.mem_inter, Finset.mem_insert,
          List.mem_toFinset]
        constructor
        · rintro ((h | h) | ⟨h1, h2⟩)
          · subst h; exact Or.inr ⟨Or.inl rfl, hp.1⟩
          · exact Or.inl h
          · exact Or.inr ⟨Or.inr h1, h2⟩
        · rintro (h | ⟨h1 | h1, h2⟩)
          · exact Or.inl (Or.inr h)
          · exact Or.inl (Or.inl h1)
          · exact Or.inr ⟨h1, h2⟩
    · rw [if_neg hp, ih]
      have hset : ((p :: ps).toFinset ∩ R) \ K = (ps.toFinset ∩ R) \ K := by
        ext q
        simp only [List.toFinset_cons, Finset.mem_sdiff, Finset.mem_inter, Finset.mem_insert,
          List.mem_toFinset]
        constructor
        · rintro ⟨⟨h1 | h1, h2⟩, h3⟩
          · subst h1; exact absurd ⟨h2, h3⟩ hp
          · exact ⟨⟨h1, h2⟩, h3⟩
        · rintro ⟨⟨h1, h2⟩, h3⟩
          exact ⟨⟨Or.inr h1, h2⟩, h3⟩
      congr 1
      · rw [hset]
      · ext q
        simp only [List.toFinset_cons, Finset.mem_union, Finset.mem_inter, Finset.mem_insert,
          List.mem_toFinset]
        constructor
        · rintro (h | ⟨h1, h2⟩)
          · exact Or.inl h
          · exact Or.inr ⟨Or.inr h1, h2⟩
        · rintro (h | ⟨h1 | h1, h2⟩)
          · exact Or.inl h
          · subst h1
            by_cases hK : q ∈ K
            · exact Or.inl hK
            · exact absurd ⟨h2, hK⟩ hp
          · exact Or.inr ⟨h1, h2⟩

/-- On a rooted node the loop of `rp_fl_achieved` returns, and it is the fold of
`rp_fl_mark` over the fluents added along the path. -/
theorem rp_fl_walk_rooted {σ ν : Type} (C : Env σ ν) (R : Fluent_Set) :
    ∀ (n : Node σ), n.rooted → ∀ acc : Nat × Fluent_Set,
      rp_fl_walk C R n acc = .ok ((n.path_fluents C).foldl (rp_fl_mark R) acc) := by
  intro n
  induction n using Node.chain_induction with
  | root s a g pt c =>
    intro h acc
    have ha : a = no_op := h
    simp [rp_fl_walk, ha, Node.path_fluents, Node.path_actions, encounter_order]
  | child s p a g pt c ih =>
    intro h acc
    have ha : a ≠ no_op := h.1
    have hp : p.rooted := h.2
    rw [rp_fl_walk, if_pos ha]
    rw [ih hp, rp_fl_action_eq]
    simp [Node.path_fluents, Node.path_actions, encounter_order, List.foldl_append]

/-- C9. For a node whose parent chain ends at a root carrying `no_op`, called with the
marker set empty (as it is initially and after every earlier call), `rp_fl_achieved`
returns the number of distinct relevant fluents that some action on the path from the root
adds, directly or through a conditional effect, and leaves the marker set empty and the
engine otherwise untouched. -/
theorem rp_fl_achieved_count {σ ν : Type} (C : Env σ ν) (e : RP_IW σ ν) (n : Node σ)
    (hroot : n.rooted)
    (hprev : e.counted = ∅ ∨ ∃ e0 m c0, rp_fl_achieved C e0 m = .ok (c0, e)) :
    ∃ (S : Finset Nat) (e1 : RP_IW σ ν),
      (∀ p, p ∈ S ↔ p ∈ e.m_rp_fl_set ∧ ∃ a ∈ n.path_actions,
        p ∈ (C.m_problem.actions a).add_vec ∨
          ∃ ce ∈ (C.m_problem.actions a).ceff_vec, p ∈ ce.add_vec) ∧
      rp_fl_achieved C e n = .ok (S.card, e1) ∧ e1.counted = ∅ ∧ e1 = e := by
  have hc : e.counted = ∅ := by
    rcases hprev with h | ⟨e0, m, c0, h⟩
    · exact h
    · unfold rp_fl_achieved at h
      split at h
      · cases h
      · injection h with h
        injection h with _ h2
        rw [← h2]
  refine ⟨(n.path_fluents C).toFinset ∩ e.m_rp_fl_set, e, ?_, ?_, hc, rfl⟩
  · intro p
    rw [Finset.mem_inter, List.mem_toFinset]
    unfold Node.path_fluents
    rw [mem_encounter_order]
    exact And.comm
  · unfold rp_fl_achieved
    rw [rp_fl_walk_rooted C _ n hroot, rp_fl_mark_fold]
    simp only [hc, Finset.sdiff_empty, Nat.zero_add]
    congr 2
    cases e
    simp only [RP_IW.mk.injEq, true_and, and_true] at hc ⊢
    simp_all

/-- Witness for `rp_fl_achieved_count`: the first successor of the root of the counter,
whose single action adds the relevant fluents 2 and 1. -/
theorem rp_fl_achieved_count_witness :
    chainChild.rooted ∧ chainPopped.counted = ∅ ∧
    ∃ (S : Finset Nat) (e1 : RP_IW Nat Nat),
      (∀ p, p ∈ S ↔ p ∈ chainPopped.m_rp_fl_set ∧ ∃ a ∈ chainChild.path_actions,
        p ∈ (chainEnv.m_problem.actions a).add_vec ∨
          ∃ ce ∈ (chainEnv.m_problem.actions a).ceff_vec, p ∈ ce.add_vec) ∧
      rp_fl_achieved chainEnv chainPopped chainChild = .ok (S.card, e1) ∧
      e1.counted = ∅ ∧ e1 = chainPopped :=
  ⟨⟨by decide, rfl⟩, by decide!,
   rp_fl_achieved_count chainEnv chainPopped chainChild ⟨by decide, rfl⟩ (Or.inl (by decide!))⟩


theorem node_eq_of_states {σ : Type} [DecidableEq σ] (m n : Node σ)
    (hm : m.has_state = true) (hn : n.has_state = true) : ∃ r, Node.eq m n = .ok r := by
  unfold Node.has_state at hm hn
  obtain ⟨a, ha⟩ := Option.isSome_iff_exists.1 hm
  obtain ⟨b, hb⟩ := Option.isSome_iff_exists.1 hn
  unfold Node.eq
  simp only [ha, hb]
  split
  · exact ⟨_, rfl⟩
  · exact ⟨_, rfl⟩

theorem retrieve_of_states {σ : Type} [DecidableEq σ] (n : Node σ)
    (hn : n.has_state = true) :
    ∀ l : Closed_List σ, (∀ m ∈ l, m.has_state = true) →
      ∃ r, Closed_List.retrieve l n = .ok r := by
  intro l
  induction l with
  | nil => intro _; exact ⟨none, rfl⟩
  | cons x xs ih =>
    intro hl
    obtain ⟨r, hr⟩ := node_eq_of_states x n (hl x (List.mem_cons_self _ _)) hn
    unfold Closed_List.retrieve
    rw [hr]
    cases r with
    | true => exact ⟨_, rfl⟩
    | false => exact ih (fun m hm => hl m (List.mem_cons_of_mem _ hm))

/-- On a node with a state whose chain ends at a root carrying `no_op`, in an engine whose
indexed nodes all have states, `prune` returns. -/
theorem prune_returns {σ ν : Type} [DecidableEq σ] (C : Env σ ν) (e : RP_IW σ ν)
    (n : Node σ) (hroot : n.rooted) (hn : n.has_state = true)
    (hc : ∀ m ∈ e.m_closed, m.has_state = true)
    (ho : ∀ m ∈ e.m_open_hash, m.has_state = true) : ∃ r, prune C e n = .ok r := by
  unfold prune rp_fl_achieved
  rw [rp_fl_walk_rooted C _ n hroot]
  simp only []
  have hn1 : ∀ c, (n.set_partition c).has_state = true := by
    intro c
    cases n
    exact hn
  obtain ⟨r1, hr1⟩ := retrieve_of_states _ (hn1 ((n.path_fluents C).foldl
    (rp_fl_mark e.m_rp_fl_set) (0, e.counted)).1) e.m_closed hc
  obtain ⟨r2, hr2⟩ := retrieve_of_states _ (hn1 ((n.path_fluents C).foldl
    (rp_fl_mark e.m_rp_fl_set) (0, e.counted)).1) e.m_open_hash ho
  simp only [is_closed, previously_hashed, hr1, hr2]
  cases r1 with
  | some m => exact ⟨_, rfl⟩
  | none =>
    cases r2 with
    | some m => exact ⟨_, rfl⟩
    | none =>
      simp only [Option.isSome_none]
      split
      · exact ⟨_, rfl⟩
      · exact ⟨_, rfl⟩

/-- C5. `prune(n)` returns when `n` and the indexed nodes have states and the chain of `n`
ends at a root carrying `no_op`.  Whenever it returns, the partition of `n` has been set to
`rp_fl_achieved(n)` and, with equality evaluated on that node: the result is `true` exactly
when an equality-equal node is in the closed set, or one is in the open index, or the
novelty score exceeds the bound; when a duplicate check succeeds the engine is left as
`rp_fl_achieved` left it, so the evaluator was not queried and no counter moved; when both
duplicate checks fail the evaluator is queried once, and the pruned-by-bound counter is
incremented by one (as an `unsigned`) exactly when the score exceeds the bound. -/
theorem prune_decision {σ ν : Type} [DecidableEq σ] (C : Env σ ν) (e : RP_IW σ ν)
    (n : Node σ) :
    (n.rooted → n.has_state = true → (∀ m ∈ e.m_closed, m.has_state = true) →
      (∀ m ∈ e.m_open_hash, m.has_state = true) → ∃ r, prune C e n = .ok r) ∧
    (∀ (b : Bool) (n1 : Node σ) (e2 : RP_IW σ ν), prune C e n = .ok (b, n1, e2) →
      ∃ count e1, rp_fl_achieved C e n = .ok (count, e1) ∧ n1 = n.set_partition count ∧
        (b = true ↔ in_index e.m_closed n1 ∨ in_index e.m_open_hash n1 ∨
          (C.novelty.eval e.m_novelty n1).2 > e.m_B) ∧
        (in_index e.m_closed n1 ∨ in_index e.m_open_hash n1 →
          e2 = e1 ∧ e2.m_novelty = e.m_novelty ∧
            e2.m_pruned_B_count = e.m_pruned_B_count) ∧
        (¬ in_index e.m_closed n1 → ¬ in_index e.m_open_hash n1 →
          e2.m_novelty = (C.novelty.eval e.m_novelty n1).1 ∧
          e2.m_pruned_B_count =
            (if (C.novelty.eval e.m_novelty n1).2 > e.m_B
              then (e.m_pruned_B_count + 1) % 2 ^ 32 else e.m_pruned_B_count))) := by
  refine ⟨prune_returns C e n, ?_⟩
  intro b n1 e2 h
  obtain ⟨count, hrp, hn, hcases⟩ := prune_ok C e e2 n n1 b h
  refine ⟨count, _, hrp, hn, ?_⟩
  rcases hcases with ⟨hc, hb, he⟩ | ⟨hc, ho, hb, he⟩ | ⟨hc, ho, hs, hb, he⟩ | ⟨hc, ho, hs, hb, he⟩
  · refine ⟨?_, ?_, ?_⟩
    · exact ⟨fun _ => Or.inl hc, fun _ => hb⟩
    · intro _; subst he; exact ⟨rfl, rfl, rfl⟩
    · intro hnc; exact absurd hc hnc
  · refine ⟨?_, ?_, ?_⟩
    · exact ⟨fun _ => Or.inr (Or.inl ho), fun _ => hb⟩
    · intro _; subst he; exact ⟨rfl, rfl, rfl⟩
    · intro _ hno; exact absurd ho hno
  · refine ⟨?_, ?_, ?_⟩
    · exact ⟨fun _ => Or.inr (Or.inr hs), fun _ => hb⟩
    · rintro (h1 | h1)
      · exact absurd h1 hc
      · exact absurd h1 ho
    · intro _ _
      subst he
      refine ⟨rfl, ?_⟩
      rw [if_pos hs]
      rfl
  · refine ⟨?_, ?_, ?_⟩
    · constructor
      · intro hbt; rw [hb] at hbt; cases hbt
      · rintro (h1 | h1 | h1)
        · exact absurd h1 hc
        · exact absurd h1 ho
        · exact absurd h1 (not_lt.2 hs)
    · rintro (h1 | h1)
      · exact absurd h1 hc
      · exact absurd h1 ho
    · intro _ _
      subst he
      refine ⟨rfl, ?_⟩
      rw [if_neg (not_lt.2 hs)]

/-- Witness for `prune_decision`: pruning the first successor of the root of the counter,
after the root has been dequeued, returns false with the partition set to 2. -/
theorem prune_decision_witness :
    chainChild.rooted ∧ chainChild.has_state = true ∧
    (∀ m ∈ chainPopped.m_closed, m.has_state = true) ∧
    (∀ m ∈ chainPopped.m_open_hash, m.has_state = true) ∧
    (∃ r, prune chainEnv chainPopped chainChild = .ok r) ∧
    prune chainEnv chainPopped chainChild
      = .ok (false, chainChild.set_partition 2, chainPruneResult.2.2) ∧
    ∃ count e1, rp_fl_achieved chainEnv chainPopped chainChild = .ok (count, e1) ∧
      chainChild.set_partition 2 = chainChild.set_partition count ∧
      (false = true ↔ in_index chainPopped.m_closed (chainChild.set_partition 2) ∨
        in_index chainPopped.m_open_hash (chainChild.set_partition 2) ∨
        (chainEnv.novelty.eval chainPopped.m_novelty (chainChild.set_partition 2)).2
          > chainPopped.m_B) ∧
      (in_index chainPopped.m_closed (chainChild.set_partition 2) ∨
        in_index chainPopped.m_open_hash (chainChild.set_partition 2) →
        chainPruneResult.2.2 = e1 ∧ chainPruneResult.2.2.m_novelty = chainPopped.m_novelty ∧
          chainPruneResult.2.2.m_pruned_B_count = chainPopped.m_pruned_B_count) ∧
      (¬ in_index chainPopped.m_closed (chainChild.set_partition 2) →
        ¬ in_index chainPopped.m_open_hash (chainChild.set_partition 2) →
        chainPruneResult.2.2.m_novelty
          = (chainEnv.novelty.eval chainPopped.m_novelty (chainChild.set_partition 2)).1 ∧
        chainPruneResult.2.2.m_pruned_B_count =
          (if (chainEnv.novelty.eval chainPopped.m_novelty (chainChild.set_partition 2)).2
              > chainPopped.m_B
            then (chainPopped.m_pruned_B_count + 1) % 2 ^ 32
            else chainPopped.m_pruned_B_count)) :=
  ⟨⟨by decide, rfl⟩, by decide, by decide!, by decide!,
   (prune_decision chainEnv chainPopped chainChild).1 ⟨by decide, rfl⟩ (by decide)
     (by decide!) (by decide!),
   by decide!,
   (prune_decision chainEnv chainPopped chainChild).2 false (chainChild.set_partition 2)
     chainPruneResult.2.2 (by decide!)⟩

theorem set_relplan_action_eq (a : Action) (acc : Fluent_Vec × Fluent_Set) :
    set_relplan_action a acc = a.added.foldl set_relplan_fluent acc := by
  unfold set_relplan_action Action.added
  rw [List.foldl_append, ← foldl_flatMap_aux]
  cases h : a.ceff_vec with
  | nil => simp
  | cons x xs => simp

theorem set_relplan_fold_eq {σ ν : Type} (C : Env σ ν) (plan : List Action_Idx)
    (acc : Fluent_Vec × Fluent_Set) :
    plan.foldl (fun r a => set_relplan_action (C.m_problem.actions a) r) acc
      = (encounter_order C plan).foldl set_relplan_fluent acc := by
  unfold encounter_order
  rw [← foldl_flatMap_aux]
  congr 1
  funext r a
  exact set_relplan_action_eq _ _

/-- What folding `set_relplan_fluent` over a list of fluents builds from the empty pair. -/
theorem relplan_fluents_spec (l : Fluent_Vec) :
    (l.foldl set_relplan_fluent ([], ∅)).2 = l.toFinset ∧
    (∀ p, p ∈ (l.foldl set_relplan_fluent ([], ∅)).1 ↔ p ∈ l) ∧
    ((l.foldl set_relplan_fluent ([], ∅)).1.map (fun p => l.indexOf p)).Pairwise (· < ·) := by
  induction l using List.reverseRecOn with
  | nil => simp
  | append_singleton l p ih =>
    obtain ⟨h1, h2, h3⟩ := ih
    rw [List.foldl_append]
    simp only [List.foldl_cons, List.foldl_nil]
    generalize l.foldl set_relplan_fluent ([], ∅) = G at h1 h2 h3 ⊢
    unfold set_relplan_fluent
    by_cases hp : p ∈ l
    · have : ¬ p ∉ G.2 := by
        rw [h1]; simpa using hp
      rw [if_neg this]
      refine ⟨?_, ?_, ?_⟩
      · rw [h1]; ext q; simp only [List.toFinset_append, List.toFinset_cons, List.toFinset_nil,
          Finset.mem_union, List.mem_toFinset, Finset.mem_insert, Finset.not_mem_empty, or_false]
        constructor
        · intro h; exact Or.inl h
        · rintro (h | h)
          · exact h
          · rw [h]; exact hp
      · intro q
        rw [h2]
        simp only [List.mem_append, List.mem_singleton]
        constructor
        · intro h; exact Or.inl h
        · rintro (h | h)
          · exact h
          · rw [h]; exact hp
      · rw [List.pairwise_map] at h3 ⊢
        refine h3.imp_of_mem ?_
        intro a b ha hb hab
        rw [List.indexOf_append_of_mem ((h2 a).1 ha), List.indexOf_append_of_mem ((h2 b).1 hb)]
        exact hab
    · have : p ∉ G.2 := by
        rw [h1]; simpa using hp
      rw [if_pos this]
      refine ⟨?_, ?_, ?_⟩
      · simp only [h1]; ext q
        simp only [Finset.mem_insert, List.mem_toFinset, List.toFinset_append, List.toFinset_cons,
          List.toFinset_nil, Finset.mem_union, Finset.not_mem_empty, or_false]
        tauto
      · intro q
        simp only [List.mem_append, List.mem_singleton, h2]
      · rw [List.map_append, List.pairwise_append]
        refine ⟨?_, by simp, ?_⟩
        · rw [List.pairwise_map] at h3 ⊢
          refine h3.imp_of_mem ?_
          intro a b ha hb hab
          rw [List.indexOf_append_of_mem ((h2 a).1 ha),
            List.indexOf_append_of_mem ((h2 b).1 hb)]
          exact hab
        · intro x hx y hy
          simp only [List.map_cons, List.map_nil, List.mem_singleton] at hy
          obtain ⟨a, ha, rfl⟩ := List.mem_map.1 hx
          subst hy
          rw [List.indexOf_append_of_mem ((h2 a).1 ha), List.indexOf_append_of_not_mem hp]
          have := List.indexOf_lt_length.2 ((h2 a).1 ha)
          omega

theorem relplan_fluents_nodup (l : Fluent_Vec) :
    (l.foldl set_relplan_fluent ([], ∅)).1.Nodup := by
  have h := (relplan_fluents_spec l).2.2
  rw [List.pairwise_map] at h
  exact h.imp (fun hab heq => by subst heq; exact lt_irrefl _ hab)

theorem relplan_fluents_absorb (l : Fluent_Vec) (acc : Fluent_Vec × Fluent_Set)
    (h : ∀ p ∈ l, p ∈ acc.2) : l.foldl set_relplan_fluent acc = acc := by
  induction l with
  | nil => rfl
  | cons p ps ih =>
    rw [List.foldl_cons]
    have hp : set_relplan_fluent acc p = acc := by
      unfold set_relplan_fluent
      rw [if_neg]
      simpa using h p (List.mem_cons_self _ _)
    rw [hp]
    exact ih (fun q hq => h q (List.mem_cons_of_mem _ hq))

/-- C10. After `reset()` followed by `set_relplan(s)`: a fluent is in `m_rp_fl_set` exactly
when some action of the relaxed plan adds it, directly or through a conditional effect;
`m_rp_fl_vec` has the same members, without duplicates, ordered by first encounter; and a
second `set_relplan(s)` changes nothing. -/
theorem set_relplan_after_reset {σ ν : Type} (C : Env σ ν) (e : RP_IW σ ν) (s : σ) :
    let e1 := set_relplan C (reset e) s
    let plan := relaxed_plan C e s
    (∀ p, p ∈ e1.m_rp_fl_set ↔
      ∃ a ∈ plan, p ∈ (C.m_problem.actions a).add_vec ∨
        ∃ ce ∈ (C.m_problem.actions a).ceff_vec, p ∈ ce.add_vec) ∧
    (∀ p, p ∈ e1.m_rp_fl_vec ↔ p ∈ e1.m_rp_fl_set) ∧
    e1.m_rp_fl_vec.Nodup ∧
    (e1.m_rp_fl_vec.map (fun p => (encounter_order C plan).indexOf p)).Pairwise (· < ·) ∧
    set_relplan C e1 s = e1 := by
  intro e1 plan
  have hplan : plan = relaxed_plan C (reset e) s := rfl
  have hvec : e1.m_rp_fl_vec = ((encounter_order C plan).foldl set_relplan_fluent ([], ∅)).1 := by
    show (set_relplan C (reset e) s).m_rp_fl_vec = _
    unfold set_relplan
    simp only [set_relplan_fold_eq]
    rfl
  have hset : e1.m_rp_fl_set = ((encounter_order C plan).foldl set_relplan_fluent ([], ∅)).2 := by
    show (set_relplan C (reset e) s).m_rp_fl_set = _
    unfold set_relplan
    simp only [set_relplan_fold_eq]
    rfl
  obtain ⟨h1, h2, h3⟩ := relplan_fluents_spec (encounter_order C plan)
  refine ⟨?_, ?_, ?_, ?_, ?_⟩
  · intro p
    rw [hset, h1, List.mem_toFinset]
    exact mem_encounter_order C plan p
  · intro p
    rw [hvec, hset, h2, h1, List.mem_toFinset]
  · rw [hvec]; exact relplan_fluents_nodup _
  · rw [hvec]; exact h3
  · have hgoals : e1.m_goals = e.m_goals := rfl
    have habs := relplan_fluents_absorb (encounter_order C plan) (e1.m_rp_fl_vec, e1.m_rp_fl_set)
      (by intro p hp; show p ∈ e1.m_rp_fl_set; rw [hset, h1]; simpa using hp)
    show set_relplan C e1 s = e1
    unfold set_relplan
    simp only [set_relplan_fold_eq]
    have hp2 : (match e1.m_goals with
        | some g => C.m_rp_h.eval_goals s g
        | none => C.m_rp_h.eval s) = plan := by rw [hgoals]; rfl
    rw [hp2, habs]


/-- What a successful `find_solution` returns after `start`: the goal node found by
`do_search`, generated from the root, with the actions of its path in root-to-goal order
appended to the plan vector before it is reversed, and the sum of the queried costs. -/
theorem find_solution_ok {σ ν : Type} [DecidableEq σ] (C : Env σ ν) (e e1 e2 : RP_IW σ ν)
    (s : Option σ) (fuel : Nat) (cost0 cost : ℚ) (plan0 plan : List Action_Idx)
    (hs : start C e s = .ok e1)
    (hf : find_solution C fuel e1 cost0 plan0 = .ok (true, cost, plan, e2)) :
    ∃ goal, do_search C fuel e1 = .ok (some goal, e2) ∧
      Goal_Node C (Node.mk (some (start_state C s)) none no_op 0 0 false) goal ∧
      plan = (plan0 ++ goal.path_actions).reverse ∧ cost = goal.queried_cost C := by
  have hI := start_searching C e e1 s hs
  unfold find_solution at hf
  split at hf
  · cases hf
  · injection hf with hf
    simp only [Prod.mk.injEq] at hf
    cases hf.1
  · rename_i t e1x hds
    obtain ⟨hroot, hQ⟩ := do_search_searching C (Node.mk (some (start_state C s)) none no_op 0 0 false) (start_state C s) rfl fuel e1 e1x _ hI hds
    have hG := hQ t rfl
    rw [hroot] at hf
    unfold extract_plan at hf
    simp only [] at hf
    rw [extract_plan_walk_descends C (Node.mk (some (start_state C s)) none no_op 0 0 false) rfl t hG.1] at hf
    simp only [if_true, Except.ok.injEq, Prod.mk.injEq, true_and, zero_add] at hf
    obtain ⟨hc, hp, he⟩ := hf
    subst he
    exact ⟨t, hds, hG, hp.symm, hc.symm⟩

/-- C1. When `start()` followed by `find_solution(cost, plan)`, with `plan` empty on entry,
returns true, the node returned by `do_search` descends from the root, whose state is the
start state (the state passed to `start`, or the initial state); applying the returned
actions one after another with the model's `next` from that state yields the state of the
returned node, which satisfies the goal test; the plan lists the actions of the path from
the root to that node, and its length is the number of parent links of that node. -/
theorem plan_validity {σ ν : Type} [DecidableEq σ] (C : Env σ ν) (e e1 e2 : RP_IW σ ν)
    (s : Option σ) (fuel : Nat) (cost0 cost : ℚ) (plan : List Action_Idx)
    (hs : start C e s = .ok e1)
    (hf : find_solution C fuel e1 cost0 [] = .ok (true, cost, plan, e2)) :
    ∃ root goal sg, e1.m_root = some root ∧ root.m_parent = none ∧
      root.m_state = some (start_state C s) ∧
      do_search C fuel e1 = .ok (some goal, e2) ∧ Descends C root goal ∧
      goal.m_state = some sg ∧ C.m_problem.goal sg = true ∧
      plan.foldl C.m_problem.next (start_state C s) = sg ∧
      plan = goal.path_actions.reverse ∧ plan.length = goal.depth := by
  obtain ⟨goal, hds, ⟨hd, sg, hsg, hgoal⟩, hplan, _⟩ :=
    find_solution_ok C e e1 e2 s fuel cost0 cost [] plan hs hf
  have hrep := descends_replay C (Node.mk (some (start_state C s)) none no_op 0 0 false) (start_state C s) rfl rfl goal hd
  rw [hsg] at hrep
  injection hrep with hrep
  rw [List.nil_append] at hplan
  refine ⟨_, goal, sg, (start_searching C e e1 s hs).1, rfl, rfl, hds, hd, hsg, hgoal, ?_, hplan,
    ?_⟩
  · rw [hplan]; exact hrep.symm
  · rw [hplan, List.length_reverse, path_actions_length]

/-- Witness for `plan_validity`: the counter is solved by the plan `[0, 0]`. -/
theorem plan_validity_witness :
    start chainEnv chainEngine none = .ok chainStarted ∧
    find_solution chainEnv 10 chainStarted 0 [] = .ok (true, 2, [0, 0], chainSolved.2.2.2) ∧
    ∃ root goal sg, chainStarted.m_root = some root ∧ root.m_parent = none ∧
      root.m_state = some (start_state chainEnv none) ∧
      do_search chainEnv 10 chainStarted = .ok (some goal, chainSolved.2.2.2) ∧
      Descends chainEnv root goal ∧
      goal.m_state = some sg ∧ chainEnv.m_problem.goal sg = true ∧
      List.foldl chainEnv.m_problem.next (start_state chainEnv none) [0, 0] = sg ∧
      [0, 0] = goal.path_actions.reverse ∧ [(0 : Action_Idx), 0].length = goal.depth :=
  ⟨by decide!, by decide!,
   plan_validity chainEnv chainEngine chainStarted chainSolved.2.2.2 none 10 0 2 [0, 0]
     (by decide!) (by decide!)⟩

/-- The cost that a successful `find_solution` returns after `start` is the sum, over the
edges of the path of the returned node, of the model's cost queried with the state of the
child node of the edge. -/
theorem find_solution_cost {σ ν : Type} [DecidableEq σ] (C : Env σ ν) (e e1 e2 : RP_IW σ ν)
    (s : Option σ) (fuel : Nat) (cost0 cost : ℚ) (plan0 plan : List Action_Idx)
    (hs : start C e s = .ok e1)
    (hf : find_solution C fuel e1 cost0 plan0 = .ok (true, cost, plan, e2)) :
    ∃ goal, do_search C fuel e1 = .ok (some goal, e2) ∧ cost = goal.queried_cost C := by
  obtain ⟨goal, hds, _, _, hc⟩ := find_solution_ok C e e1 e2 s fuel cost0 cost plan0 plan hs hf
  exact ⟨goal, hds, hc⟩

/-- C2, evaluated on the counter with a state-dependent cost: the plan `[0]` is returned
with cost 2, the model's cost of action 0 at the state reached, while the cost of applying
action 0 in the initial state, where the plan applies it, is 1. -/
theorem plan_cost_queries_child_state :
    start stateCostEnv (set_bound stateCostEnv (RP_IW.new infty 0) 1) none
      = .ok stateCostStarted ∧
    find_solution stateCostEnv 10 stateCostStarted 0 []
      = .ok (true, 2, [0], stateCostSolved.2.2.2) ∧
    stateCostEnv.m_problem.cost stateCostEnv.m_problem.init 0 = 1 ∧
    stateCostEnv.m_problem.cost (stateCostEnv.m_problem.next stateCostEnv.m_problem.init 0) 0
      = 2 := by
  refine ⟨by decide!, by decide!, by decide!, by decide!⟩

/-- C3, evaluated on the one-state problem with the bound left at `infty`: the search
exhausts the frontier after expanding two nodes, the root and its successor, which have
equal states and equal partitions and compare equal; the successor was generated while
the root was being expanded and was queued. -/
theorem duplicate_of_expanding_node_is_expanded :
    start loopEnv loopEngine none = .ok loopStarted ∧
    loopStarted.m_open = [loopRoot] ∧
    do_search loopEnv 10 loopStarted = .ok (none, loopSearched.2) ∧
    loopSearched.2.m_closed = [loopRoot, loopChild] ∧
    loopSearched.2.m_exp_count = 2 ∧ loopSearched.2.m_gen_count = 2 ∧
    loopRoot.m_state = loopChild.m_state ∧ loopRoot.m_partition = loopChild.m_partition ∧
    Node.eq loopRoot loopChild = .ok true ∧ loopRoot ≠ loopChild := by
  refine ⟨by decide!, by decide!, by decide!, by decide!, by decide!, by decide!, by decide!,
    by decide!, by decide!, by decide!⟩

/-- On an empty frontier `do_search` dereferences the null pointer returned by
`get_node`, whatever the fuel. -/
theorem do_search_empty {σ ν : Type} [DecidableEq σ] (C : Env σ ν) (fuel : Nat)
    (e : RP_IW σ ν) (h : e.m_open = []) : do_search C fuel e = .error Fault.null_deref := by
  unfold do_search get_node
  simp [h, is_goal]

theorem find_solution_empty {σ ν : Type} [DecidableEq σ] (C : Env σ ν) (fuel : Nat)
    (e : RP_IW σ ν) (cost : ℚ) (plan : List Action_Idx) (h : e.m_open = []) :
    find_solution C fuel e cost plan = .error Fault.null_deref := by
  unfold find_solution
  rw [do_search_empty C fuel e h]

/-- C7, evaluated on the counter with bound 0: `start` prunes the root (the pruned-by-bound
counter is 1) and leaves the frontier empty; the following `do_search` and `find_solution`
do not return false or NULL but dereference the null node, whatever the fuel. -/
theorem pruned_root_search_faults :
    start chainEnv zeroBoundEngine none = .ok zeroBoundStarted ∧
    zeroBoundStarted.m_open = [] ∧ zeroBoundStarted.m_pruned_B_count = 1 ∧
    ∀ fuel : Nat, do_search chainEnv fuel zeroBoundStarted = .error Fault.null_deref ∧
      find_solution chainEnv fuel zeroBoundStarted 0 [] = .error Fault.null_deref := by
  refine ⟨by decide!, by decide!, by decide!, fun fuel => ⟨?_, ?_⟩⟩
  · exact do_search_empty chainEnv fuel zeroBoundStarted (by decide!)
  · exact find_solution_empty chainEnv fuel zeroBoundStarted 0 [] (by decide!)


/-- The outcomes of one returning iteration of the loop of `process`, on the queue: nothing
is queued, or the successor is, and then `prune` had accepted it with a score within the
bound. -/
theorem process_step_push {σ ν : Type} [DecidableEq σ] (C : Env σ ν) (head : Node σ) (hs : σ)
    (a : Action_Idx) (e e2 : RP_IW σ ν) (g : Option (Node σ))
    (h : process_step C head hs a e = .ok (g, e2)) :
    e2.m_B = e.m_B ∧
    (e2.m_open = e.m_open ∨
     ∃ n1 e1 pt, e2.m_open = e.m_open ++ [n1] ∧
      prune C e (Node.new (some (C.m_problem.next hs a)) a (some head)
        (C.m_problem.actions a).cost) = .ok (false, n1, e1) ∧
      n1 = Node.mk (some (C.m_problem.next hs a)) (some head) a
        (child_g head.m_g (C.m_problem.actions a).cost) pt false ∧
      (C.novelty.eval e.m_novelty n1).2 ≤ e.m_B) := by
  rcases process_step_ok C head hs a e e2 g h with ⟨n1, hp, _⟩ | ⟨n1, e1, hp, he2, _⟩
  · obtain ⟨ho, _, hB, _⟩ := prune_frame C e e2 _ n1 true hp
    exact ⟨hB, Or.inl ho⟩
  · obtain ⟨ho, _, hB, _⟩ := prune_frame C e e1 _ n1 false hp
    obtain ⟨count, _, hn1, hcases⟩ := prune_ok C e e1 _ n1 false hp
    refine ⟨by rw [he2, open_node_B, hB], Or.inr ⟨n1, e1, count, ?_, hp, hn1, ?_⟩⟩
    · rw [he2, open_node_open, ho]
    · rcases hcases with ⟨_, hb, _⟩ | ⟨_, _, hb, _⟩ | ⟨_, _, _, hb, _⟩ | ⟨_, _, hs, _, _⟩
      · cases hb
      · cases hb
      · cases hb
      · exact hs

/-- C4. Every node that enters the frontier was scored within the bound by the `prune`
call made on it: the root queued by `start` (scored with the evaluator as `start` prepared
it), and the successor queued by an iteration of the loop of `process` (scored with the
evaluator as it was when the iteration began). -/
theorem acceptance_implies_bound {σ ν : Type} [DecidableEq σ] (C : Env σ ν) :
    (∀ (e e1 : RP_IW σ ν) (s : Option σ), start C e s = .ok e1 →
      ∀ n ∈ e1.m_open, n = (start_prepare C e s).1 ∧
        (C.novelty.eval (start_prepare C e s).2.m_novelty n).2 ≤ e1.m_B) ∧
    (∀ (head : Node σ) (hs : σ) (a : Action_Idx) (e e2 : RP_IW σ ν) (g : Option (Node σ)),
      process_step C head hs a e = .ok (g, e2) →
      ∃ pushed, e2.m_open = e.m_open ++ pushed ∧
        ∀ n ∈ pushed, (C.novelty.eval e.m_novelty n).2 ≤ e2.m_B) := by
  constructor
  · intro e e1 s h n hn
    obtain ⟨b, e5, hp, _, _, hB, hopen⟩ := start_ok C e e1 s h
    rcases hopen with ⟨_, ho⟩ | ⟨hb, ho, _⟩
    · rw [ho] at hn; cases hn
    · rw [ho] at hn
      have hn2 := List.mem_singleton.1 hn
      subst hb
      obtain ⟨count, _, _, hcases⟩ := prune_ok C _ e5 _ _ false hp
      refine ⟨hn2, ?_⟩
      rw [hn2, hB]
      rcases hcases with ⟨_, hb, _⟩ | ⟨_, _, hb, _⟩ | ⟨_, _, _, hb, _⟩ | ⟨_, _, hs, _, _⟩
      · cases hb
      · cases hb
      · cases hb
      · rw [(start_prepare_fields C e s).2.2.2.2.1] at hs
        exact hs
  · intro head hs a e e2 g h
    obtain ⟨hB, hcases⟩ := process_step_push C head hs a e e2 g h
    rcases hcases with ho | ⟨n1, e1, pt, ho, _, _, hsc⟩
    · exact ⟨[], by rw [ho, List.append_nil], fun n hn => by cases hn⟩
    · refine ⟨[n1], ho, ?_⟩
      intro n hn
      rw [List.mem_singleton.1 hn, hB]
      exact hsc

/-- Witness for `acceptance_implies_bound`: the root of the counter, and its first
successor, are queued with score 1 under the bound 1. -/
theorem acceptance_implies_bound_witness :
    start chainEnv chainEngine none = .ok chainStarted ∧
    (∀ n ∈ chainStarted.m_open, n = (start_prepare chainEnv chainEngine none).1 ∧
      (chainEnv.novelty.eval (start_prepare chainEnv chainEngine none).2.m_novelty n).2
        ≤ chainStarted.m_B) ∧
    process_step chainEnv chainRoot 0 0 chainPopped
      = .ok (none, open_node chainPruneResult.2.2 chainPruneResult.2.1) ∧
    (∃ pushed, (open_node chainPruneResult.2.2 chainPruneResult.2.1).m_open
        = chainPopped.m_open ++ pushed ∧
      ∀ n ∈ pushed, (chainEnv.novelty.eval chainPopped.m_novelty n).2
        ≤ (open_node chainPruneResult.2.2 chainPruneResult.2.1).m_B) :=
  ⟨by decide!,
   (acceptance_implies_bound chainEnv).1 chainEngine chainStarted none (by decide!),
   by decide!,
   (acceptance_implies_bound chainEnv).2 chainRoot 0 0 chainPopped _ none (by decide!)⟩

/-- C6, refuted on the half-cost counter: the successor of the root that `process` queues
has `m_g` 0, the root has `m_g` 0, and the transition cost of its action in the state of
the root is one half. -/
theorem node_cost_counterexample :
    process halfEnv halfPopped chainRoot = .ok (none, halfProcessed.2) ∧
    halfProcessed.2.m_open = [halfChild] ∧ halfChild.m_parent = some chainRoot ∧
    chainRoot.m_state = some 0 ∧
    (halfChild.m_g : ℚ) ≠ (chainRoot.m_g : ℚ) + halfEnv.m_problem.cost 0 halfChild.m_action := by
  refine ⟨by decide!, by decide!, by decide!, by decide!, by decide!⟩

/-- The `m_g` of a queued successor is built from the own cost of the action, not from the
model's transition cost: on the counter whose action has own cost 1 and transition cost 2,
the successor of the root has `m_g` 1. -/
theorem node_cost_source_example :
    process mismatchEnv chainPopped chainRoot = .ok (none, mismatchProcessed.2) ∧
    mismatchProcessed.2.m_open = [Node.mk (some 1) (some chainRoot) 0 1 2 false] ∧
    mismatchEnv.m_problem.cost 0 0 = 2 := by
  refine ⟨by decide!, by decide!, by decide!⟩

/-- C6, amended.  The root built by `start` has `m_g` 0.  A node queued by an iteration of
the loop of `process` has the expanded node as parent, and when the own cost of its action
is a natural number equal to the model's transition cost in the parent's state, and the
sum with the parent's `m_g` is below `2 ^ 24` (so that a `float` holds it exactly), its
`m_g` is the parent's `m_g` plus the transition cost. -/
theorem node_cost_equation {σ ν : Type} [DecidableEq σ] (C : Env σ ν) :
    (∀ (e : RP_IW σ ν) (s : Option σ), (start_prepare C e s).1.m_g = 0) ∧
    (∀ (head : Node σ) (hs : σ) (a : Action_Idx) (e e2 : RP_IW σ ν) (g : Option (Node σ))
      (k : Nat), process_step C head hs a e = .ok (g, e2) →
      (C.m_problem.actions a).cost = (k : ℚ) → C.m_problem.cost hs a = (k : ℚ) →
      head.m_g + k < 2 ^ 24 →
      ∃ pushed, e2.m_open = e.m_open ++ pushed ∧
        ∀ n ∈ pushed, n.m_parent = some head ∧ n.m_action = a ∧
          (n.m_g : ℚ) = (head.m_g : ℚ) + C.m_problem.cost hs n.m_action) := by
  constructor
  · intro e s
    rw [start_prepare_root]
    rfl
  · intro head hs a e e2 g k h hk hck hlt
    obtain ⟨_, hcases⟩ := process_step_push C head hs a e e2 g h
    rcases hcases with ho | ⟨n1, e1, pt, ho, _, hn1, _⟩
    · exact ⟨[], by rw [ho, List.append_nil], fun n hn => by cases hn⟩
    · refine ⟨[n1], ho, ?_⟩
      intro n hn
      rw [List.mem_singleton.1 hn, hn1]
      refine ⟨rfl, rfl, ?_⟩
      show ((child_g _ _ : Nat) : ℚ) = _ + C.m_problem.cost hs a
      rw [hk, hck, child_g_nat head.m_g k hlt, Nat.cast_add]

/-- Witness for `node_cost_equation`: the first successor of the root of the counter,
whose action costs 1, is queued with `m_g` 1. -/
theorem node_cost_equation_witness :
    process_step chainEnv chainRoot 0 0 chainPopped
      = .ok (none, open_node chainPruneResult.2.2 chainPruneResult.2.1) ∧
    (chainEnv.m_problem.actions 0).cost = ((1 : Nat) : ℚ) ∧
    chainEnv.m_problem.cost 0 0 = ((1 : Nat) : ℚ) ∧ chainRoot.m_g + 1 < 2 ^ 24 ∧
    ∃ pushed, (open_node chainPruneResult.2.2 chainPruneResult.2.1).m_open
        = chainPopped.m_open ++ pushed ∧
      ∀ n ∈ pushed, n.m_parent = some chainRoot ∧ n.m_action = 0 ∧
        (n.m_g : ℚ) = (chainRoot.m_g : ℚ) + chainEnv.m_problem.cost 0 n.m_action :=
  ⟨by decide!, by decide!, by decide!, by decide!,
   (node_cost_equation chainEnv).2 chainRoot 0 0 chainPopped _ none 1 (by decide!)
     (by decide!) (by decide!) (by decide!)⟩

theorem retrieve_iterator_self {σ : Type} [DecidableEq σ] (s0 : σ) (a : Action_Idx)
    (g pt : Nat) :
    Closed_List.retrieve_iterator [Node.mk (some s0) none a g pt false]
      (Node.mk (some s0) none a g pt false) = .ok (some 0) := by
  simp [Closed_List.retrieve_iterator, Node.eq, Node.m_state, Node.m_compare_only_state,
    Node.m_partition]

/-- On the engine prepared by `start`, `prune` of the root returns, and it returns true
exactly when the score of the root exceeds the bound. -/
theorem prune_root_prepared {σ ν : Type} [DecidableEq σ] (C : Env σ ν) (e : RP_IW σ ν)
    (s : Option σ) :
    ∃ e5, prune C (start_prepare C e s).2 (start_prepare C e s).1
      = .ok (decide ((C.novelty.eval (start_prepare C e s).2.m_novelty
          (start_prepare C e s).1).2 > e.m_B), (start_prepare C e s).1, e5) := by
  obtain ⟨_, f2, f3, _, f5, _⟩ := start_prepare_fields C e s
  have hroot := start_prepare_root C e s
  generalize start_prepare C e s = p at f2 f3 f5 hroot
  obtain ⟨root, e4⟩ := p
  simp only at f2 f3 f5 hroot
  subst hroot
  unfold prune
  rw [rp_fl_achieved_root]
  simp only [is_closed, previously_hashed, f2, f3, Closed_List.retrieve, Option.isSome_none,
    Node.set_partition, f5]
  by_cases hgt : (C.novelty.eval e4.m_novelty
      (Node.mk (some (start_state C s)) none no_op 0 0 false)).2 > e.m_B
  · rw [if_pos hgt]
    exact ⟨_, by rw [decide_eq_true hgt]⟩
  · rw [if_neg hgt]
    exact ⟨_, by rw [decide_eq_false hgt]⟩

/-- After `start`, `start` always returns: pruning a root cannot fault. -/
theorem start_total {σ ν : Type} [DecidableEq σ] (C : Env σ ν) (e : RP_IW σ ν)
    (s : Option σ) : ∃ e1, start C e s = .ok e1 := by
  obtain ⟨e5, h⟩ := prune_root_prepared C e s
  unfold start
  rw [h]
  by_cases hgt : (C.novelty.eval (start_prepare C e s).2.m_novelty
      (start_prepare C e s).1).2 > e.m_B
  · simp only [hgt, decide_True]
    exact ⟨_, rfl⟩
  · simp only [hgt, decide_False]
    exact ⟨_, rfl⟩

/-- C8, refuted on the counter whose initial state is the goal, with bound 0: the initial
state satisfies the goal test, `start` prunes the root, and `find_solution` does not
return true: it dereferences the null node, whatever the fuel. -/
theorem zero_action_goal_counterexample :
    goalAtInitEnv.m_problem.goal goalAtInitEnv.m_problem.init = true ∧
    start goalAtInitEnv (set_bound goalAtInitEnv (RP_IW.new infty 0) 0) none
      = .ok goalAtInitPruned ∧
    ∀ fuel : Nat, find_solution goalAtInitEnv fuel goalAtInitPruned 0 []
      = .error Fault.null_deref := by
  refine ⟨by decide!, by decide!, fun fuel => ?_⟩
  exact find_solution_empty goalAtInitEnv fuel goalAtInitPruned 0 [] (by decide!)

/-- C8, amended.  When the start state satisfies the goal test and the score that the
evaluator gives the root in `start` is within the bound, `start()` returns and the
following `find_solution(cost, plan)`, with `plan` empty on entry, returns true with the
empty plan and cost 0, whatever the fuel, and no node has been expanded. -/
theorem zero_action_goal {σ ν : Type} [DecidableEq σ] (C : Env σ ν) (e : RP_IW σ ν)
    (s : Option σ) (fuel : Nat) (cost0 : ℚ)
    (hgoal : C.m_problem.goal (start_state C s) = true)
    (hnov : (C.novelty.eval (start_prepare C e s).2.m_novelty (start_prepare C e s).1).2
      ≤ e.m_B) :
    ∃ e1 e2, start C e s = .ok e1 ∧
      find_solution C fuel e1 cost0 [] = .ok (true, 0, [], e2) ∧ e2.m_exp_count = 0 := by
  obtain ⟨e1, hs⟩ := start_total C e s
  obtain ⟨b, e5, hp, hr, hx, _, hopen⟩ := start_ok C e e1 s hs
  obtain ⟨e5x, hp2⟩ := prune_root_prepared C e s
  rw [hp2] at hp
  injection hp with hp
  simp only [Prod.mk.injEq, true_and] at hp
  have hb : b = false := by
    rw [← hp.1]
    exact decide_eq_false (not_lt.2 hnov)
  rcases hopen with ⟨hbt, _⟩ | ⟨_, ho, hoh⟩
  · rw [hb] at hbt; cases hbt
  · rw [start_prepare_root] at ho hoh hr
    have hget : get_node e1 = .ok (some (Node.mk (some (start_state C s)) none no_op 0 0 false),
        { e1 with m_open := [], m_open_hash := [] }) := by
      unfold get_node
      rw [ho]
      simp only [hoh, retrieve_iterator_self, Closed_List.erase, List.eraseIdx]
    refine ⟨e1, { e1 with m_open := [], m_open_hash := [] }, hs, ?_, hx⟩
    unfold find_solution do_search
    rw [hget]
    simp only [is_goal, Node.m_state, hgoal, hr, extract_plan, extract_plan_walk, if_true,
      List.reverse_nil]

/-- Witness for `zero_action_goal`: the counter whose initial state is the goal, with
bound 1. -/
theorem zero_action_goal_witness :
    goalAtInitEnv.m_problem.goal (start_state goalAtInitEnv none) = true ∧
    (goalAtInitEnv.novelty.eval
        (start_prepare goalAtInitEnv (set_bound goalAtInitEnv (RP_IW.new infty 0) 1) none).2.m_novelty
        (start_prepare goalAtInitEnv (set_bound goalAtInitEnv (RP_IW.new infty 0) 1) none).1).2
      ≤ (set_bound goalAtInitEnv (RP_IW.new infty 0) 1).m_B ∧
    ∃ e1 e2, start goalAtInitEnv (set_bound goalAtInitEnv (RP_IW.new infty 0) 1) none = .ok e1 ∧
      find_solution goalAtInitEnv 10 e1 0 [] = .ok (true, 0, [], e2) ∧ e2.m_exp_count = 0 :=
  ⟨by decide!, by decide!,
   zero_action_goal goalAtInitEnv (set_bound goalAtInitEnv (RP_IW.new infty 0) 1) none 10 0
     (by decide!) (by decide!)⟩

/-- C11. For two nodes that both have a state, `a == b` returns, and it holds exactly when
the states are equal and the flag is set on `a` or on `b` or the partitions are equal; the
comparison gives the same result in both directions; and equal nodes have the same
`hash()`, the hash of a state being a function of its content. -/
theorem node_equality {σ : Type} [DecidableEq σ] (a b : Node σ) (sa sb : σ)
    (ha : a.m_state = some sa) (hb : b.m_state = some sb) :
    (Node.eq a b = .ok true ∨ Node.eq a b = .ok false) ∧
    (Node.eq a b = .ok true ↔
      sa = sb ∧ (a.m_compare_only_state = true ∨ b.m_compare_only_state = true ∨
        a.m_partition = b.m_partition)) ∧
    Node.eq a b = Node.eq b a ∧
    (∀ (state_hash : σ → Nat) (ma mb : Nat), Node.eq a b = .ok true →
      a.hash state_hash ma = b.hash state_hash mb) := by
  have hab : Node.eq a b = .ok (decide (sb = sa) &&
      (a.m_compare_only_state || b.m_compare_only_state ||
        decide (b.m_partition = a.m_partition))) := by
    unfold Node.eq
    simp only [ha, hb]
    cases a.m_compare_only_state <;> cases b.m_compare_only_state <;> simp
  have hba : Node.eq b a = .ok (decide (sa = sb) &&
      (b.m_compare_only_state || a.m_compare_only_state ||
        decide (a.m_partition = b.m_partition))) := by
    unfold Node.eq
    simp only [ha, hb]
    cases a.m_compare_only_state <;> cases b.m_compare_only_state <;> simp
  have hiff : Node.eq a b = .ok true ↔
      sa = sb ∧ (a.m_compare_only_state = true ∨ b.m_compare_only_state = true ∨
        a.m_partition = b.m_partition) := by
    rw [hab]
    simp only [Except.ok.injEq, Bool.and_eq_true, Bool.or_eq_true, decide_eq_true_eq]
    constructor
    · rintro ⟨h1, h2⟩
      refine ⟨h1.symm, ?_⟩
      rcases h2 with (h2 | h2) | h2
      · exact Or.inl h2
      · exact Or.inr (Or.inl h2)
      · exact Or.inr (Or.inr h2.symm)
    · rintro ⟨h1, h2⟩
      refine ⟨h1.symm, ?_⟩
      rcases h2 with h2 | h2 | h2
      · exact Or.inl (Or.inl h2)
      · exact Or.inl (Or.inr h2)
      · exact Or.inr h2.symm
  refine ⟨?_, hiff, ?_, ?_⟩
  · rw [hab]
    cases (decide (sb = sa) && (a.m_compare_only_state || b.m_compare_only_state ||
      decide (b.m_partition = a.m_partition)))
    · exact Or.inr rfl
    · exact Or.inl rfl
  · rw [hab, hba]
    congr 1
    have e1 : decide (sb = sa) = decide (sa = sb) := by
      by_cases h : sa = sb
      · simp [h]
      · have h2 : ¬ sb = sa := fun x => h x.symm
        simp [h, h2]
    have e2 : decide (b.m_partition = a.m_partition)
        = decide (a.m_partition = b.m_partition) := by
      by_cases h : a.m_partition = b.m_partition
      · simp [h]
      · have h2 : ¬ b.m_partition = a.m_partition := fun x => h x.symm
        simp [h, h2]
    rw [e1, e2, Bool.or_comm a.m_compare_only_state b.m_compare_only_state]
  · intro state_hash ma mb heq
    have hs := (hiff.1 heq).1
    unfold Node.hash
    simp only [ha, hb, hs]

/-- Witness for `node_equality`: the root of the counter and the first successor of the
root of the one-state problem both have a state. -/
theorem node_equality_witness :
    chainRoot.m_state = some 0 ∧ loopChild.m_state = some 0 ∧
    (Node.eq chainRoot loopChild = .ok true ∨ Node.eq chainRoot loopChild = .ok false) ∧
    (Node.eq chainRoot loopChild = .ok true ↔
      (0 : Nat) = 0 ∧ (chainRoot.m_compare_only_state = true ∨
        loopChild.m_compare_only_state = true ∨
        chainRoot.m_partition = loopChild.m_partition)) ∧
    Node.eq chainRoot loopChild = Node.eq loopChild chainRoot ∧
    (∀ (state_hash : Nat → Nat) (ma mb : Nat), Node.eq chainRoot loopChild = .ok true →
      chainRoot.hash state_hash ma = loopChild.hash state_hash mb) :=
  ⟨rfl, rfl, node_equality chainRoot loopChild 0 0 rfl rfl⟩

/-- The engine left by a returning `prune` differs from the engine it was called on at
most in the marker set (reset), the state of the evaluator and the pruned-by-bound
counter. -/
theorem prune_engine {σ ν : Type} [DecidableEq σ] (C : Env σ ν) (e e2 : RP_IW σ ν)
    (n n1 : Node σ) (b : Bool) (h : prune C e n = .ok (b, n1, e2)) :
    e2 = { e with counted := ∅, m_novelty := e2.m_novelty,
                  m_pruned_B_count := e2.m_pruned_B_count } ∧
    (b = false → e2.m_pruned_B_count = e.m_pruned_B_count) := by
  obtain ⟨count, _, _, hcases⟩ := prune_ok C e e2 n n1 b h
  rcases hcases with ⟨_, hb, he⟩ | ⟨_, _, hb, he⟩ | ⟨_, _, _, hb, he⟩ | ⟨_, _, _, hb, he⟩
  · subst he; exact ⟨rfl, fun _ => rfl⟩
  · subst he; exact ⟨rfl, fun _ => rfl⟩
  · subst he hb; exact ⟨rfl, fun h => by cases h⟩
  · subst he; exact ⟨rfl, fun _ => rfl⟩

/-- C13. A returning `prune` leaves the frontier queue, the closed set, the open index, the
relevant-fluent set and list, and the generated, expanded, pruned-as-duplicate and
max-depth counters as they were, and when it returns false the pruned-by-bound counter
too.  When `prune` returns true inside an iteration of the loop of `process`, the
iteration queues nothing, counts nothing as generated and returns no node. -/
theorem prune_frame_effect {σ ν : Type} [DecidableEq σ] (C : Env σ ν) (e : RP_IW σ ν) :
    (∀ (n n1 : Node σ) (b : Bool) (e2 : RP_IW σ ν), prune C e n = .ok (b, n1, e2) →
      e2.m_open = e.m_open ∧ e2.m_closed = e.m_closed ∧ e2.m_open_hash = e.m_open_hash ∧
      e2.m_rp_fl_set = e.m_rp_fl_set ∧ e2.m_rp_fl_vec = e.m_rp_fl_vec ∧
      e2.m_gen_count = e.m_gen_count ∧ e2.m_exp_count = e.m_exp_count ∧
      e2.m_cl_count = e.m_cl_count ∧ e2.m_max_depth = e.m_max_depth ∧
      (b = false → e2.m_pruned_B_count = e.m_pruned_B_count)) ∧
    (∀ (head : Node σ) (hs : σ) (a : Action_Idx) (n1 : Node σ) (e1 e3 : RP_IW σ ν)
      (g : Option (Node σ)),
      prune C e (Node.new (some (C.m_problem.next hs a)) a (some head)
        (C.m_problem.actions a).cost) = .ok (true, n1, e1) →
      process_step C head hs a e = .ok (g, e3) →
      g = none ∧ e3.m_open = e.m_open ∧ e3.m_open_hash = e.m_open_hash ∧
        e3.m_closed = e.m_closed ∧ e3.m_gen_count = e.m_gen_count) := by
  constructor
  · intro n n1 b e2 h
    obtain ⟨he, hb⟩ := prune_engine C e e2 n n1 b h
    rw [he]
    exact ⟨rfl, rfl, rfl, rfl, rfl, rfl, rfl, rfl, rfl, hb⟩
  · intro head hs a n1 e1 e3 g hp hstep
    unfold process_step at hstep
    simp only [hp] at hstep
    injection hstep with hstep
    simp only [Prod.mk.injEq] at hstep
    obtain ⟨hg, he3⟩ := hstep
    subst he3
    obtain ⟨he, _⟩ := prune_engine C e e1 _ n1 true hp
    rw [he]
    exact ⟨hg.symm, rfl, rfl, rfl, rfl⟩

/-- Witness for `prune_frame_effect`: the accepted first successor of the root of the
counter, and the successor rejected through the closed set in the one-state problem. -/
theorem prune_frame_effect_witness :
    prune chainEnv chainPopped chainChild
      = .ok (false, chainPruneResult.2.1, chainPruneResult.2.2) ∧
    (chainPruneResult.2.2.m_open = chainPopped.m_open ∧
      chainPruneResult.2.2.m_closed = chainPopped.m_closed ∧
      chainPruneResult.2.2.m_open_hash = chainPopped.m_open_hash ∧
      chainPruneResult.2.2.m_rp_fl_set = chainPopped.m_rp_fl_set ∧
      chainPruneResult.2.2.m_rp_fl_vec = chainPopped.m_rp_fl_vec ∧
      chainPruneResult.2.2.m_gen_count = chainPopped.m_gen_count ∧
      chainPruneResult.2.2.m_exp_count = chainPopped.m_exp_count ∧
      chainPruneResult.2.2.m_cl_count = chainPopped.m_cl_count ∧
      chainPruneResult.2.2.m_max_depth = chainPopped.m_max_depth ∧
      (false = false → chainPruneResult.2.2.m_pruned_B_count = chainPopped.m_pruned_B_count)) ∧
    prune loopEnv loopSecond (Node.new (some (loopEnv.m_problem.next 0 0)) 0 (some loopChild)
        (loopEnv.m_problem.actions 0).cost)
      = .ok (true, loopPruneResult.2.1, loopPruneResult.2.2) ∧
    process_step loopEnv loopChild 0 0 loopSecond = .ok (none, loopPruneResult.2.2) ∧
    ((none : Option (Node Nat)) = none ∧ loopPruneResult.2.2.m_open = loopSecond.m_open ∧
      loopPruneResult.2.2.m_open_hash = loopSecond.m_open_hash ∧
      loopPruneResult.2.2.m_closed = loopSecond.m_closed ∧
      loopPruneResult.2.2.m_gen_count = loopSecond.m_gen_count) :=
  ⟨by decide!,
   (prune_frame_effect chainEnv chainPopped).1 chainChild chainPruneResult.2.1 false
     chainPruneResult.2.2 (by decide!),
   by decide!, by decide!,
   (prune_frame_effect loopEnv loopSecond).2 loopChild 0 0 loopPruneResult.2.1
     loopPruneResult.2.2 loopPruneResult.2.2 none (by decide!) (by decide!)⟩

/-- The third test of the loop of `do_search` on the binary tree is a loop state: the
root and its left child have been expanded, the right child is in hand. -/
theorem fork_loop_state :
    start forkEnv forkEngine none = .ok forkStarted ∧
    Loop_State forkEnv forkStarted (some forkRight) forkState2 ∧
    forkState2.m_closed = [chainRoot, forkLeft] ∧
    forkState2.m_open = [forkLeftLeft, forkLeftRight] ∧
    process forkEnv forkState2 forkRight = .ok (none, forkExpanded3) ∧
    get_node (close (inc_exp forkExpanded3) forkRight) = .ok (some forkLeftLeft, forkState3) := by
  have h0 : Loop_State forkEnv forkStarted (some chainRoot) forkPopped :=
    Loop_State.entry _ _ (by decide!) (by decide!)
  have h1 : Loop_State forkEnv forkStarted (some forkLeft) forkState1 :=
    Loop_State.iter chainRoot chainRoot forkPopped forkExpanded1 forkState1 (some forkLeft) h0
      (by decide!) (by decide!) (by decide!)
  have h2 : Loop_State forkEnv forkStarted (some forkRight) forkState2 :=
    Loop_State.iter forkLeft forkLeft forkState1 forkExpanded2 forkState2 (some forkRight) h1
      (by decide!) (by decide!) (by decide!)
  exact ⟨by decide!, h2, by decide!, by decide!, by decide!, by decide!⟩

theorem node_eq_self {σ : Type} [DecidableEq σ] (n : Node σ) (s : σ)
    (hs : n.m_state = some s) (hf : n.m_compare_only_state = false) :
    Node.eq n n = .ok true := by
  unfold Node.eq
  simp [hs, hf]

theorem built_descends {σ ν : Type} (C : Env σ ν) (r n : Node σ) (h : Built C r n) :
    Descends C r n := by
  induction h with
  | root => exact Descends.root
  | child p ps a pt _ hps ih => exact Descends.child p ps a _ pt false ih hps

theorem built_state {σ ν : Type} (C : Env σ ν) (r n : Node σ)
    (hr : ∃ rs, r = Node.mk (some rs) none no_op 0 0 false) (h : Built C r n) :
    (∃ s, n.m_state = some s) ∧ n.m_compare_only_state = false := by
  obtain ⟨rs, hr⟩ := hr
  cases h with
  | root => subst hr; exact ⟨⟨rs, rfl⟩, rfl⟩
  | child p ps a pt _ _ => exact ⟨⟨_, rfl⟩, rfl⟩

theorem child_ne_parent {σ : Type} (s : Option σ) (h : Node σ) (a : Action_Idx) (g pt : Nat)
    (c : Bool) : Node.mk s (some h) a g pt c ≠ h := by
  intro heq
  have hd := congrArg Node.depth heq
  simp [Node.depth] at hd

theorem rp_fl_walk_set_partition {σ ν : Type} (C : Env σ ν) (R : Fluent_Set) (n : Node σ)
    (c : Nat) (acc : Nat × Fluent_Set) :
    rp_fl_walk C R (n.set_partition c) acc = rp_fl_walk C R n acc := by
  cases n with
  | mk s p a g pt f =>
    unfold Node.set_partition
    conv_lhs => unfold rp_fl_walk
    conv_rhs => unfold rp_fl_walk

theorem open_node_eq {σ ν : Type} (e : RP_IW σ ν) (n : Node σ) :
    open_node e n = { e with m_open := e.m_open ++ [n], m_open_hash := e.m_open_hash ++ [n],
                             m_gen_count := (e.m_gen_count + 1) % UNSIGNED_MOD,
                             m_max_depth := (open_node e n).m_max_depth } := by
  unfold open_node inc_gen unsigned_inc Closed_List.put
  simp only []
  split <;> rfl

/-- The discipline does not depend on the marker set being reset again, on the state of
the evaluator or on the pruned-by-bound counter. -/
theorem inv_frame {σ ν : Type} [DecidableEq σ] (C : Env σ ν) (r : Node σ) (R : Fluent_Set)
    (head : Option (Node σ)) (e : RP_IW σ ν) (nov : ν) (pb : Nat)
    (hI : Inv C r R head e) :
    Inv C r R head { e with counted := ∅, m_novelty := nov, m_pruned_B_count := pb } :=
  { root := hI.root, root_shape := hI.root_shape, rp_set := hI.rp_set, counted := rfl,
    cl_count := hI.cl_count, index := hI.index, distinct := hI.distinct,
    hist_good := hI.hist_good, hist_nodup := hI.hist_nodup, hist_sorted := hI.hist_sorted,
    depth_spread := hI.depth_spread, gen_count := hI.gen_count, exp_count := hI.exp_count }

theorem not_in_index_not_mem {σ : Type} [DecidableEq σ] (l : Closed_List σ) (n : Node σ)
    (s : σ) (hs : n.m_state = some s) (hf : n.m_compare_only_state = false)
    (h : ¬ in_index l n) : n ∉ l := by
  intro hn
  exact h ⟨n, hn, node_eq_self n s hs hf⟩

/-- Queueing a node built from the node being expanded, which is equal to no node of the
closed set or of the open index, keeps the discipline. -/
theorem inv_push {σ ν : Type} [DecidableEq σ] (C : Env σ ν) (r : Node σ) (R : Fluent_Set)
    (h : Node σ) (e : RP_IW σ ν) (s : σ) (a : Action_Idx) (g pt : Nat)
    (hI : Inv C r R (some h) e)
    (hgood : Good C r R (Node.mk (some s) (some h) a g pt false))
    (hc : ¬ in_index e.m_closed (Node.mk (some s) (some h) a g pt false))
    (ho : ¬ in_index e.m_open_hash (Node.mk (some s) (some h) a g pt false)) :
    Inv C r R (some h) (open_node e (Node.mk (some s) (some h) a g pt false)) := by
  have hhist : history (some h) (open_node e (Node.mk (some s) (some h) a g pt false))
      = history (some h) e ++ [Node.mk (some s) (some h) a g pt false] := by
    rw [open_node_eq]
    simp [history]
  have hdepth : (Node.mk (some s) (some h) a g pt false).depth = h.depth + 1 := rfl
  have hh_mem : h ∈ history (some h) e := by simp [history]
  have hopen_mem : ∀ m ∈ e.m_open, m ∈ history (some h) e := by
    intro m hm; simp [history, hm]
  have hsorted := hI.hist_sorted
  have hle_h : ∀ m ∈ e.m_open, h.depth ≤ m.depth := by
    intro m hm
    have hs2 : (e.m_closed ++ ([h] ++ e.m_open)).Pairwise (fun m n => m.depth ≤ n.depth) := by
      simpa [history] using hsorted
    have hs3 := (List.pairwise_append.1 hs2).2.1
    exact (List.pairwise_append.1 hs3).2.2 h (List.mem_singleton.2 rfl) m hm
  have hclosed_le : ∀ m ∈ e.m_closed, m.depth ≤ h.depth := by
    intro m hm
    have hs2 : (e.m_closed ++ ([h] ++ e.m_open)).Pairwise (fun m n => m.depth ≤ n.depth) := by
      simpa [history] using hsorted
    exact (List.pairwise_append.1 hs2).2.2 m hm h (by simp)
  have hspread_h : ∀ m ∈ e.m_open, m.depth ≤ h.depth + 1 := by
    intro m hm
    exact hI.depth_spread h (by simp) m (by simp [hm])
  refine
    { root := by rw [open_node_eq]; exact hI.root
      root_shape := hI.root_shape
      rp_set := by rw [open_node_eq]; exact hI.rp_set
      counted := by rw [open_node_eq]; exact hI.counted
      cl_count := by rw [open_node_eq]; exact hI.cl_count
      index := by rw [open_node_eq]; show e.m_open_hash ++ _ = e.m_open ++ _; rw [hI.index]
      distinct := ?_
      hist_good := ?_
      hist_nodup := ?_
      hist_sorted := ?_
      depth_spread := ?_
      gen_count := ?_
      exp_count := by rw [open_node_eq]; exact hI.exp_count }
  · rw [open_node_eq]
    show (e.m_open ++ [_]).Pairwise _
    rw [List.pairwise_append]
    refine ⟨hI.distinct, List.pairwise_singleton _ _, ?_⟩
    intro m hm n hn
    rw [List.mem_singleton.1 hn]
    intro heq
    exact ho ⟨m, by rw [hI.index]; exact hm, heq⟩
  · intro n hn
    rw [hhist] at hn
    rcases List.mem_append.1 hn with hn | hn
    · exact hI.hist_good n hn
    · rw [List.mem_singleton.1 hn]; exact hgood
  · rw [hhist]
    rw [List.nodup_append]
    refine ⟨hI.hist_nodup, List.nodup_singleton _, ?_⟩
    intro x hx hx2
    rw [List.mem_singleton.1 hx2] at hx
    have hx3 : Node.mk (some s) (some h) a g pt false ∈ e.m_closed ++ ([h] ++ e.m_open) := by
      simpa [history] using hx
    rcases List.mem_append.1 hx3 with hx4 | hx4
    · exact not_in_index_not_mem e.m_closed (Node.mk (some s) (some h) a g pt false) s rfl rfl
        hc hx4
    · rcases List.mem_append.1 hx4 with hx5 | hx5
      · exact child_ne_parent _ _ _ _ _ _ (List.mem_singleton.1 hx5)
      · exact not_in_index_not_mem e.m_open_hash (Node.mk (some s) (some h) a g pt false) s
          rfl rfl ho (by rw [hI.index]; exact hx5)
  · rw [hhist, List.pairwise_append]
    refine ⟨hsorted, List.pairwise_singleton _ _, ?_⟩
    intro m hm n hn
    rw [List.mem_singleton.1 hn, hdepth]
    have hm3 : m ∈ e.m_closed ++ ([h] ++ e.m_open) := by simpa [history] using hm
    rcases List.mem_append.1 hm3 with hm4 | hm4
    · exact Nat.le_succ_of_le (hclosed_le m hm4)
    · rcases List.mem_append.1 hm4 with hm5 | hm5
      · rw [List.mem_singleton.1 hm5]; exact Nat.le_succ _
      · exact hspread_h m hm5
  · rw [open_node_eq]
    intro m hm n hn
    have hm2 : m = h ∨ m ∈ e.m_open ∨ m = Node.mk (some s) (some h) a g pt false := by
      simpa using hm
    have hn2 : n = h ∨ n ∈ e.m_open ∨ n = Node.mk (some s) (some h) a g pt false := by
      simpa using hn
    have hmlo : h.depth ≤ m.depth := by
      rcases hm2 with rfl | hm2 | rfl
      · exact le_refl _
      · exact hle_h m hm2
      · rw [hdepth]; exact Nat.le_succ _
    have hnhi : n.depth ≤ h.depth + 1 := by
      rcases hn2 with rfl | hn2 | rfl
      · exact Nat.le_succ _
      · exact hspread_h n hn2
      · rw [hdepth]
    omega
  · rw [open_node_eq]
    show (e.m_gen_count + 1) % UNSIGNED_MOD
      = (e.m_closed.length + (e.m_open ++ [_]).length + 1) % UNSIGNED_MOD
    have hg := hI.gen_count
    simp only [Option.toList, List.length_singleton] at hg
    rw [hg, List.length_append, List.length_singleton, Nat.mod_add_mod]
    exact congrArg (fun x => x % UNSIGNED_MOD) (by omega)

/-- The node accepted by `prune` in an iteration of the loop of `process` on a good head:
its shape, its goodness, and the failed duplicate checks. -/
theorem accepted_node {σ ν : Type} [DecidableEq σ] (C : Env σ ν) (r : Node σ)
    (R : Fluent_Set) (h : Node σ) (hs : σ) (a : Action_Idx) (e e1 : RP_IW σ ν) (n1 : Node σ)
    (hI : Inv C r R (some h) e) (hst : h.m_state = some hs)
    (hp : prune C e (Node.new (some (C.m_problem.next hs a)) a (some h)
      (C.m_problem.actions a).cost) = .ok (false, n1, e1)) :
    ∃ pt, n1 = Node.mk (some (C.m_problem.next hs a)) (some h) a
        (child_g h.m_g (C.m_problem.actions a).cost) pt false ∧
      Good C r R n1 ∧ ¬ in_index e.m_closed n1 ∧ ¬ in_index e.m_open_hash n1 ∧
      (C.novelty.eval e.m_novelty n1).2 ≤ e.m_B ∧
      e1 = { e with counted := ∅, m_novelty := (C.novelty.eval e.m_novelty n1).1,
                    m_pruned_B_count := e.m_pruned_B_count } := by
  obtain ⟨count, hrp, hn1, hcases⟩ := prune_ok C e e1 _ n1 false hp
  have hbuilt : Built C r h := (hI.hist_good h (by simp [history])).1
  have hwalk : ∃ K, rp_fl_walk C R n1 (0, ∅) = .ok (count, K) := by
    unfold rp_fl_achieved at hrp
    rw [hI.rp_set, hI.counted] at hrp
    split at hrp
    · cases hrp
    · rename_i res hres
      injection hrp with hrp
      simp only [Prod.mk.injEq] at hrp
      refine ⟨res.2, ?_⟩
      rw [hn1, rp_fl_walk_set_partition, hres, ← hrp.1]
  refine ⟨count, hn1, ⟨?_, ?_⟩, ?_⟩
  · rw [hn1]
    exact Built.child h hs a count hbuilt hst
  · have hpt : n1.m_partition = count := by rw [hn1]; rfl
    rw [hpt]
    exact hwalk
  · rcases hcases with ⟨_, hb, _⟩ | ⟨_, _, hb, _⟩ | ⟨_, _, _, hb, _⟩ | ⟨hc, ho, hsc, _, he⟩
    · cases hb
    · cases hb
    · cases hb
    · exact ⟨hc, ho, hsc, he⟩

/-- An iteration of the loop of `process` keeps the discipline. -/
theorem inv_step {σ ν : Type} [DecidableEq σ] (C : Env σ ν) (r : Node σ) (R : Fluent_Set)
    (h : Node σ) (hs : σ) (a : Action_Idx) (e e2 : RP_IW σ ν) (g : Option (Node σ))
    (hI : Inv C r R (some h) e) (hst : h.m_state = some hs)
    (hstep : process_step C h hs a e = .ok (g, e2)) : Inv C r R (some h) e2 := by
  rcases process_step_ok C h hs a e e2 g hstep with ⟨n1, hp, _⟩ | ⟨n1, e1, hp, he2, _⟩
  · obtain ⟨he, _⟩ := prune_engine C e e2 _ n1 true hp
    rw [he]
    exact inv_frame C r R (some h) e _ _ hI
  · obtain ⟨pt, hn1, hgood, hc, ho, _, he1⟩ := accepted_node C r R h hs a e e1 n1 hI hst hp
    have hI1 : Inv C r R (some h) e1 := by
      rw [he1]
      exact inv_frame C r R (some h) e _ _ hI
    have hc1 : ¬ in_index e1.m_closed n1 := by rw [he1]; exact hc
    have ho1 : ¬ in_index e1.m_open_hash n1 := by rw [he1]; exact ho
    rw [he2]
    rw [hn1] at hgood hc1 ho1 ⊢
    exact inv_push C r R h e1 _ a _ pt hI1 hgood hc1 ho1

/-- The loop of `process` keeps the discipline. -/
theorem inv_process {σ ν : Type} [DecidableEq σ] (C : Env σ ν) (r : Node σ) (R : Fluent_Set)
    (h : Node σ) (e e2 : RP_IW σ ν) (g : Option (Node σ))
    (hI : Inv C r R (some h) e) (hp : process C e h = .ok (g, e2)) :
    Inv C r R (some h) e2 := by
  unfold process at hp
  split at hp
  · cases hp
  · rename_i hs hst
    exact (process_loop_inv C h hs (Inv C r R (some h)) (fun _ => True)
      (fun a e g e2 hI hstep => ⟨inv_step C r R h hs a e e2 g hI hst hstep, fun _ _ => trivial⟩)
      _ e e2 g hI hp).1

/-- Closing the expanded node keeps the discipline. -/
theorem inv_close {σ ν : Type} [DecidableEq σ] (C : Env σ ν) (r : Node σ) (R : Fluent_Set)
    (h : Node σ) (e : RP_IW σ ν) (hI : Inv C r R (some h) e) :
    Inv C r R none (close (inc_exp e) h) := by
  have hhist : history none (close (inc_exp e) h) = history (some h) e := by
    simp [history, close, inc_exp, Closed_List.put]
  refine
    { root := hI.root, root_shape := hI.root_shape, rp_set := hI.rp_set,
      counted := hI.counted, cl_count := hI.cl_count, index := hI.index,
      distinct := hI.distinct
      hist_good := by rw [hhist]; exact hI.hist_good
      hist_nodup := by rw [hhist]; exact hI.hist_nodup
      hist_sorted := by rw [hhist]; exact hI.hist_sorted
      depth_spread := ?_
      gen_count := ?_
      exp_count := ?_ }
  · intro m hm n hn
    have hm2 : m ∈ e.m_open := by simpa [close, inc_exp] using hm
    have hn2 : n ∈ e.m_open := by simpa [close, inc_exp] using hn
    exact hI.depth_spread m (by simp [hm2]) n (by simp [hn2])
  · show e.m_gen_count = ((e.m_closed ++ [h]).length + e.m_open.length + 0) % UNSIGNED_MOD
    rw [hI.gen_count]
    simp only [Option.toList, List.length_singleton, List.length_append]
    exact congrArg (fun x => x % UNSIGNED_MOD) (by omega)
  · show (e.m_exp_count + 1) % UNSIGNED_MOD = (e.m_closed ++ [h]).length % UNSIGNED_MOD
    rw [hI.exp_count, List.length_append, List.length_singleton, Nat.mod_add_mod]

/-- With the discipline in force, `get_node` returns: it dequeues the front of the queue,
if any, and erases from the open index the entry of that very node. -/
theorem get_node_inv {σ ν : Type} [DecidableEq σ] (C : Env σ ν) (r : Node σ)
    (R : Fluent_Set) (e : RP_IW σ ν) (hI : Inv C r R none e) :
    (e.m_open = [] ∧ get_node e = .ok (none, e)) ∨
    (∃ nx rest, e.m_open = nx :: rest ∧
      get_node e = .ok (some nx, { e with m_open := rest, m_open_hash := rest })) := by
  cases hopen : e.m_open with
  | nil =>
    left
    refine ⟨rfl, ?_⟩
    unfold get_node
    simp [hopen]
  | cons nx rest =>
    right
    refine ⟨nx, rest, rfl, ?_⟩
    have hgood := hI.hist_good nx (by simp [history, hopen])
    obtain ⟨⟨s, hs⟩, hf⟩ := built_state C r nx hI.root_shape hgood.1
    have hself := node_eq_self nx s hs hf
    unfold get_node
    simp only [hopen, hI.index, Closed_List.retrieve_iterator, hself, Closed_List.erase,
      List.eraseIdx]

/-- Dequeueing keeps the discipline. -/
theorem inv_pop {σ ν : Type} [DecidableEq σ] (C : Env σ ν) (r : Node σ) (R : Fluent_Set)
    (e e1 : RP_IW σ ν) (next : Option (Node σ)) (hI : Inv C r R none e)
    (hget : get_node e = .ok (next, e1)) :
    Inv C r R next e1 ∧ history next e1 = history none e := by
  rcases get_node_inv C r R e hI with ⟨hopen, hg⟩ | ⟨nx, rest, hopen, hg⟩
  · rw [hg] at hget
    injection hget with hget
    simp only [Prod.mk.injEq] at hget
    obtain ⟨h1, h2⟩ := hget
    subst h1 h2
    exact ⟨hI, rfl⟩
  · rw [hg] at hget
    injection hget with hget
    simp only [Prod.mk.injEq] at hget
    obtain ⟨h1, h2⟩ := hget
    subst h1 h2
    have hhist : history (some nx) { e with m_open := rest, m_open_hash := rest }
        = history none e := by
      simp [history, hopen]
    refine ⟨?_, hhist⟩
    refine
      { root := hI.root, root_shape := hI.root_shape, rp_set := hI.rp_set,
        counted := hI.counted, cl_count := hI.cl_count, index := rfl
        distinct := ?_
        hist_good := by rw [hhist]; exact hI.hist_good
        hist_nodup := by rw [hhist]; exact hI.hist_nodup
        hist_sorted := by rw [hhist]; exact hI.hist_sorted
        depth_spread := ?_
        gen_count := ?_
        exp_count := hI.exp_count }
    · have hd := hI.distinct
      rw [hopen] at hd
      exact (List.pairwise_cons.1 hd).2
    · intro m hm n hn
      have hm2 : m ∈ e.m_open := by rw [hopen]; simpa using hm
      have hn2 : n ∈ e.m_open := by rw [hopen]; simpa using hn
      exact hI.depth_spread m (by simp [hm2]) n (by simp [hn2])
    · show e.m_gen_count = (e.m_closed.length + rest.length + 1) % UNSIGNED_MOD
      rw [hI.gen_count, hopen]
      simp only [Option.toList, List.length_cons, List.length_nil]
      exact congrArg (fun x => x % UNSIGNED_MOD) (by omega)

theorem start_prepare_counts {σ ν : Type} (C : Env σ ν) (e : RP_IW σ ν) (s : Option σ) :
    (start_prepare C e s).2.m_gen_count = 0 ∧ (start_prepare C e s).2.m_cl_count = 0 := by
  unfold start_prepare
  simp only []
  split <;> simp [set_relplan, reset]

/-- The engine returned by `start`, in terms of the engine prepared before `prune`: the
root pointer is set, the marker set is clear, and, unless the root was pruned, the root is
queued and counted as generated. -/
theorem start_engine {σ ν : Type} [DecidableEq σ] (C : Env σ ν) (e e0 : RP_IW σ ν)
    (s : Option σ) (h : start C e s = .ok e0) :
    ∃ nov pb,
      e0 = { (start_prepare C e s).2 with
              counted := ∅, m_novelty := nov, m_pruned_B_count := pb,
              m_root := some (Node.mk (some (start_state C s)) none no_op 0 0 false) } ∨
      e0 = { (start_prepare C e s).2 with
              counted := ∅, m_novelty := nov, m_pruned_B_count := pb,
              m_root := some (Node.mk (some (start_state C s)) none no_op 0 0 false),
              m_open := [Node.mk (some (start_state C s)) none no_op 0 0 false],
              m_open_hash := [Node.mk (some (start_state C s)) none no_op 0 0 false],
              m_gen_count := 1 } := by
  obtain ⟨f1, f2, f3, f4, f5, f6⟩ := start_prepare_fields C e s
  obtain ⟨f7, f8⟩ := start_prepare_counts C e s
  have hroot := start_prepare_root C e s
  unfold start at h
  split at h
  · cases h
  · rename_i root1 e5 hp
    obtain ⟨count, hrp, hn1, _⟩ := prune_ok C _ e5 _ root1 true hp
    rw [hroot, rp_fl_achieved_root] at hrp
    injection hrp with hrp
    simp only [Prod.mk.injEq] at hrp
    have hr1 : root1 = Node.mk (some (start_state C s)) none no_op 0 0 false := by
      rw [hn1, ← hrp.1, hroot]; rfl
    obtain ⟨he5, _⟩ := prune_engine C _ e5 _ root1 true hp
    injection h with h
    refine ⟨e5.m_novelty, e5.m_pruned_B_count, Or.inl ?_⟩
    rw [← h, hr1, he5]
  · rename_i root1 e5 hp
    obtain ⟨count, hrp, hn1, _⟩ := prune_ok C _ e5 _ root1 false hp
    rw [hroot, rp_fl_achieved_root] at hrp
    injection hrp with hrp
    simp only [Prod.mk.injEq] at hrp
    have hr1 : root1 = Node.mk (some (start_state C s)) none no_op 0 0 false := by
      rw [hn1, ← hrp.1, hroot]; rfl
    obtain ⟨he5, _⟩ := prune_engine C _ e5 _ root1 false hp
    injection h with h
    refine ⟨e5.m_novelty, e5.m_pruned_B_count, Or.inr ?_⟩
    rw [← h, hr1, he5]
    simp [inc_gen, unsigned_inc, UNSIGNED_MOD, Closed_List.put, f1, f3, f7]

/-- The engine returned by `start` satisfies the discipline, with the root built by
`start` and the relevant-fluent set it computed. -/
theorem inv_start {σ ν : Type} [DecidableEq σ] (C : Env σ ν) (e e0 : RP_IW σ ν)
    (s : Option σ) (h : start C e s = .ok e0) :
    Inv C (Node.mk (some (start_state C s)) none no_op 0 0 false) e0.m_rp_fl_set none e0 := by
  obtain ⟨f1, f2, f3, f4, f5, f6⟩ := start_prepare_fields C e s
  obtain ⟨f7, f8⟩ := start_prepare_counts C e s
  have hgood : Good C (Node.mk (some (start_state C s)) none no_op 0 0 false) e0.m_rp_fl_set
      (Node.mk (some (start_state C s)) none no_op 0 0 false) := by
    refine ⟨Built.root, ∅, ?_⟩
    unfold rp_fl_walk
    simp [Node.m_partition]
  obtain ⟨nov, pb, he | he⟩ := start_engine C e e0 s h
  · have hopen : e0.m_open = [] := by rw [he]; exact f1
    have hclosed : e0.m_closed = [] := by rw [he]; exact f2
    have hhist : history none e0 = [] := by simp [history, hopen, hclosed]
    refine
      { root := by rw [he]
        root_shape := ⟨_, rfl⟩
        rp_set := rfl
        counted := by rw [he]
        cl_count := by rw [he]; exact f8
        index := by rw [he]; show (start_prepare C e s).2.m_open_hash = _; rw [f3]; exact f1.symm
        distinct := by rw [hopen]; exact List.Pairwise.nil
        hist_good := by rw [hhist]; intro n hn; cases hn
        hist_nodup := by rw [hhist]; exact List.nodup_nil
        hist_sorted := by rw [hhist]; exact List.Pairwise.nil
        depth_spread := by rw [hopen]; intro m hm; simp at hm
        gen_count := by
          rw [hopen, hclosed]
          rw [he]
          show (start_prepare C e s).2.m_gen_count = _
          rw [f7]; rfl
        exp_count := by
          rw [hclosed]
          rw [he]
          show (start_prepare C e s).2.m_exp_count = _
          rw [f4]; rfl }
  · have hopen : e0.m_open = [Node.mk (some (start_state C s)) none no_op 0 0 false] := by
      rw [he]
    have hclosed : e0.m_closed = [] := by rw [he]; exact f2
    have hhist : history none e0 = [Node.mk (some (start_state C s)) none no_op 0 0 false] := by
      simp [history, hopen, hclosed]
    refine
      { root := by rw [he]
        root_shape := ⟨_, rfl⟩
        rp_set := rfl
        counted := by rw [he]
        cl_count := by rw [he]; exact f8
        index := by rw [he]
        distinct := by rw [hopen]; exact List.pairwise_singleton _ _
        hist_good := by
          rw [hhist]; intro n hn; rw [List.mem_singleton.1 hn]; exact hgood
        hist_nodup := by rw [hhist]; exact List.nodup_singleton _
        hist_sorted := by rw [hhist]; exact List.pairwise_singleton _ _
        depth_spread := by
          rw [hopen]
          intro m hm n hn
          simp only [Option.toList, List.nil_append, List.mem_singleton] at hm hn
          rw [hm, hn]; exact Nat.le_succ _
        gen_count := by
          rw [hopen, hclosed]
          rw [he]
          show 1 = (0 + 1 + 0) % UNSIGNED_MOD
          unfold UNSIGNED_MOD
          norm_num
        exp_count := by
          rw [hclosed]
          rw [he]
          show (start_prepare C e s).2.m_exp_count = _
          rw [f4]; rfl }

/-- Every loop state of `do_search` after `start` satisfies the discipline. -/
theorem loop_state_inv {σ ν : Type} [DecidableEq σ] (C : Env σ ν) (e e0 : RP_IW σ ν)
    (s : Option σ) (hs : start C e s = .ok e0) (head : Option (Node σ)) (e1 : RP_IW σ ν)
    (hl : Loop_State C e0 head e1) :
    Inv C (Node.mk (some (start_state C s)) none no_op 0 0 false) e0.m_rp_fl_set head e1 := by
  induction hl with
  | entry head e1 hget _ => exact (inv_pop C _ _ e0 e1 head (inv_start C e e0 s hs) hget).1
  | iter head0 head e2 e3 e4 next _ hmat hproc hget ih =>
    obtain ⟨⟨st, hst⟩, _⟩ := built_state C _ head0 ih.root_shape
      (ih.hist_good head0 (by simp [history])).1
    rw [materialize_of_state C head0 st hst] at hmat
    injection hmat with hmat
    subst hmat
    have h1 := inv_process C _ _ head0 e2 e3 none ih hproc
    exact (inv_pop C _ _ _ e4 next (inv_close C _ _ head0 e3 h1) hget).1

theorem node_eq_form {σ : Type} [DecidableEq σ] (a b : Node σ) (sa sb : σ)
    (ha : a.m_state = some sa) (hb : b.m_state = some sb)
    (fa : a.m_compare_only_state = false) (fb : b.m_compare_only_state = false) :
    Node.eq a b = .ok (decide (sa = sb) && decide (a.m_partition = b.m_partition)) := by
  unfold Node.eq
  simp only [ha, hb, fa, fb]
  have e1 : decide (sb = sa) = decide (sa = sb) := by
    by_cases h : sa = sb
    · simp [h]
    · have h2 : ¬ sb = sa := fun x => h x.symm
      simp [h, h2]
  have e2 : decide (b.m_partition = a.m_partition)
      = decide (a.m_partition = b.m_partition) := by
    by_cases h : a.m_partition = b.m_partition
    · simp [h]
    · have h2 : ¬ b.m_partition = a.m_partition := fun x => h x.symm
      simp [h, h2]
  simp [e1, e2]

theorem node_eq_comm {σ : Type} [DecidableEq σ] (a b : Node σ) (sa sb : σ)
    (ha : a.m_state = some sa) (hb : b.m_state = some sb)
    (fa : a.m_compare_only_state = false) (fb : b.m_compare_only_state = false) :
    Node.eq a b = Node.eq b a := by
  rw [node_eq_form a b sa sb ha hb fa fb, node_eq_form b a sb sa hb ha fb fa]
  congr 1
  by_cases h1 : sa = sb <;> by_cases h2 : a.m_partition = b.m_partition
  · simp [h1, h2]
  · have h3 : ¬ b.m_partition = a.m_partition := fun x => h2 x.symm
    simp [h1, h2, h3]
  · have h3 : ¬ sb = sa := fun x => h1 x.symm
    simp [h1, h2, h3]
  · have h3 : ¬ sb = sa := fun x => h1 x.symm
    simp [h1, h3]

theorem node_eq_false_of_ne_true {σ : Type} [DecidableEq σ] (a b : Node σ) (sa sb : σ)
    (ha : a.m_state = some sa) (hb : b.m_state = some sb)
    (fa : a.m_compare_only_state = false) (fb : b.m_compare_only_state = false)
    (h : Node.eq a b ≠ .ok true) : Node.eq a b = .ok false := by
  rw [node_eq_form a b sa sb ha hb fa fb] at h ⊢
  cases hd : (decide (sa = sb) && decide (a.m_partition = b.m_partition))
  · rfl
  · rw [hd] at h; exact absurd rfl h

/-- The discipline of a loop state gives the consistency of frontier, open index and
closed set. -/
theorem inv_discipline {σ ν : Type} [DecidableEq σ] (C : Env σ ν) (r : Node σ)
    (R : Fluent_Set) (head : Option (Node σ)) (e : RP_IW σ ν) (hI : Inv C r R head e) :
    Frontier_Discipline e ∧ ∀ h, head = some h → h ∉ e.m_open ∧ h ∉ e.m_closed := by
  have hstate : ∀ n ∈ e.m_open, (∃ s, n.m_state = some s) ∧ n.m_compare_only_state = false := by
    intro n hn
    exact built_state C r n hI.root_shape (hI.hist_good n (by simp [history, hn])).1
  have hnd : (e.m_closed ++ (head.toList ++ e.m_open)).Nodup := by
    simpa [history] using hI.hist_nodup
  refine ⟨⟨hI.index, ?_, ?_⟩, ?_⟩
  · have hp : e.m_open.Pairwise (fun m n => Node.eq m n = .ok false ∧ Node.eq n m = .ok false) := by
      refine hI.distinct.imp_of_mem ?_
      intro m n hm hn hne
      obtain ⟨⟨sm, hsm⟩, fm⟩ := hstate m hm
      obtain ⟨⟨sn, hsn⟩, fn⟩ := hstate n hn
      have h1 := node_eq_false_of_ne_true m n sm sn hsm hsn fm fn hne
      exact ⟨h1, by rw [← node_eq_comm m n sm sn hsm hsn fm fn]; exact h1⟩
    intro m hm n hn hmn
    exact (hp.forall (fun x y hxy => ⟨hxy.2, hxy.1⟩) hm hn hmn).1
  · intro n hn hc
    exact (List.nodup_append.1 hnd).2.2 hc (List.mem_append_right _ hn)
  · intro h hh
    subst hh
    have h2 := (List.nodup_append.1 hnd).2.1
    have h3 : ([h] ++ e.m_open).Nodup := by simpa using h2
    constructor
    · intro hmem
      exact (List.nodup_append.1 h3).2.2 (List.mem_singleton.2 rfl) hmem
    · intro hmem
      exact (List.nodup_append.1 hnd).2.2 hmem (by simp)

/-- C14. After `start`, and at every test of the `while (head)` loop of `do_search` run after
`start`: the open index holds exactly the queued nodes, no two distinct queued nodes are
equality-equal, no queued node is in the closed set, and the dequeued node is in neither;
and the `get_node` that ends an iteration returns, dequeues the front node and erases
from the open index the entry of that very node, after which no entry of the index
compares equal to it. -/
theorem frontier_discipline {σ ν : Type} [DecidableEq σ] (C : Env σ ν) (e e0 : RP_IW σ ν)
    (s : Option σ) (hs : start C e s = .ok e0) :
    Frontier_Discipline e0 ∧
    (∀ (head : Option (Node σ)) (e1 : RP_IW σ ν), Loop_State C e0 head e1 →
      Frontier_Discipline e1 ∧ ∀ h, head = some h → h ∉ e1.m_open ∧ h ∉ e1.m_closed) ∧
    (∀ (head : Node σ) (e1 e2 : RP_IW σ ν), Loop_State C e0 (some head) e1 →
      process C e1 head = .ok (none, e2) →
      ((close (inc_exp e2) head).m_open = [] ∧
        get_node (close (inc_exp e2) head) = .ok (none, close (inc_exp e2) head)) ∨
      ∃ nx rest, (close (inc_exp e2) head).m_open = nx :: rest ∧
        (close (inc_exp e2) head).m_open_hash = nx :: rest ∧
        get_node (close (inc_exp e2) head)
          = .ok (some nx, { close (inc_exp e2) head with m_open := rest, m_open_hash := rest }) ∧
        ∀ m ∈ rest, Node.eq m nx = .ok false) := by
  refine ⟨(inv_discipline C _ _ none e0 (inv_start C e e0 s hs)).1, ?_, ?_⟩
  · intro head e1 hl
    exact inv_discipline C _ _ head e1 (loop_state_inv C e e0 s hs head e1 hl)
  · intro head e1 e2 hl hproc
    have hI := loop_state_inv C e e0 s hs (some head) e1 hl
    have hI2 := inv_close C _ _ head e2 (inv_process C _ _ head e1 e2 none hI hproc)
    rcases get_node_inv C _ _ _ hI2 with h | ⟨nx, rest, hopen, hg⟩
    · exact Or.inl h
    · refine Or.inr ⟨nx, rest, hopen, by rw [hI2.index]; exact hopen, hg, ?_⟩
      intro m hm
      have hd := (inv_discipline C _ _ none _ hI2).1.2.1
      have hnd : (nx :: rest).Nodup := by
        have h1 : (history none (close (inc_exp e2) head)).Nodup := hI2.hist_nodup
        have h2 : ((close (inc_exp e2) head).m_closed
            ++ (close (inc_exp e2) head).m_open).Nodup := by
          simpa [history] using h1
        rw [hopen] at h2
        exact (List.nodup_append.1 h2).2.1
      have hne : m ≠ nx := by
        intro heq
        subst heq
        exact (List.nodup_cons.1 hnd).1 hm
      exact hd m (by rw [hopen]; exact List.mem_cons_of_mem _ hm) nx
        (by rw [hopen]; exact List.mem_cons_self _ _) hne

theorem frontier_discipline_witness :
    start forkEnv forkEngine none = .ok forkStarted ∧
    Loop_State forkEnv forkStarted (some forkRight) forkState2 ∧
    forkState2.m_closed = [chainRoot, forkLeft] ∧
    forkState2.m_open = [forkLeftLeft, forkLeftRight] ∧
    Frontier_Discipline forkState2 ∧
    Node.eq forkLeftLeft forkLeftRight = .ok false ∧
    (forkRight ∉ forkState2.m_open ∧ forkRight ∉ forkState2.m_closed) ∧
    process forkEnv forkState2 forkRight = .ok (none, forkExpanded3) ∧
    (((close (inc_exp forkExpanded3) forkRight).m_open = [] ∧
        get_node (close (inc_exp forkExpanded3) forkRight)
          = .ok (none, close (inc_exp forkExpanded3) forkRight)) ∨
      ∃ nx rest, (close (inc_exp forkExpanded3) forkRight).m_open = nx :: rest ∧
        (close (inc_exp forkExpanded3) forkRight).m_open_hash = nx :: rest ∧
        get_node (close (inc_exp forkExpanded3) forkRight)
          = .ok (some nx, { close (inc_exp forkExpanded3) forkRight with
              m_open := rest, m_open_hash := rest }) ∧
        ∀ m ∈ rest, Node.eq m nx = .ok false) :=
  have hf := fork_loop_state
  have h := frontier_discipline forkEnv forkEngine forkStarted none hf.1
  ⟨hf.1, hf.2.1, hf.2.2.1, hf.2.2.2.1, (h.2.1 _ _ hf.2.1).1,
    (h.2.1 _ _ hf.2.1).1.2.1 forkLeftLeft (by decide!) forkLeftRight (by decide!) (by decide!),
    (h.2.1 _ _ hf.2.1).2 forkRight rfl, hf.2.2.2.2.1,
    h.2.2 forkRight forkState2 forkExpanded3 hf.2.1 hf.2.2.2.2.1⟩

/-- One iteration of the loop of `process` leaves the closed set as it is and can only
append children of `head` to the queue. -/
theorem process_step_appends {σ ν : Type} [DecidableEq σ] (C : Env σ ν) (head : Node σ)
    (hs : σ) (hst : head.m_state = some hs) (a : Action_Idx) (e e2 : RP_IW σ ν)
    (g : Option (Node σ)) (h : process_step C head hs a e = .ok (g, e2)) :
    e2.m_closed = e.m_closed ∧
    ∃ pushed, e2.m_open = e.m_open ++ pushed ∧ ∀ n ∈ pushed, Accepted_Child C head n := by
  rcases process_step_ok C head hs a e e2 g h with ⟨n1, hp, _⟩ | ⟨n1, e1, hp, he2, _⟩
  · obtain ⟨he, _⟩ := prune_engine C e e2 _ n1 true hp
    rw [he]
    exact ⟨rfl, [], by simp, by simp⟩
  · obtain ⟨he, _⟩ := prune_engine C e e1 _ n1 false hp
    obtain ⟨count, _, hn1, _⟩ := prune_ok C e e1 _ n1 false hp
    rw [he2, open_node_eq]
    refine ⟨by rw [he], [n1], by rw [he], ?_⟩
    intro n hn
    rw [List.mem_singleton.1 hn]
    refine ⟨by rw [hn1]; rfl, hs, a, e, e1, hst, hp⟩

/-- The method `process` leaves the closed set as it is and can only append children of
`head` to the queue. -/
theorem process_appends {σ ν : Type} [DecidableEq σ] (C : Env σ ν) (head : Node σ)
    (e e2 : RP_IW σ ν) (g : Option (Node σ)) (h : process C e head = .ok (g, e2)) :
    e2.m_closed = e.m_closed ∧
    ∃ pushed, e2.m_open = e.m_open ++ pushed ∧ ∀ n ∈ pushed, Accepted_Child C head n := by
  unfold process at h
  split at h
  · cases h
  · rename_i hs hst
    refine (process_loop_inv C head hs
      (fun x => x.m_closed = e.m_closed ∧
        ∃ pushed, x.m_open = e.m_open ++ pushed ∧ ∀ n ∈ pushed, Accepted_Child C head n)
      (fun _ => True) ?_ _ e e2 g ⟨rfl, [], by simp, by simp⟩ h).1
    intro a x g x2 hI hstep
    obtain ⟨hc, p1, ho, hp1⟩ := hI
    obtain ⟨hc2, p2, ho2, hp2⟩ := process_step_appends C head hs hst a x x2 g hstep
    refine ⟨⟨by rw [hc2, hc], p1 ++ p2, by rw [ho2, ho, List.append_assoc], ?_⟩,
      fun _ _ => trivial⟩
    intro n hn
    rcases List.mem_append.1 hn with hn | hn
    · exact hp1 n hn
    · exact hp2 n hn

/-- An iteration of the loop of `do_search` that finds no goal only appends to the
history: the expanded node joins the closed set, the next node is taken from the front of
the queue and the new children are behind everything queued before. -/
theorem iteration_history {σ ν : Type} [DecidableEq σ] (C : Env σ ν) (r : Node σ)
    (R : Fluent_Set) (head : Node σ) (e1 e2 e3 : RP_IW σ ν) (g : Option (Node σ))
    (next : Option (Node σ)) (hI : Inv C r R (some head) e1)
    (hp : process C e1 head = .ok (g, e2))
    (hget : get_node (close (inc_exp e2) head) = .ok (next, e3)) :
    ∃ pushed, (∀ n ∈ pushed, Accepted_Child C head n) ∧
      history next e3 = history (some head) e1 ++ pushed ∧
      e3.m_closed = e1.m_closed ++ [head] ∧
      next.toList ++ e3.m_open = e1.m_open ++ pushed ∧
      e2.m_open = e1.m_open ++ pushed := by
  obtain ⟨hc, pushed, ho, hpar⟩ := process_appends C head e1 e2 g hp
  have hI2 := inv_close C r R head e2 (inv_process C r R head e1 e2 g hI hp)
  obtain ⟨_, hh⟩ := inv_pop C r R _ e3 next hI2 hget
  have hcl : e3.m_closed = e1.m_closed ++ [head] := by
    rcases get_node_inv C r R _ hI2 with ⟨_, hg⟩ | ⟨nx, rest, _, hg⟩
    · rw [hg] at hget
      injection hget with hget
      simp only [Prod.mk.injEq] at hget
      rw [← hget.2, ← hc]
      rfl
    · rw [hg] at hget
      injection hget with hget
      simp only [Prod.mk.injEq] at hget
      rw [← hget.2, ← hc]
      rfl
  have hh2 : history next e3 = history (some head) e1 ++ pushed := by
    rw [hh]
    simp [history, close, inc_exp, Closed_List.put, hc, ho]
  refine ⟨pushed, hpar, hh2, hcl, ?_, ho⟩
  have h3 : e3.m_closed ++ (next.toList ++ e3.m_open)
      = e3.m_closed ++ (e1.m_open ++ pushed) := by
    have h4 := hh2
    simp only [history, List.append_assoc] at h4
    rw [h4, hcl]
    simp
  exact List.append_cancel_left h3

/-- The depths around the node being expanded: closed nodes are not deeper, queued nodes
are as deep or one level deeper. -/
theorem inv_depths {σ ν : Type} [DecidableEq σ] (C : Env σ ν) (r : Node σ)
    (R : Fluent_Set) (head : Node σ) (e : RP_IW σ ν) (hI : Inv C r R (some head) e) :
    e.m_closed.Pairwise (fun m n => m.depth ≤ n.depth) ∧
    (∀ c ∈ e.m_closed, c.depth ≤ head.depth) ∧
    (∀ n ∈ e.m_open, n.depth = head.depth ∨ n.depth = head.depth + 1) := by
  have hs : (e.m_closed ++ (head :: e.m_open)).Pairwise (fun m n => m.depth ≤ n.depth) := by
    simpa [history] using hI.hist_sorted
  obtain ⟨h1, h2, h3⟩ := List.pairwise_append.1 hs
  refine ⟨h1, fun c hc => h3 c hc head (List.mem_cons_self _ _), ?_⟩
  intro n hn
  have hlo : head.depth ≤ n.depth := (List.pairwise_cons.1 h2).1 n hn
  have hhi : n.depth ≤ head.depth + 1 :=
    hI.depth_spread head (by simp) n (by simp [hn])
  omega

/-- In a loop state every node of the history carries the value of `rp_fl_achieved` as
its partition. -/
theorem inv_partition {σ ν : Type} [DecidableEq σ] (C : Env σ ν) (r : Node σ)
    (R : Fluent_Set) (head : Option (Node σ)) (e : RP_IW σ ν) (hI : Inv C r R head e) :
    ∀ n ∈ history head e, rp_fl_achieved C e n = .ok (n.m_partition, e) := by
  intro n hn
  obtain ⟨_, K, hK⟩ := hI.hist_good n hn
  have hw : rp_fl_walk C e.m_rp_fl_set n (0, e.counted) = .ok (n.m_partition, K) := by
    rw [hI.rp_set, hI.counted]
    exact hK
  have he : ({ e with counted := ∅ } : RP_IW σ ν) = e := by
    have hc := hI.counted
    cases e
    simp only at hc
    subst hc
    rfl
  unfold rp_fl_achieved
  rw [hw]
  simp only []
  rw [he]

/-- C16. In every state of the loop of `do_search` run after `start`, with `head` the
node being expanded: the closed set, which lists the expanded nodes in the order of their
expansion, has non-decreasing depths, none above the depth of `head`, and every queued
node has the depth of `head` or one more, also while `process(head)` runs; and one
iteration dequeues in the order of enqueueing: `head` joins the expanded nodes, the next
node is the front of what was queued, and the new children of `head` go behind
everything queued before. -/
theorem breadth_first_order {σ ν : Type} [DecidableEq σ] (C : Env σ ν) (e e0 : RP_IW σ ν)
    (s : Option σ) (hs : start C e s = .ok e0) (head : Node σ) (e1 : RP_IW σ ν)
    (hl : Loop_State C e0 (some head) e1) :
    (e1.m_closed.Pairwise (fun m n => m.depth ≤ n.depth) ∧
      (∀ c ∈ e1.m_closed, c.depth ≤ head.depth) ∧
      (∀ n ∈ e1.m_open, n.depth = head.depth ∨ n.depth = head.depth + 1)) ∧
    (∀ (g : Option (Node σ)) (e2 : RP_IW σ ν), process C e1 head = .ok (g, e2) →
      (∀ n ∈ e2.m_open, n.depth = head.depth ∨ n.depth = head.depth + 1) ∧
      ∀ (next : Option (Node σ)) (e3 : RP_IW σ ν),
        get_node (close (inc_exp e2) head) = .ok (next, e3) →
        ∃ pushed, e3.m_closed = e1.m_closed ++ [head] ∧
          next.toList ++ e3.m_open = e1.m_open ++ pushed ∧
          (∀ n ∈ pushed, n.m_parent = some head) ∧
          ∀ nx, next = some nx → head.depth ≤ nx.depth) := by
  have hI := loop_state_inv C e e0 s hs (some head) e1 hl
  refine ⟨inv_depths C _ _ head e1 hI, ?_⟩
  intro g e2 hp
  have hI2 := inv_process C _ _ head e1 e2 g hI hp
  have hd2 := (inv_depths C _ _ head e2 hI2).2.2
  refine ⟨hd2, ?_⟩
  intro next e3 hget
  obtain ⟨pushed, hacc, _, hcl, hq, ho2⟩ :=
    iteration_history C _ _ head e1 e2 e3 g next hI hp hget
  refine ⟨pushed, hcl, hq, fun n hn => (hacc n hn).1, ?_⟩
  intro nx hnx
  subst hnx
  have hmem : nx ∈ e2.m_open := by
    have h1 : nx ∈ (some nx).toList ++ e3.m_open := by simp
    rw [hq, ← ho2] at h1
    exact h1
  rcases hd2 nx hmem with h | h <;> omega

theorem breadth_first_order_witness :
    start forkEnv forkEngine none = .ok forkStarted ∧
    Loop_State forkEnv forkStarted (some forkRight) forkState2 ∧
    forkState2.m_closed = [chainRoot, forkLeft] ∧
    forkState2.m_open = [forkLeftLeft, forkLeftRight] ∧
    (forkState2.m_closed.Pairwise (fun m n => m.depth ≤ n.depth) ∧
      (∀ c ∈ forkState2.m_closed, c.depth ≤ forkRight.depth) ∧
      (∀ n ∈ forkState2.m_open,
        n.depth = forkRight.depth ∨ n.depth = forkRight.depth + 1)) ∧
    process forkEnv forkState2 forkRight = .ok (none, forkExpanded3) ∧
    get_node (close (inc_exp forkExpanded3) forkRight)
      = .ok (some forkLeftLeft, forkState3) ∧
    (∀ n ∈ forkExpanded3.m_open,
      n.depth = forkRight.depth ∨ n.depth = forkRight.depth + 1) ∧
    (∃ pushed, forkState3.m_closed = forkState2.m_closed ++ [forkRight] ∧
      (some forkLeftLeft).toList ++ forkState3.m_open = forkState2.m_open ++ pushed ∧
      (∀ n ∈ pushed, n.m_parent = some forkRight) ∧
      ∀ nx, some forkLeftLeft = some nx → forkRight.depth ≤ nx.depth) :=
  have hf := fork_loop_state
  have h := breadth_first_order forkEnv forkEngine forkStarted none hf.1 forkRight
    forkState2 hf.2.1
  ⟨hf.1, hf.2.1, hf.2.2.1, hf.2.2.2.1, h.1, hf.2.2.2.2.1, hf.2.2.2.2.2,
    (h.2 none forkExpanded3 hf.2.2.2.2.1).1,
    (h.2 none forkExpanded3 hf.2.2.2.2.1).2 (some forkLeftLeft) forkState3 hf.2.2.2.2.2⟩

/-- C17. In every state of the loop of `do_search` run after `start`, every node in the
closed set, being expanded or in the frontier carries as its partition the value that
`rp_fl_achieved` computes for it from its path and the relevant-fluent set built by
`start`; this still holds after `process` and after the iteration, whose only effect on
the nodes is to append children accepted by `prune` behind the existing ones, which stay
as they are; and the node returned by any `prune` call is its argument with the partition
set to the count of `rp_fl_achieved`. -/
theorem partition_fixed_at_pruning {σ ν : Type} [DecidableEq σ] (C : Env σ ν)
    (e e0 : RP_IW σ ν) (s : Option σ) (hs : start C e s = .ok e0) (head : Node σ)
    (e1 : RP_IW σ ν) (hl : Loop_State C e0 (some head) e1) :
    (e1.m_rp_fl_set = e0.m_rp_fl_set ∧
      ∀ n ∈ history (some head) e1, rp_fl_achieved C e1 n = .ok (n.m_partition, e1)) ∧
    (∀ (g : Option (Node σ)) (e2 : RP_IW σ ν), process C e1 head = .ok (g, e2) →
      (∀ n ∈ history (some head) e2, rp_fl_achieved C e2 n = .ok (n.m_partition, e2)) ∧
      ∀ (next : Option (Node σ)) (e3 : RP_IW σ ν),
        get_node (close (inc_exp e2) head) = .ok (next, e3) →
        (∃ pushed, history next e3 = history (some head) e1 ++ pushed ∧
          ∀ n ∈ pushed, Accepted_Child C head n) ∧
        ∀ n ∈ history next e3, rp_fl_achieved C e3 n = .ok (n.m_partition, e3)) ∧
    (∀ (x x2 : RP_IW σ ν) (n n1 : Node σ) (b : Bool), prune C x n = .ok (b, n1, x2) →
      ∃ count, rp_fl_achieved C x n = .ok (count, { x with counted := ∅ }) ∧
        n1 = n.set_partition count) := by
  have hI := loop_state_inv C e e0 s hs (some head) e1 hl
  refine ⟨⟨hI.rp_set, inv_partition C _ _ _ e1 hI⟩, ?_, ?_⟩
  · intro g e2 hp
    have hI2 := inv_process C _ _ head e1 e2 g hI hp
    refine ⟨inv_partition C _ _ _ e2 hI2, ?_⟩
    intro next e3 hget
    obtain ⟨pushed, hacc, hh, _, _, _⟩ :=
      iteration_history C _ _ head e1 e2 e3 g next hI hp hget
    have hI3 := (inv_pop C _ _ _ e3 next (inv_close C _ _ head e2 hI2) hget).1
    exact ⟨⟨pushed, hh, hacc⟩, inv_partition C _ _ _ e3 hI3⟩
  · intro x x2 n n1 b hp
    obtain ⟨count, h1, h2, _⟩ := prune_ok C x x2 n n1 b hp
    exact ⟨count, h1, h2⟩

theorem partition_fixed_at_pruning_witness :
    start forkEnv forkEngine none = .ok forkStarted ∧
    Loop_State forkEnv forkStarted (some forkRight) forkState2 ∧
    history (some forkRight) forkState2
      = [chainRoot, forkLeft, forkRight, forkLeftLeft, forkLeftRight] ∧
    forkLeftRight.m_partition = 2 ∧
    (forkState2.m_rp_fl_set = forkStarted.m_rp_fl_set ∧
      ∀ n ∈ history (some forkRight) forkState2,
        rp_fl_achieved forkEnv forkState2 n = .ok (n.m_partition, forkState2)) ∧
    process forkEnv forkState2 forkRight = .ok (none, forkExpanded3) ∧
    get_node (close (inc_exp forkExpanded3) forkRight)
      = .ok (some forkLeftLeft, forkState3) ∧
    (∀ n ∈ history (some forkRight) forkExpanded3,
      rp_fl_achieved forkEnv forkExpanded3 n = .ok (n.m_partition, forkExpanded3)) ∧
    ((∃ pushed, history (some forkLeftLeft) forkState3
          = history (some forkRight) forkState2 ++ pushed ∧
        ∀ n ∈ pushed, Accepted_Child forkEnv forkRight n) ∧
      ∀ n ∈ history (some forkLeftLeft) forkState3,
        rp_fl_achieved forkEnv forkState3 n = .ok (n.m_partition, forkState3)) :=
  have hf := fork_loop_state
  have h := partition_fixed_at_pruning forkEnv forkEngine forkStarted none hf.1 forkRight
    forkState2 hf.2.1
  ⟨hf.1, hf.2.1, by decide!, rfl, h.1, hf.2.2.2.2.1, hf.2.2.2.2.2,
    (h.2.1 none forkExpanded3 hf.2.2.2.2.1).1,
    (h.2.1 none forkExpanded3 hf.2.2.2.2.1).2 (some forkLeftLeft) forkState3 hf.2.2.2.2.2⟩

/-- On a node built by the search the loop of `rp_fl_achieved` returns. -/
theorem built_walk_total {σ ν : Type} (C : Env σ ν) (r n : Node σ)
    (hr : ∃ rs, r = Node.mk (some rs) none no_op 0 0 false) (R : Fluent_Set)
    (h : Built C r n) : ∀ acc, ∃ res, rp_fl_walk C R n acc = .ok res := by
  obtain ⟨rs, hr⟩ := hr
  subst hr
  induction h with
  | root =>
    intro acc
    exact ⟨acc, by simp [rp_fl_walk]⟩
  | child p ps a pt _ _ ih =>
    intro acc
    unfold rp_fl_walk
    by_cases ha : a ≠ no_op
    · rw [if_pos ha]
      exact ih _
    · rw [if_neg ha]
      exact ⟨acc, rfl⟩

/-- In a loop state `prune` returns on every successor of the node being expanded. -/
theorem prune_total_inv {σ ν : Type} [DecidableEq σ] (C : Env σ ν) (r : Node σ)
    (R : Fluent_Set) (h : Node σ) (hs : σ) (a : Action_Idx) (e : RP_IW σ ν)
    (hI : Inv C r R (some h) e) (hst : h.m_state = some hs) :
    ∃ res, prune C e (Node.new (some (C.m_problem.next hs a)) a (some h)
      (C.m_problem.actions a).cost) = .ok res := by
  have hbuilt : Built C r h := (hI.hist_good h (by simp [history])).1
  have hb : Built C r (Node.new (some (C.m_problem.next hs a)) a (some h)
      (C.m_problem.actions a).cost) := Built.child h hs a 0 hbuilt hst
  obtain ⟨res, hres⟩ := built_walk_total C r _ hI.root_shape e.m_rp_fl_set hb (0, e.counted)
  have hn1 : ∀ c, ((Node.new (some (C.m_problem.next hs a)) a (some h)
      (C.m_problem.actions a).cost).set_partition c).has_state = true := fun c => rfl
  have hall : ∀ m ∈ history (some h) e, m.has_state = true := by
    intro m hm
    obtain ⟨⟨sm, hsm⟩, _⟩ := built_state C r m hI.root_shape (hI.hist_good m hm).1
    unfold Node.has_state
    rw [hsm]
    rfl
  have hc : ∀ m ∈ e.m_closed, m.has_state = true :=
    fun m hm => hall m (by simp [history, hm])
  have ho : ∀ m ∈ e.m_open_hash, m.has_state = true := by
    intro m hm
    rw [hI.index] at hm
    exact hall m (by simp [history, hm])
  obtain ⟨r1, hr1⟩ := retrieve_of_states _ (hn1 res.1) e.m_closed hc
  obtain ⟨r2, hr2⟩ := retrieve_of_states _ (hn1 res.1) e.m_open_hash ho
  unfold prune rp_fl_achieved
  rw [hres]
  simp only [is_closed, previously_hashed, hr1, hr2]
  cases r1 with
  | some m => exact ⟨_, rfl⟩
  | none =>
    cases r2 with
    | some m => exact ⟨_, rfl⟩
    | none =>
      simp only [Option.isSome_none]
      split
      · exact ⟨_, rfl⟩
      · exact ⟨_, rfl⟩

/-- In a loop state every iteration of the loop of `process` returns. -/
theorem process_step_total {σ ν : Type} [DecidableEq σ] (C : Env σ ν) (r : Node σ)
    (R : Fluent_Set) (h : Node σ) (hs : σ) (a : Action_Idx) (e : RP_IW σ ν)
    (hI : Inv C r R (some h) e) (hst : h.m_state = some hs) :
    ∃ g e2, process_step C h hs a e = .ok (g, e2) := by
  obtain ⟨⟨b, n1, e1⟩, hp⟩ := prune_total_inv C r R h hs a e hI hst
  unfold process_step
  simp only [hp]
  cases b with
  | true => exact ⟨_, _, rfl⟩
  | false =>
    obtain ⟨count, _, hn1, _⟩ := prune_ok C e e1 _ n1 false hp
    have hs1 : n1.m_state = some (C.m_problem.next hs a) := by rw [hn1]; rfl
    simp only [is_goal, hs1]
    cases C.m_problem.goal (C.m_problem.next hs a) with
    | true => exact ⟨_, _, rfl⟩
    | false => exact ⟨_, _, rfl⟩

/-- An iteration of the loop of `process` does to the engine what the iteration of the
reference search does; it returns no node when it queued nothing or a node that fails the
goal test, and otherwise the node it queued, which satisfies the goal test. -/
theorem process_step_ref {σ ν : Type} [DecidableEq σ] (C : Env σ ν) (head : Node σ)
    (hs : σ) (a : Action_Idx) (e e2 : RP_IW σ ν) (g : Option (Node σ))
    (h : process_step C head hs a e = .ok (g, e2)) :
    ref_process_step C head hs a e = .ok e2 ∧
    ((g = none ∧ ∃ p0, e2.m_open = e.m_open ++ p0 ∧ ∀ n ∈ p0, Non_Goal C n) ∨
     (∃ x, g = some x ∧ e2.m_open = e.m_open ++ [x] ∧ Has_Goal C x)) := by
  rcases process_step_ok C head hs a e e2 g h with ⟨n1, hp, hg⟩ | ⟨n1, e1, hp, he2, hg⟩
  · refine ⟨by unfold ref_process_step; simp only [hp], Or.inl ⟨hg, [], ?_, by simp⟩⟩
    obtain ⟨ho, _⟩ := prune_frame C e e2 _ n1 true hp
    rw [ho]; simp
  · obtain ⟨ho, _⟩ := prune_frame C e e1 _ n1 false hp
    obtain ⟨count, _, hn1, _⟩ := prune_ok C e e1 _ n1 false hp
    have hs1 : n1.m_state = some (C.m_problem.next hs a) := by rw [hn1]; rfl
    have hopen : e2.m_open = e.m_open ++ [n1] := by rw [he2, open_node_open, ho]
    refine ⟨by unfold ref_process_step; simp only [hp]; rw [he2], ?_⟩
    rcases hg with ⟨hg1, hgoal⟩ | ⟨hg1, hgoal⟩
    · exact Or.inr ⟨n1, hg1, hopen, _, hs1, hgoal⟩
    · refine Or.inl ⟨hg1, [n1], hopen, ?_⟩
      intro n hn
      rw [List.mem_singleton.1 hn]
      exact ⟨_, hs1, hgoal⟩

/-- When the loop of `process` returns no node, the reference expansion yields the same
engine, and every node queued on the way fails the goal test. -/
theorem process_loop_none {σ ν : Type} [DecidableEq σ] (C : Env σ ν) (head : Node σ)
    (hs : σ) :
    ∀ (acts : List Action_Idx) (e e2 : RP_IW σ ν),
      process_loop C head hs acts e = .ok (none, e2) →
      ref_process_loop C head hs acts e = .ok e2 ∧
      ∃ pushed, e2.m_open = e.m_open ++ pushed ∧ ∀ n ∈ pushed, Non_Goal C n := by
  intro acts
  induction acts with
  | nil =>
    intro e e2 h
    unfold process_loop at h
    injection h with h
    simp only [Prod.mk.injEq, true_and] at h
    subst h
    exact ⟨rfl, [], by simp, by simp⟩
  | cons a rest ih =>
    intro e e2 h
    unfold process_loop at h
    split at h
    · cases h
    · injection h with h
      simp only [Prod.mk.injEq] at h
      cases h.1
    · rename_i e1 hst
      obtain ⟨hr, hcase⟩ := process_step_ref C head hs a e e1 none hst
      obtain ⟨hr2, p2, ho2, hp2⟩ := ih e1 e2 h
      refine ⟨by unfold ref_process_loop; rw [hr]; exact hr2, ?_⟩
      rcases hcase with ⟨_, p0, ho, hp0⟩ | ⟨x, hx, _⟩
      · refine ⟨p0 ++ p2, by rw [ho2, ho, List.append_assoc], ?_⟩
        intro n hn
        rcases List.mem_append.1 hn with hn | hn
        · exact hp0 n hn
        · exact hp2 n hn
      · cases hx

/-- In a loop state the reference expansion returns, keeps the discipline and only
appends to the queue. -/
theorem ref_process_loop_total {σ ν : Type} [DecidableEq σ] (C : Env σ ν) (r : Node σ)
    (R : Fluent_Set) (h : Node σ) (hs : σ) (hst : h.m_state = some hs) :
    ∀ (acts : List Action_Idx) (e : RP_IW σ ν), Inv C r R (some h) e →
      ∃ e3 more, ref_process_loop C h hs acts e = .ok e3 ∧ Inv C r R (some h) e3 ∧
        e3.m_open = e.m_open ++ more := by
  intro acts
  induction acts with
  | nil =>
    intro e hI
    exact ⟨e, [], rfl, hI, by simp⟩
  | cons a rest ih =>
    intro e hI
    obtain ⟨g, e1, hstep⟩ := process_step_total C r R h hs a e hI hst
    have hI1 := inv_step C r R h hs a e e1 g hI hst hstep
    obtain ⟨hr, _⟩ := process_step_ref C h hs a e e1 g hstep
    obtain ⟨_, p1, ho1, _⟩ := process_step_appends C h hs hst a e e1 g hstep
    obtain ⟨e3, more, hr3, hI3, ho3⟩ := ih e1 hI1
    refine ⟨e3, p1 ++ more, ?_, hI3, by rw [ho3, ho1, List.append_assoc]⟩
    unfold ref_process_loop
    rw [hr]
    exact hr3

/-- When the loop of `process` returns a node, the node satisfies the goal test and is the
last one queued, every node queued before it in this expansion fails the goal test, and
the reference expansion returns an engine whose queue continues the one `process` left. -/
theorem process_loop_goal {σ ν : Type} [DecidableEq σ] (C : Env σ ν) (r : Node σ)
    (R : Fluent_Set) (h : Node σ) (hs : σ) (hst : h.m_state = some hs) :
    ∀ (acts : List Action_Idx) (e e2 : RP_IW σ ν) (g : Node σ), Inv C r R (some h) e →
      process_loop C h hs acts e = .ok (some g, e2) →
      Has_Goal C g ∧ ∃ pushed more e3, e2.m_open = e.m_open ++ pushed ++ [g] ∧
        (∀ n ∈ pushed, Non_Goal C n) ∧ ref_process_loop C h hs acts e = .ok e3 ∧
        Inv C r R (some h) e3 ∧ e3.m_open = e2.m_open ++ more := by
  intro acts
  induction acts with
  | nil =>
    intro e e2 g _ hp
    unfold process_loop at hp
    injection hp with hp
    simp only [Prod.mk.injEq] at hp
    cases hp.1
  | cons a rest ih =>
    intro e e2 g hI hp
    unfold process_loop at hp
    split at hp
    · cases hp
    · rename_i x e1 hstep
      injection hp with hp
      simp only [Prod.mk.injEq, Option.some.injEq] at hp
      obtain ⟨hx, he⟩ := hp
      subst hx he
      have hI1 := inv_step C r R h hs a e e1 (some x) hI hst hstep
      obtain ⟨hr, hcase⟩ := process_step_ref C h hs a e e1 (some x) hstep
      obtain ⟨e3, more, hr3, hI3, ho3⟩ := ref_process_loop_total C r R h hs hst rest e1 hI1
      rcases hcase with ⟨hx, _⟩ | ⟨y, hy, ho, hgoal⟩
      · cases hx
      · injection hy with hy
        subst hy
        refine ⟨hgoal, [], more, e3, by rw [ho]; simp, by simp, ?_, hI3, ho3⟩
        unfold ref_process_loop
        rw [hr]
        exact hr3
    · rename_i e1 hstep
      have hI1 := inv_step C r R h hs a e e1 none hI hst hstep
      obtain ⟨hr, hcase⟩ := process_step_ref C h hs a e e1 none hstep
      obtain ⟨hgoal, pushed, more, e3, ho2, hng, hr3, hI3, ho3⟩ := ih e1 e2 g hI1 hp
      rcases hcase with ⟨_, p0, ho, hp0⟩ | ⟨x, hx, _⟩
      · refine ⟨hgoal, p0 ++ pushed, more, e3, by rw [ho2, ho]; simp, ?_, ?_, hI3, ho3⟩
        · intro n hn
          rcases List.mem_append.1 hn with hn | hn
          · exact hp0 n hn
          · exact hng n hn
        · unfold ref_process_loop
          rw [hr]
          exact hr3
      · cases hx

theorem process_none_ref {σ ν : Type} [DecidableEq σ] (C : Env σ ν) (h : Node σ)
    (e e2 : RP_IW σ ν) (hp : process C e h = .ok (none, e2)) :
    ref_process C e h = .ok e2 ∧
    ∃ pushed, e2.m_open = e.m_open ++ pushed ∧ ∀ n ∈ pushed, Non_Goal C n := by
  unfold process at hp
  unfold ref_process
  split at hp
  · cases hp
  · rename_i hs hst
    exact process_loop_none C h hs _ e e2 hp

theorem ref_process_total {σ ν : Type} [DecidableEq σ] (C : Env σ ν) (r : Node σ)
    (R : Fluent_Set) (h : Node σ) (e : RP_IW σ ν) (hI : Inv C r R (some h) e) :
    ∃ e3 more, ref_process C e h = .ok e3 ∧ Inv C r R (some h) e3 ∧
      e3.m_open = e.m_open ++ more := by
  obtain ⟨⟨hs, hst⟩, _⟩ := built_state C r h hI.root_shape
    (hI.hist_good h (by simp [history])).1
  unfold ref_process
  simp only [hst]
  exact ref_process_loop_total C r R h hs hst _ e hI

theorem process_goal_ref {σ ν : Type} [DecidableEq σ] (C : Env σ ν) (r : Node σ)
    (R : Fluent_Set) (h : Node σ) (e e2 : RP_IW σ ν) (g : Node σ)
    (hI : Inv C r R (some h) e) (hp : process C e h = .ok (some g, e2)) :
    Has_Goal C g ∧ ∃ pushed more e3, e2.m_open = e.m_open ++ pushed ++ [g] ∧
      (∀ n ∈ pushed, Non_Goal C n) ∧ ref_process C e h = .ok e3 ∧
      Inv C r R (some h) e3 ∧ e3.m_open = e2.m_open ++ more := by
  unfold process at hp
  unfold ref_process
  split at hp
  · cases hp
  · rename_i hs hst
    exact process_loop_goal C r R h hs hst _ e e2 g hI hp

/-- In a loop state `process` returns. -/
theorem process_total {σ ν : Type} [DecidableEq σ] (C : Env σ ν) (r : Node σ)
    (R : Fluent_Set) (h : Node σ) (e : RP_IW σ ν) (hI : Inv C r R (some h) e) :
    ∃ g e2, process C e h = .ok (g, e2) := by
  obtain ⟨⟨hs, hst⟩, _⟩ := built_state C r h hI.root_shape
    (hI.hist_good h (by simp [history])).1
  have hloop : ∀ (acts : List Action_Idx) (x : RP_IW σ ν), Inv C r R (some h) x →
      ∃ g e2, process_loop C h hs acts x = .ok (g, e2) := by
    intro acts
    induction acts with
    | nil => intro x _; exact ⟨none, x, rfl⟩
    | cons a rest ih =>
      intro x hx
      obtain ⟨g, x1, hstep⟩ := process_step_total C r R h hs a x hx hst
      have hx1 := inv_step C r R h hs a x x1 g hx hst hstep
      unfold process_loop
      rw [hstep]
      cases g with
      | some y => exact ⟨_, _, rfl⟩
      | none => exact ih x1 hx1
  unfold process
  simp only [hst]
  exact hloop _ e hI

theorem ref_search_loop_none {σ ν : Type} [DecidableEq σ] (C : Env σ ν) (fuel : Nat)
    (e : RP_IW σ ν) : ref_search_loop C fuel none e = .ok (none, e) := by
  cases fuel <;> rfl

/-- More fuel does not change a result of the reference search. -/
theorem ref_search_loop_fuel {σ ν : Type} [DecidableEq σ] (C : Env σ ν) :
    ∀ (fuel : Nat) (head : Option (Node σ)) (e : RP_IW σ ν)
      (res : Option (Node σ) × RP_IW σ ν), ref_search_loop C fuel head e = .ok res →
      ∀ k, ref_search_loop C (fuel + k) head e = .ok res := by
  intro fuel
  induction fuel with
  | zero =>
    intro head e res h k
    cases head with
    | none =>
      rw [ref_search_loop_none] at h ⊢
      exact h
    | some h0 =>
      unfold ref_search_loop at h
      cases h
  | succ fuel ih =>
    intro head e res h k
    cases head with
    | none =>
      rw [ref_search_loop_none] at h ⊢
      exact h
    | some h0 =>
      have hk : fuel + 1 + k = (fuel + k) + 1 := by omega
      rw [hk]
      unfold ref_search_loop at h ⊢
      split at h
      · cases h
      · rename_i head hmat
        split at h
        · cases h
        · exact h
        · split at h
          · cases h
          · rename_i e1 hrp
            split at h
            · cases h
            · rename_i next e3 hget
              exact ih next e3 res h k

theorem ref_search_fuel {σ ν : Type} [DecidableEq σ] (C : Env σ ν) (fuel : Nat)
    (e : RP_IW σ ν) (res : Option (Node σ) × RP_IW σ ν)
    (h : ref_search C fuel e = .ok res) (k : Nat) : ref_search C (fuel + k) e = .ok res := by
  unfold ref_search at h ⊢
  split at h
  · cases h
  · rename_i head e1 hget
    exact ref_search_loop_fuel C fuel head e1 res h k

theorem ref_search_loop_goal {σ ν : Type} [DecidableEq σ] (C : Env σ ν) (fuel : Nat)
    (g : Node σ) (e : RP_IW σ ν) (hg : Has_Goal C g) :
    ref_search_loop C (fuel + 1) (some g) e = .ok (some g, e) := by
  obtain ⟨sg, hsg, hgoal⟩ := hg
  unfold ref_search_loop
  rw [materialize_of_state C g sg hsg]
  simp only [is_goal, hsg, hgoal]

theorem ref_search_loop_step {σ ν : Type} [DecidableEq σ] (C : Env σ ν) (fuel : Nat)
    (h : Node σ) (e e1 : RP_IW σ ν) (hn : Non_Goal C h)
    (hp : ref_process C e h = .ok e1) :
    ref_search_loop C (fuel + 1) (some h) e = ref_search C fuel (close (inc_exp e1) h) := by
  obtain ⟨sh, hsh, hgoal⟩ := hn
  unfold ref_search_loop ref_search
  rw [materialize_of_state C h sh hsh]
  simp only [is_goal, hsh, hgoal, hp]

theorem do_search_loop_step {σ ν : Type} [DecidableEq σ] (C : Env σ ν) (fuel : Nat)
    (h : Node σ) (sh : σ) (hsh : h.m_state = some sh) (e e1 : RP_IW σ ν)
    (hp : process C e h = .ok (none, e1)) :
    do_search_loop C (fuel + 1) (some h) e =
      match get_node (close (inc_exp e1) h) with
      | .error f => .error f
      | .ok (next, e3) => do_search_loop C fuel next e3 := by
  conv_lhs => unfold do_search_loop
  rw [materialize_of_state C h sh hsh]
  simp only [hp]

theorem do_search_loop_goal {σ ν : Type} [DecidableEq σ] (C : Env σ ν) (fuel : Nat)
    (h : Node σ) (sh : σ) (hsh : h.m_state = some sh) (e e1 : RP_IW σ ν) (g : Node σ)
    (hg : Has_Goal C g) (hp : process C e h = .ok (some g, e1)) :
    do_search_loop C (fuel + 1) (some h) e = .ok (some g, close (inc_exp e1) h) := by
  obtain ⟨sg, hsg, _⟩ := hg
  unfold do_search_loop
  rw [materialize_of_state C h sh hsh]
  simp only [hp]
  rw [materialize_of_state C g sg hsg]
  simp only [alias_update_self]

/-- The reference search returns the first node of the queue that satisfies the goal
test. -/
theorem ref_search_finds {σ ν : Type} [DecidableEq σ] (C : Env σ ν) (r : Node σ)
    (R : Fluent_Set) :
    ∀ (q : List (Node σ)) (e : RP_IW σ ν) (g : Node σ) (rest : List (Node σ)),
      Inv C r R none e → e.m_open = q ++ g :: rest → (∀ n ∈ q, Non_Goal C n) →
      Has_Goal C g → ∃ fuel e2, ref_search C fuel e = .ok (some g, e2) := by
  intro q
  induction q with
  | nil =>
    intro e g rest hI hopen _ hg
    rcases get_node_inv C r R e hI with ⟨hnil, _⟩ | ⟨nx, rs, ho, hget⟩
    · rw [hnil] at hopen; cases hopen
    · rw [ho] at hopen
      simp only [List.nil_append, List.cons.injEq] at hopen
      obtain ⟨h1, h2⟩ := hopen
      subst h1 h2
      exact ⟨1, _, by unfold ref_search; rw [hget]; exact ref_search_loop_goal C 0 nx _ hg⟩
  | cons x q ih =>
    intro e g rest hI hopen hq hg
    rcases get_node_inv C r R e hI with ⟨hnil, _⟩ | ⟨nx, rs, ho, hget⟩
    · rw [hnil] at hopen; cases hopen
    · rw [ho] at hopen
      simp only [List.cons_append, List.cons.injEq] at hopen
      obtain ⟨h1, h2⟩ := hopen
      subst h1
      have hI1 := (inv_pop C r R e _ (some nx) hI hget).1
      obtain ⟨e1, more, hrp, hI2, ho2⟩ := ref_process_total C r R nx _ hI1
      have hI3 := inv_close C r R nx e1 hI2
      have ho3 : (close (inc_exp e1) nx).m_open = q ++ g :: (rest ++ more) := by
        show e1.m_open = _
        rw [ho2]
        show rs ++ more = _
        rw [h2]
        simp
      obtain ⟨fuel, e2, hres⟩ := ih _ g _ hI3 ho3
        (fun n hn => hq n (List.mem_cons_of_mem _ hn)) hg
      refine ⟨fuel + 1, e2, ?_⟩
      unfold ref_search
      rw [hget]
      simp only []
      rw [ref_search_loop_step C fuel nx _ e1 (hq nx (List.mem_cons_self _ _)) hrp]
      exact hres

theorem do_search_loop_none {σ ν : Type} [DecidableEq σ] (C : Env σ ν) (fuel : Nat)
    (e : RP_IW σ ν) : do_search_loop C fuel none e = .ok (none, e) := by
  cases fuel <;> rfl

/-- The history after `process` and `close`, in terms of the history before. -/
theorem history_after_process {σ ν : Type} [DecidableEq σ] (C : Env σ ν) (h : Node σ)
    (e e1 : RP_IW σ ν) (g : Option (Node σ)) (pushed : List (Node σ))
    (hp : process C e h = .ok (g, e1)) (ho : e1.m_open = e.m_open ++ pushed) :
    history none (close (inc_exp e1) h) = history (some h) e ++ pushed := by
  obtain ⟨hc, _⟩ := process_appends C h e e1 g hp
  simp [history, close, inc_exp, Closed_List.put, hc, ho]

/-- Results of the loop of `do_search` entered in a loop state whose nodes all fail the
goal test: the final engine satisfies the discipline with no node in hand; either no node
is returned, the frontier is empty and every node ever queued fails the goal test, or the
node returned satisfies the goal test, is the last node queued, every node queued before
it fails the goal test, and the reference search returns the same node. -/
theorem do_search_loop_result {σ ν : Type} [DecidableEq σ] (C : Env σ ν) (r : Node σ)
    (R : Fluent_Set) :
    ∀ (fuel : Nat) (head : Option (Node σ)) (e e2 : RP_IW σ ν) (res : Option (Node σ)),
      Inv C r R head e → (head = none → e.m_open = []) →
      (∀ n ∈ history head e, Non_Goal C n) →
      do_search_loop C fuel head e = .ok (res, e2) →
      Inv C r R none e2 ∧
      ((res = none ∧ e2.m_open = [] ∧ ∀ n ∈ history none e2, Non_Goal C n) ∨
       (∃ g q, res = some g ∧ Has_Goal C g ∧ history none e2 = q ++ [g] ∧
         (∀ n ∈ q, Non_Goal C n) ∧
         ∃ fuel2 e3, ref_search_loop C fuel2 head e = .ok (some g, e3))) := by
  intro fuel
  induction fuel with
  | zero =>
    intro head e e2 res hI hnone hng h
    cases head with
    | none =>
      rw [do_search_loop_none] at h
      injection h with h
      simp only [Prod.mk.injEq] at h
      obtain ⟨h1, h2⟩ := h
      subst h1 h2
      exact ⟨hI, Or.inl ⟨rfl, hnone rfl, hng⟩⟩
    | some h0 =>
      unfold do_search_loop at h
      cases h
  | succ fuel ih =>
    intro head e e2 res hI hnone hng h
    cases head with
    | none =>
      rw [do_search_loop_none] at h
      injection h with h
      simp only [Prod.mk.injEq] at h
      obtain ⟨h1, h2⟩ := h
      subst h1 h2
      exact ⟨hI, Or.inl ⟨rfl, hnone rfl, hng⟩⟩
    | some h0 =>
      obtain ⟨⟨sh, hsh⟩, _⟩ := built_state C r h0 hI.root_shape
        (hI.hist_good h0 (by simp [history])).1
      have hng0 : Non_Goal C h0 := hng h0 (by simp [history])
      obtain ⟨go, e1, hp⟩ := process_total C r R h0 e hI
      have hI1 := inv_process C r R h0 e e1 go hI hp
      have hI2 := inv_close C r R h0 e1 hI1
      cases go with
      | none =>
        obtain ⟨hrp, pushed, ho, hpng⟩ := process_none_ref C h0 e e1 hp
        rw [do_search_loop_step C fuel h0 sh hsh e e1 hp] at h
        have hhist := history_after_process C h0 e e1 none pushed hp ho
        have hng2 : ∀ n ∈ history none (close (inc_exp e1) h0), Non_Goal C n := by
          intro n hn
          rw [hhist] at hn
          rcases List.mem_append.1 hn with hn | hn
          · exact hng n hn
          · exact hpng n hn
        split at h
        · cases h
        · rename_i next e3 hget
          obtain ⟨hI3, hh3⟩ := inv_pop C r R _ e3 next hI2 hget
          have hnone3 : next = none → e3.m_open = [] := by
            intro hn
            rcases get_node_inv C r R _ hI2 with ⟨hnil, hg⟩ | ⟨nx, rs, _, hg⟩
            · rw [hg] at hget
              injection hget with hget
              simp only [Prod.mk.injEq] at hget
              rw [← hget.2]
              exact hnil
            · rw [hg] at hget
              injection hget with hget
              simp only [Prod.mk.injEq] at hget
              rw [hn] at hget
              cases hget.1
          obtain ⟨hIf, hcase⟩ := ih next e3 e2 res hI3 hnone3 (by rw [hh3]; exact hng2) h
          refine ⟨hIf, ?_⟩
          rcases hcase with hc | ⟨g, q, hres, hg, hq, hqng, fuel2, e4, href⟩
          · exact Or.inl hc
          · refine Or.inr ⟨g, q, hres, hg, hq, hqng, fuel2 + 1, e4, ?_⟩
            rw [ref_search_loop_step C fuel2 h0 e e1 hng0 hrp]
            unfold ref_search
            rw [hget]
            exact href
      | some g =>
        obtain ⟨hg, pushed, more, e3, ho, hpng, hrp, hI3, ho3⟩ :=
          process_goal_ref C r R h0 e e1 g hI hp
        rw [do_search_loop_goal C fuel h0 sh hsh e e1 g hg hp] at h
        injection h with h
        simp only [Prod.mk.injEq] at h
        obtain ⟨h1, h2⟩ := h
        subst h1 h2
        refine ⟨hI2, Or.inr ⟨g, history (some h0) e ++ pushed, rfl, hg, ?_, ?_, ?_⟩⟩
        · rw [history_after_process C h0 e e1 (some g) (pushed ++ [g]) hp
            (by rw [ho, List.append_assoc])]
          simp
        · intro n hn
          rcases List.mem_append.1 hn with hn | hn
          · exact hng n hn
          · exact hpng n hn
        · have hI4 := inv_close C r R h0 e3 hI3
          have ho4 : (close (inc_exp e3) h0).m_open = (e.m_open ++ pushed) ++ g :: more := by
            show e3.m_open = _
            rw [ho3, ho]
            simp
          obtain ⟨fuel2, e4, href⟩ := ref_search_finds C r R (e.m_open ++ pushed) _ g more
            hI4 ho4 (by
              intro n hn
              rcases List.mem_append.1 hn with hn | hn
              · exact hng n (by simp [history, hn])
              · exact hpng n hn) hg
          refine ⟨fuel2 + 1, e4, ?_⟩
          rw [ref_search_loop_step C fuel2 h0 e e3 hng0 hrp]
          exact href

/-- A node returned by the loop of the reference search, entered in a loop state whose
nodes all fail the goal test, is returned by the loop of `do_search` as well. -/
theorem ref_search_loop_do {σ ν : Type} [DecidableEq σ] (C : Env σ ν) (r : Node σ)
    (R : Fluent_Set) :
    ∀ (fuel : Nat) (head : Option (Node σ)) (e e3 : RP_IW σ ν) (g : Node σ),
      Inv C r R head e → (∀ n ∈ history head e, Non_Goal C n) →
      ref_search_loop C fuel head e = .ok (some g, e3) →
      ∃ fuel2 e2, do_search_loop C fuel2 head e = .ok (some g, e2) := by
  intro fuel
  induction fuel with
  | zero =>
    intro head e e3 g hI hng h
    cases head with
    | none =>
      rw [ref_search_loop_none] at h
      injection h with h
      simp only [Prod.mk.injEq] at h
      cases h.1
    | some h0 =>
      unfold ref_search_loop at h
      cases h
  | succ fuel ih =>
    intro head e e3 g hI hng h
    cases head with
    | none =>
      rw [ref_search_loop_none] at h
      injection h with h
      simp only [Prod.mk.injEq] at h
      cases h.1
    | some h0 =>
      obtain ⟨⟨sh, hsh⟩, _⟩ := built_state C r h0 hI.root_shape
        (hI.hist_good h0 (by simp [history])).1
      have hng0 : Non_Goal C h0 := hng h0 (by simp [history])
      obtain ⟨go, e1, hp⟩ := process_total C r R h0 e hI
      have hI1 := inv_process C r R h0 e e1 go hI hp
      have hI2 := inv_close C r R h0 e1 hI1
      cases go with
      | none =>
        obtain ⟨hrp, pushed, ho, hpng⟩ := process_none_ref C h0 e e1 hp
        rw [ref_search_loop_step C fuel h0 e e1 hng0 hrp] at h
        have hhist := history_after_process C h0 e e1 none pushed hp ho
        have hng2 : ∀ n ∈ history none (close (inc_exp e1) h0), Non_Goal C n := by
          intro n hn
          rw [hhist] at hn
          rcases List.mem_append.1 hn with hn | hn
          · exact hng n hn
          · exact hpng n hn
        unfold ref_search at h
        split at h
        · cases h
        · rename_i next e4 hget
          obtain ⟨hI3, hh3⟩ := inv_pop C r R _ e4 next hI2 hget
          obtain ⟨fuel2, e2, hdo⟩ := ih next e4 e3 g hI3 (by rw [hh3]; exact hng2) h
          refine ⟨fuel2 + 1, e2, ?_⟩
          rw [do_search_loop_step C fuel2 h0 sh hsh e e1 hp, hget]
          exact hdo
      | some g0 =>
        obtain ⟨hg, pushed, more, e5, ho, hpng, hrp, hI3, ho3⟩ :=
          process_goal_ref C r R h0 e e1 g0 hI hp
        rw [ref_search_loop_step C fuel h0 e e5 hng0 hrp] at h
        have hI4 := inv_close C r R h0 e5 hI3
        have ho4 : (close (inc_exp e5) h0).m_open = (e.m_open ++ pushed) ++ g0 :: more := by
          show e5.m_open = _
          rw [ho3, ho]
          simp
        obtain ⟨fuel2, e4, href⟩ := ref_search_finds C r R (e.m_open ++ pushed) _ g0 more
          hI4 ho4 (by
            intro n hn
            rcases List.mem_append.1 hn with hn | hn
            · exact hng n (by simp [history, hn])
            · exact hpng n hn) hg
        have h1 := ref_search_fuel C fuel _ _ h fuel2
        have h2 := ref_search_fuel C fuel2 _ _ href fuel
        rw [Nat.add_comm fuel2 fuel, h1] at h2
        injection h2 with h2
        simp only [Prod.mk.injEq, Option.some.injEq] at h2
        obtain ⟨hgg, _⟩ := h2
        subst hgg
        exact ⟨1, _, do_search_loop_goal C 0 h0 sh hsh e e1 g hg hp⟩

/-- After `start` the closed set is empty and the queue is empty or holds the root
alone. -/
theorem start_frontier {σ ν : Type} [DecidableEq σ] (C : Env σ ν) (e e0 : RP_IW σ ν)
    (s : Option σ) (h : start C e s = .ok e0) :
    e0.m_closed = [] ∧
    (e0.m_open = [] ∨ e0.m_open = [Node.mk (some (start_state C s)) none no_op 0 0 false]) := by
  obtain ⟨f1, f2, _⟩ := start_prepare_fields C e s
  obtain ⟨nov, pb, he | he⟩ := start_engine C e e0 s h
  · exact ⟨by rw [he]; exact f2, Or.inl (by rw [he]; exact f1)⟩
  · exact ⟨by rw [he]; exact f2, Or.inr (by rw [he])⟩

/-- The first `get_node` after `start`: nothing is dequeued when the root was pruned,
and otherwise the root is dequeued, leaving the queue and the closed set empty. -/
theorem start_first_pop {σ ν : Type} [DecidableEq σ] (C : Env σ ν) (e e0 : RP_IW σ ν)
    (s : Option σ) (h : start C e s = .ok e0) :
    (e0.m_open = [] ∧ get_node e0 = .ok (none, e0)) ∨
    (∃ e1, get_node e0 = .ok (some (Node.mk (some (start_state C s)) none no_op 0 0 false), e1) ∧
      e0.m_open = [Node.mk (some (start_state C s)) none no_op 0 0 false] ∧
      Inv C (Node.mk (some (start_state C s)) none no_op 0 0 false) e0.m_rp_fl_set
        (some (Node.mk (some (start_state C s)) none no_op 0 0 false)) e1 ∧
      e1.m_open = [] ∧ e1.m_closed = []) := by
  have hI := inv_start C e e0 s h
  obtain ⟨hc, ho⟩ := start_frontier C e e0 s h
  rcases get_node_inv C _ _ e0 hI with ⟨hnil, hg⟩ | ⟨nx, rest, hopen, hg⟩
  · exact Or.inl ⟨hnil, hg⟩
  · rcases ho with ho | ho
    · rw [ho] at hopen; cases hopen
    · rw [ho] at hopen
      simp only [List.cons.injEq] at hopen
      obtain ⟨h1, h2⟩ := hopen
      subst h1 h2
      exact Or.inr ⟨_, hg, ho, (inv_pop C _ _ e0 _ _ hI hg).1, rfl, hc⟩

/-- Results of `do_search` after `start`.  Either the root satisfies the goal test and is
returned at once; or the root fails it and the loop ran: the final engine satisfies the
discipline, and either no node is returned, the frontier is empty and every node ever
queued fails the goal test, or the node returned satisfies the goal test, is the last
node queued, every node queued before it fails the goal test and the reference search
returns the same node. -/
theorem do_search_result {σ ν : Type} [DecidableEq σ] (C : Env σ ν) (e e0 : RP_IW σ ν)
    (s : Option σ) (hs : start C e s = .ok e0) (fuel : Nat) (res : Option (Node σ))
    (e2 : RP_IW σ ν) (h : do_search C fuel e0 = .ok (res, e2)) :
    e0.m_open = [Node.mk (some (start_state C s)) none no_op 0 0 false] ∧
    ((res = e0.m_root ∧ res = some (Node.mk (some (start_state C s)) none no_op 0 0 false) ∧
        C.m_problem.goal (start_state C s) = true ∧ e2.m_open = [] ∧ e2.m_closed = [] ∧
        get_node e0 = .ok (res, e2)) ∨
     (C.m_problem.goal (start_state C s) = false ∧
      Inv C (Node.mk (some (start_state C s)) none no_op 0 0 false) e0.m_rp_fl_set none e2 ∧
      ((res = none ∧ e2.m_open = [] ∧ ∀ n ∈ history none e2, Non_Goal C n) ∨
       (∃ g q, res = some g ∧ Has_Goal C g ∧ history none e2 = q ++ [g] ∧
         (∀ n ∈ q, Non_Goal C n) ∧
         ∃ fuel2 e3, ref_search C fuel2 e0 = .ok (some g, e3))))) := by
  have hroot := (inv_start C e e0 s hs).root
  rcases start_first_pop C e e0 s hs with ⟨_, hg⟩ | ⟨e1, hg, ho, hI1, ho1, hc1⟩
  · unfold do_search at h
    rw [hg] at h
    simp only [is_goal] at h
    cases h
  · refine ⟨ho, ?_⟩
    unfold do_search at h
    rw [hg] at h
    simp only [is_goal, Node.m_state] at h
    cases hgoal : C.m_problem.goal (start_state C s) with
    | true =>
      rw [hgoal] at h
      injection h with h
      simp only [Prod.mk.injEq] at h
      obtain ⟨h1, h2⟩ := h
      subst h1 h2
      exact Or.inl ⟨hroot.symm, rfl, rfl, ho1, hc1, hg⟩
    | false =>
      rw [hgoal] at h
      have hng : ∀ n ∈ history (some (Node.mk (some (start_state C s)) none no_op 0 0 false)) e1,
          Non_Goal C n := by
        intro n hn
        have hn2 : n = Node.mk (some (start_state C s)) none no_op 0 0 false := by
          simpa [history, ho1, hc1] using hn
        rw [hn2]
        exact ⟨_, rfl, hgoal⟩
      obtain ⟨hIf, hcase⟩ := do_search_loop_result C _ _ fuel _ e1 e2 res hI1
        (fun hn => by cases hn) hng h
      refine Or.inr ⟨rfl, hIf, ?_⟩
      rcases hcase with hc | ⟨g, q, hres, hgg, hq, hqng, fuel2, e3, href⟩
      · exact Or.inl hc
      · refine Or.inr ⟨g, q, hres, hgg, hq, hqng, fuel2, e3, ?_⟩
        unfold ref_search
        rw [hg]
        exact href

/-- A node returned by the reference search after `start` is returned by `do_search`. -/
theorem ref_search_result {σ ν : Type} [DecidableEq σ] (C : Env σ ν) (e e0 : RP_IW σ ν)
    (s : Option σ) (hs : start C e s = .ok e0) (fuel : Nat) (g : Node σ)
    (e3 : RP_IW σ ν) (h : ref_search C fuel e0 = .ok (some g, e3)) :
    ∃ fuel2 e2, do_search C fuel2 e0 = .ok (some g, e2) := by
  rcases start_first_pop C e e0 s hs with ⟨_, hg⟩ | ⟨e1, hg, ho, hI1, ho1, hc1⟩
  · unfold ref_search at h
    rw [hg] at h
    simp only [ref_search_loop_none] at h
    injection h with h
    simp only [Prod.mk.injEq] at h
    cases h.1
  · unfold ref_search at h
    rw [hg] at h
    simp only [] at h
    cases hgoal : C.m_problem.goal (start_state C s) with
    | true =>
      have hG : Has_Goal C (Node.mk (some (start_state C s)) none no_op 0 0 false) :=
        ⟨_, rfl, hgoal⟩
      cases fuel with
      | zero =>
        unfold ref_search_loop at h
        cases h
      | succ fuel =>
        rw [ref_search_loop_goal C fuel _ e1 hG] at h
        injection h with h
        simp only [Prod.mk.injEq, Option.some.injEq] at h
        obtain ⟨h1, _⟩ := h
        subst h1
        refine ⟨0, e1, ?_⟩
        unfold do_search
        rw [hg]
        simp only [is_goal, Node.m_state, hgoal]
    | false =>
      have hng : ∀ n ∈ history (some (Node.mk (some (start_state C s)) none no_op 0 0 false)) e1,
          Non_Goal C n := by
        intro n hn
        have hn2 : n = Node.mk (some (start_state C s)) none no_op 0 0 false := by
          simpa [history, ho1, hc1] using hn
        rw [hn2]
        exact ⟨_, rfl, hgoal⟩
      obtain ⟨fuel2, e2, hdo⟩ := ref_search_loop_do C _ _ fuel _ e1 e3 g hI1 hng h
      refine ⟨fuel2, e2, ?_⟩
      unfold do_search
      rw [hg]
      simp only [is_goal, Node.m_state, hgoal]
      exact hdo

/-- C15. After `start`, `do_search` returns the node `g` for some amount of fuel exactly
when the reference search, which tests a node for the goal only when it is dequeued,
returns `g` for some amount of fuel.  A node returned by `do_search` has a materialised
state that satisfies the goal test, it is the only node the reference search can return,
and it is first in enqueue order among the nodes satisfying the goal test: it is the root,
alone in the queue after `start`, or the last node queued, every node queued before it
failing the goal test. -/
theorem goal_check_refinement {σ ν : Type} [DecidableEq σ] (C : Env σ ν) (e e0 : RP_IW σ ν)
    (s : Option σ) (hs : start C e s = .ok e0) (g : Node σ) :
    ((∃ fuel e2, do_search C fuel e0 = .ok (some g, e2)) ↔
      (∃ fuel e3, ref_search C fuel e0 = .ok (some g, e3))) ∧
    (∀ (fuel : Nat) (e2 : RP_IW σ ν), do_search C fuel e0 = .ok (some g, e2) →
      Has_Goal C g ∧
      (∀ (fuel2 : Nat) (g2 : Node σ) (e3 : RP_IW σ ν),
        ref_search C fuel2 e0 = .ok (some g2, e3) → g2 = g) ∧
      ((e0.m_open = [g] ∧ e2.m_closed = [] ∧ e2.m_open = []) ∨
       ∃ q, history none e2 = q ++ [g] ∧ ∀ n ∈ q, Non_Goal C n)) := by
  have hfwd : ∀ (fuel : Nat) (e2 : RP_IW σ ν), do_search C fuel e0 = .ok (some g, e2) →
      Has_Goal C g ∧ (∃ fuel2 e3, ref_search C fuel2 e0 = .ok (some g, e3)) ∧
      ((e0.m_open = [g] ∧ e2.m_closed = [] ∧ e2.m_open = []) ∨
       ∃ q, history none e2 = q ++ [g] ∧ ∀ n ∈ q, Non_Goal C n) := by
    intro fuel e2 h
    obtain ⟨ho, hcase⟩ := do_search_result C e e0 s hs fuel (some g) e2 h
    rcases hcase with ⟨_, hg, hgoal, ho2, hc2, hget⟩ | ⟨_, _, hc | ⟨x, q, hx, hG, hq, hqng, href⟩⟩
    · injection hg with hg
      subst hg
      have hG : Has_Goal C (Node.mk (some (start_state C s)) none no_op 0 0 false) :=
        ⟨_, rfl, hgoal⟩
      refine ⟨hG, ⟨1, e2, ?_⟩, Or.inl ⟨ho, hc2, ho2⟩⟩
      unfold ref_search
      rw [hget]
      exact ref_search_loop_goal C 0 _ e2 hG
    · cases hc.1
    · injection hx with hx
      subst hx
      exact ⟨hG, href, Or.inr ⟨q, hq, hqng⟩⟩
  refine ⟨⟨?_, ?_⟩, ?_⟩
  · rintro ⟨fuel, e2, h⟩
    exact (hfwd fuel e2 h).2.1
  · rintro ⟨fuel, e3, h⟩
    exact ref_search_result C e e0 s hs fuel g e3 h
  · intro fuel e2 h
    obtain ⟨hG, ⟨f1, e3, href⟩, hfirst⟩ := hfwd fuel e2 h
    refine ⟨hG, ?_, hfirst⟩
    intro fuel2 g2 e4 h2
    have h3 := ref_search_fuel C f1 _ _ href fuel2
    have h4 := ref_search_fuel C fuel2 _ _ h2 f1
    rw [Nat.add_comm fuel2 f1, h3] at h4
    injection h4 with h4
    simp only [Prod.mk.injEq, Option.some.injEq] at h4
    exact h4.1.symm

theorem goal_check_refinement_witness :
    start chainEnv chainEngine none = .ok chainStarted ∧
    do_search chainEnv 10 chainStarted = .ok (some chainGoal, chainFound.2) ∧
    (∃ fuel e3, ref_search chainEnv fuel chainStarted = .ok (some chainGoal, e3)) ∧
    Has_Goal chainEnv chainGoal :=
  have h := goal_check_refinement chainEnv chainEngine chainStarted none (by decide!) chainGoal
  ⟨by decide!, by decide!, h.1.1 ⟨10, chainFound.2, by decide!⟩,
    (h.2 10 chainFound.2 (by decide!)).1⟩

/-- C20. After `start` the pruned-as-duplicate counter is 0, and it is 0 in every state
of the loop of `do_search`, after every `process`, and in the engine left by every
returning `do_search` and `find_solution`; no call of `prune` changes it, whatever the
check that rejects the node.  When `do_search` returns something other than the root, the
generated counter equals, as an `unsigned`, the expanded counter plus the number of nodes
left in the frontier, and exactly so when the closed set and the frontier together hold
fewer than 2^32 nodes. -/
theorem closed_counter_untouched {σ ν : Type} [DecidableEq σ] (C : Env σ ν)
    (e e0 : RP_IW σ ν) (s : Option σ) (hs : start C e s = .ok e0) :
    e0.m_cl_count = 0 ∧
    (∀ (head : Option (Node σ)) (e1 : RP_IW σ ν), Loop_State C e0 head e1 →
      e1.m_cl_count = 0 ∧
      ∀ (h : Node σ) (g : Option (Node σ)) (e2 : RP_IW σ ν), head = some h →
        process C e1 h = .ok (g, e2) → e2.m_cl_count = 0) ∧
    (∀ (fuel : Nat) (res : Option (Node σ)) (e2 : RP_IW σ ν),
      do_search C fuel e0 = .ok (res, e2) →
      e2.m_cl_count = 0 ∧
      (res ≠ e0.m_root →
        e2.m_gen_count = (e2.m_exp_count + e2.m_open.length) % UNSIGNED_MOD ∧
        (e2.m_closed.length + e2.m_open.length < UNSIGNED_MOD →
          e2.m_gen_count = e2.m_exp_count + e2.m_open.length))) ∧
    (∀ (fuel : Nat) (cost0 cost : ℚ) (plan0 plan : List Action_Idx) (b : Bool)
      (e2 : RP_IW σ ν),
      find_solution C fuel e0 cost0 plan0 = .ok (b, cost, plan, e2) → e2.m_cl_count = 0) ∧
    (∀ (x x2 : RP_IW σ ν) (n n1 : Node σ) (b : Bool),
      prune C x n = .ok (b, n1, x2) → x2.m_cl_count = x.m_cl_count) := by
  have hsearch : ∀ (fuel : Nat) (res : Option (Node σ)) (e2 : RP_IW σ ν),
      do_search C fuel e0 = .ok (res, e2) →
      e2.m_cl_count = 0 ∧
      (res ≠ e0.m_root →
        e2.m_gen_count = (e2.m_exp_count + e2.m_open.length) % UNSIGNED_MOD ∧
        (e2.m_closed.length + e2.m_open.length < UNSIGNED_MOD →
          e2.m_gen_count = e2.m_exp_count + e2.m_open.length)) := by
    intro fuel res e2 h
    obtain ⟨_, hcase⟩ := do_search_result C e e0 s hs fuel res e2 h
    rcases hcase with ⟨hroot, _, _, _, _, hget⟩ | ⟨_, hI, _⟩
    · have hI := (inv_pop C _ _ e0 e2 res (inv_start C e e0 s hs) hget).1
      exact ⟨hI.cl_count, fun hne => absurd hroot hne⟩
    · refine ⟨hI.cl_count, fun _ => ?_⟩
      have hg := hI.gen_count
      have hx := hI.exp_count
      simp only [Option.toList, List.length_nil, Nat.add_zero] at hg
      refine ⟨by rw [hg, hx, Nat.mod_add_mod], ?_⟩
      intro hlt
      have hlt2 : e2.m_closed.length < UNSIGNED_MOD := by omega
      rw [hg, hx, Nat.mod_eq_of_lt hlt, Nat.mod_eq_of_lt hlt2]
  refine ⟨(inv_start C e e0 s hs).cl_count, ?_, hsearch, ?_, ?_⟩
  · intro head e1 hl
    have hI := loop_state_inv C e e0 s hs head e1 hl
    refine ⟨hI.cl_count, ?_⟩
    intro h g e2 hh hp
    subst hh
    exact (inv_process C _ _ h e1 e2 g hI hp).cl_count
  · intro fuel cost0 cost plan0 plan b e2 hf
    unfold find_solution at hf
    split at hf
    · cases hf
    · rename_i e1 hds
      injection hf with hf
      simp only [Prod.mk.injEq] at hf
      rw [← hf.2.2.2]
      exact (hsearch fuel none e1 hds).1
    · rename_i t e1 hds
      split at hf
      · cases hf
      · injection hf with hf
        simp only [Prod.mk.injEq] at hf
        rw [← hf.2.2.2]
        exact (hsearch fuel (some t) e1 hds).1
  · intro x x2 n n1 b hp
    obtain ⟨he, _⟩ := prune_engine C x x2 n n1 b hp
    rw [he]

theorem closed_counter_untouched_witness :
    start loopEnv loopEngine none = .ok loopStarted ∧
    do_search loopEnv 10 loopStarted = .ok (loopSearched.1, loopSearched.2) ∧
    loopSearched.2.m_cl_count = 0 ∧
    loopSearched.2.m_gen_count
      = loopSearched.2.m_exp_count + loopSearched.2.m_open.length :=
  have h := (closed_counter_untouched loopEnv loopEngine loopStarted none (by decide!)).2.2.1
    10 loopSearched.1 loopSearched.2 (by decide!)
  ⟨by decide!, by decide!, h.1, (h.2 (by decide!)).2 (by decide!)⟩

/-- For a node built by the search no link of whose chain overflowed, with non-negative
costs: `g` never decreases along the chain, starts from 0, and is a `float`. -/
theorem built_g_monotone {σ ν : Type} (C : Env σ ν)
    (hcost : ∀ a, 0 ≤ (C.m_problem.actions a).cost) (r n : Node σ)
    (hr : ∃ rs, r = Node.mk (some rs) none no_op 0 0 false) (h : Built C r n) :
    n.g_in_range C → n.g_monotone ∧ float_round (n.m_g : ℚ) = n.m_g := by
  obtain ⟨rs, hr⟩ := hr
  subst hr
  induction h with
  | root =>
    intro _
    exact ⟨rfl, float_round_nat 0 (by norm_num)⟩
  | child p ps a pt _ _ ih =>
    intro hrange
    obtain ⟨h1, h2⟩ := hrange
    obtain ⟨hm, hrep⟩ := ih h2
    obtain ⟨hge, hrep2⟩ := child_g_ge p.m_g _ hrep (hcost a) h1
    exact ⟨⟨hge, hm⟩, hrep2⟩

/-- C18. With non-negative action costs: a node constructed with a parent `p` whose `g`
is a `float` value, and with the cost of its action, has `g` at least the `g` of `p` when
the `float` sum does not overflow the `unsigned` field, and its `g` is a `float` value
again; a parentless node has `g` 0.  Hence, in every state of the loop of `do_search` run
after `start`, along the parent chain of every node in the closed set, being expanded or
in the frontier, `g` never decreases and starts from 0 at the root, and the `g` of the
node is a `float` value, provided no link of the chain overflowed. -/
theorem g_non_decreasing {σ ν : Type} [DecidableEq σ] (C : Env σ ν)
    (hcost : ∀ a, 0 ≤ (C.m_problem.actions a).cost) :
    (∀ (st : Option σ) (a : Action_Idx) (p : Node σ),
      float_round (p.m_g : ℚ) = p.m_g →
      float_round (float_round (p.m_g : ℚ) + (C.m_problem.actions a).cost)
        < (UNSIGNED_MOD : ℚ) →
      p.m_g ≤ (Node.new st a (some p) (C.m_problem.actions a).cost).m_g ∧
      float_round ((Node.new st a (some p) (C.m_problem.actions a).cost).m_g : ℚ)
        = (Node.new st a (some p) (C.m_problem.actions a).cost).m_g) ∧
    (∀ (st : Option σ) (a : Action_Idx) (c : ℚ), (Node.new st a none c).m_g = 0) ∧
    (∀ (e e0 : RP_IW σ ν) (s : Option σ) (head : Option (Node σ)) (e1 : RP_IW σ ν),
      start C e s = .ok e0 → Loop_State C e0 head e1 →
      ∀ n ∈ history head e1, n.g_in_range C →
        n.g_monotone ∧ float_round (n.m_g : ℚ) = n.m_g) := by
  refine ⟨?_, ?_, ?_⟩
  · intro st a p hrep hlt
    exact child_g_ge p.m_g _ hrep (hcost a) hlt
  · intro st a c
    exact float_to_unsigned_zero
  · intro e e0 s head e1 hs hl n hn
    have hI := loop_state_inv C e e0 s hs head e1 hl
    exact built_g_monotone C hcost _ n hI.root_shape (hI.hist_good n hn).1

theorem g_non_decreasing_witness :
    (∀ a, 0 ≤ (forkEnv.m_problem.actions a).cost) ∧
    start forkEnv forkEngine none = .ok forkStarted ∧
    Loop_State forkEnv forkStarted (some forkRight) forkState2 ∧
    forkLeftRight ∈ history (some forkRight) forkState2 ∧
    forkLeftRight.g_in_range forkEnv ∧
    (forkLeftRight.g_monotone ∧ float_round (forkLeftRight.m_g : ℚ) = forkLeftRight.m_g) ∧
    (forkRight.m_g ≤ (Node.new (some 6) 1 (some forkRight) (3 / 2)).m_g ∧
      float_round ((Node.new (some 6) 1 (some forkRight) (3 / 2)).m_g : ℚ)
        = (Node.new (some 6) 1 (some forkRight) (3 / 2)).m_g) ∧
    (Node.new (some 6) 1 (some forkRight) (3 / 2)).m_g = 2 :=
  have hc : ∀ a, 0 ≤ (forkEnv.m_problem.actions a).cost := fun a => by
    show (0 : ℚ) ≤ (if a = 0 then ({ add_vec := [1], ceff_vec := [], cost := 1 / 2 } : Action)
      else { add_vec := [2], ceff_vec := [], cost := 3 / 2 }).cost
    split <;> norm_num
  have hf := fork_loop_state
  have hr : forkLeftRight.g_in_range forkEnv := ⟨by decide!, by decide!, trivial⟩
  have h := g_non_decreasing forkEnv hc
  ⟨hc, hf.1, hf.2.1, by decide!, hr,
    h.2.2 forkEngine forkStarted none (some forkRight) forkState2 hf.1 hf.2.1 forkLeftRight
      (by decide!) hr,
    h.1 (some 6) 1 forkRight (by decide!) (by decide!), by decide!⟩

/-- Nodes with states and the flag off are equality-equal exactly when they have the same
state and partition. -/
theorem node_eq_key {σ : Type} [DecidableEq σ] (a b : Node σ) (sa sb : σ)
    (ha : a.m_state = some sa) (hb : b.m_state = some sb)
    (fa : a.m_compare_only_state = false) (fb : b.m_compare_only_state = false) :
    Node.eq a b = .ok true ↔ a.key = b.key := by
  rw [node_eq_form a b sa sb ha hb fa fb]
  unfold Node.key
  rw [ha, hb]
  simp

/-- The loop of `rp_fl_achieved`, when it returns, has folded the marking step over some
list of fluents. -/
theorem rp_fl_walk_fold {σ ν : Type} (C : Env σ ν) (R : Fluent_Set) :
    ∀ (n : Node σ) (acc res : Nat × Fluent_Set), rp_fl_walk C R n acc = .ok res →
      ∃ l : Fluent_Vec, res = l.foldl (rp_fl_mark R) acc := by
  intro n
  induction n using Node.chain_induction with
  | root s a g pt c =>
    intro acc res h
    unfold rp_fl_walk at h
    by_cases ha : a ≠ no_op
    · rw [if_pos ha] at h
      cases h
    · rw [if_neg ha] at h
      injection h with h
      exact ⟨[], h.symm⟩
  | child s p a g pt c ih =>
    intro acc res h
    unfold rp_fl_walk at h
    by_cases ha : a ≠ no_op
    · rw [if_pos ha] at h
      obtain ⟨l, hl⟩ := ih _ res h
      refine ⟨(C.m_problem.actions a).added ++ l, ?_⟩
      rw [hl, rp_fl_action_eq, List.foldl_append]
    · rw [if_neg ha] at h
      injection h with h
      exact ⟨[], h.symm⟩

/-- The partition of a good node is at most the number of relevant fluents. -/
theorem good_partition_le {σ ν : Type} (C : Env σ ν) (r : Node σ) (R : Fluent_Set)
    (n : Node σ) (h : Good C r R n) : n.m_partition ≤ R.card := by
  obtain ⟨_, K, hK⟩ := h
  obtain ⟨l, hl⟩ := rp_fl_walk_fold C R n _ _ hK
  rw [rp_fl_mark_fold] at hl
  injection hl with h1 _
  rw [h1]
  simp only [Finset.sdiff_empty, Nat.zero_add]
  exact Finset.card_le_card Finset.inter_subset_right

/-- A list of nodes whose states lie in `S`, whose partitions are at most `m` and in which
no state and partition occur more than twice has at most `2 * |S| * (m + 1)` nodes. -/
theorem length_le_of_twice {σ : Type} [DecidableEq σ] (S : Finset σ) (m : Nat)
    (l : List (Node σ)) (hnd : l.Nodup)
    (hs : ∀ n ∈ l, ∃ x ∈ S, n.m_state = some x) (hp : ∀ n ∈ l, n.m_partition ≤ m)
    (ht : ∀ k : Option σ × Nat, l.countP (fun n => decide (n.key = k)) ≤ 2) :
    l.length ≤ 2 * (S.card * (m + 1)) := by
  have hcard : l.toFinset.card = l.length := List.toFinset_card_of_nodup hnd
  have himg : l.toFinset.image Node.key ⊆ (S.image some) ×ˢ Finset.range (m + 1) := by
    intro k hk
    obtain ⟨n, hn, rfl⟩ := Finset.mem_image.1 hk
    rw [List.mem_toFinset] at hn
    obtain ⟨x, hx, hnx⟩ := hs n hn
    rw [Finset.mem_product]
    refine ⟨?_, ?_⟩
    · show n.m_state ∈ S.image some
      rw [hnx]
      exact Finset.mem_image_of_mem _ hx
    · show n.m_partition ∈ Finset.range (m + 1)
      rw [Finset.mem_range]
      exact Nat.lt_succ_of_le (hp n hn)
  have hfib : ∀ k ∈ l.toFinset.image Node.key,
      (l.toFinset.filter (fun n => n.key = k)).card ≤ 2 := by
    intro k _
    have h1 : l.toFinset.filter (fun n => n.key = k)
        = (l.filter (fun n => decide (n.key = k))).toFinset := by
      ext n
      simp
    rw [h1, List.toFinset_card_of_nodup (hnd.filter _), ← List.countP_eq_length_filter]
    exact ht k
  have h2 := Finset.card_le_mul_card_image l.toFinset 2 hfib
  have h3 : (l.toFinset.image Node.key).card ≤ S.card * (m + 1) := by
    have h4 := Finset.card_le_card himg
    rw [Finset.card_product, Finset.card_range] at h4
    exact le_trans h4 (Nat.mul_le_mul_right _ Finset.card_image_le)
  rw [← hcard]
  exact le_trans h2 (Nat.mul_le_mul_left 2 h3)

theorem history_frame {σ ν : Type} (head : Option (Node σ)) (e : RP_IW σ ν) (nov : ν)
    (pb : Nat) :
    history head { e with counted := ∅, m_novelty := nov, m_pruned_B_count := pb }
      = history head e := rfl

/-- An iteration of the loop of `process` whose successor state lies in `S` keeps the
loop state of the finite search. -/
theorem exhaust_step {σ ν : Type} [DecidableEq σ] (C : Env σ ν) (S : Finset σ) (r : Node σ)
    (R : Fluent_Set) (h : Node σ) (hs : σ) (a : Action_Idx) (e e2 : RP_IW σ ν)
    (g : Option (Node σ)) (hE : Exhaust_Inv C S r R (some h) e) (hst : h.m_state = some hs)
    (hnext : C.m_problem.next hs a ∈ S) (hstep : process_step C h hs a e = .ok (g, e2)) :
    Exhaust_Inv C S r R (some h) e2 := by
  have hI := hE.inv
  have hI2 := inv_step C r R h hs a e e2 g hI hst hstep
  rcases process_step_ok C h hs a e e2 g hstep with ⟨n1, hp, _⟩ | ⟨n1, e1, hp, he2, _⟩
  · obtain ⟨he, _⟩ := prune_engine C e e2 _ n1 true hp
    have hh : history (some h) e2 = history (some h) e := by
      rw [he]
      exact history_frame _ _ _ _
    exact ⟨hI2, by rw [hh]; exact hE.states, by rw [hh]; exact hE.parts,
      by rw [hh]; exact hE.twice⟩
  · obtain ⟨pt, hn1, hgood, hc, ho, _, he1⟩ := accepted_node C r R h hs a e e1 n1 hI hst hp
    have hh : history (some h) e2 = history (some h) e ++ [n1] := by
      rw [he2, open_node_eq, he1]
      simp [history]
    have hs1 : n1.m_state = some (C.m_problem.next hs a) := by rw [hn1]; rfl
    have hf1 : n1.m_compare_only_state = false := by rw [hn1]; rfl
    have hkey : ∀ m ∈ history (some h) e, m ≠ h → m.key ≠ n1.key := by
      intro m hm hne hk
      obtain ⟨⟨sm, hsm⟩, fm⟩ := built_state C r m hI.root_shape (hI.hist_good m hm).1
      have heq := (node_eq_key m n1 sm _ hsm hs1 fm hf1).2 hk
      have hm2 : m ∈ e.m_closed ∨ m ∈ e.m_open := by
        simp only [history, Option.toList, List.mem_append, List.mem_singleton] at hm
        rcases hm with (hm | hm) | hm
        · exact Or.inl hm
        · exact absurd hm hne
        · exact Or.inr hm
      rcases hm2 with hm2 | hm2
      · exact hc ⟨m, hm2, heq⟩
      · exact ho ⟨m, by rw [hI.index]; exact hm2, heq⟩
    refine ⟨hI2, ?_, ?_, ?_⟩
    · intro n hn
      rw [hh] at hn
      rcases List.mem_append.1 hn with hn | hn
      · exact hE.states n hn
      · rw [List.mem_singleton.1 hn]
        exact ⟨_, hnext, hs1⟩
    · intro n hn
      exact good_partition_le C r R n (hI2.hist_good n hn)
    · intro k
      rw [hh, List.countP_append]
      by_cases hk : n1.key = k
      · have hle : (history (some h) e).countP (fun n => decide (n.key = k)) ≤ 1 := by
          have hsub : (history (some h) e).countP (fun n => decide (n.key = k))
              ≤ (history (some h) e).countP (fun n => decide (n = h)) := by
            refine List.countP_mono_left ?_
            intro m hm hmk
            simp only [decide_eq_true_eq] at hmk ⊢
            by_contra hne
            exact hkey m hm hne (by rw [hmk, hk])
          refine le_trans hsub ?_
          have hnd := hI.hist_nodup
          have hcount : (history (some h) e).countP (fun n => decide (n = h))
              = (history (some h) e).count h := by
            rw [List.count_eq_countP]
            congr 1
          rw [hcount]
          exact List.nodup_iff_count_le_one.1 hnd h
        simp only [List.countP_cons, List.countP_nil, hk, decide_True, if_true]
        omega
      · have h0 : [n1].countP (fun n => decide (n.key = k)) = 0 := by
          simp [List.countP_cons, hk]
        rw [h0]
        exact hE.twice k

/-- Over a finite set of states closed under the applicable actions and free of goal
states, the loop of `process` returns without a goal node and keeps the loop state of
the finite search. -/
theorem exhaust_process_loop {σ ν : Type} [DecidableEq σ] (C : Env σ ν) (S : Finset σ)
    (r : Node σ) (R : Fluent_Set) (h : Node σ) (hs : σ) (hst : h.m_state = some hs)
    (hnogoal : ∀ x ∈ S, C.m_problem.goal x = false) :
    ∀ (acts : List Action_Idx) (e : RP_IW σ ν), (∀ a ∈ acts, C.m_problem.next hs a ∈ S) →
      Exhaust_Inv C S r R (some h) e →
      ∃ e2, process_loop C h hs acts e = .ok (none, e2) ∧ Exhaust_Inv C S r R (some h) e2 ∧
        e2.m_closed = e.m_closed := by
  intro acts
  induction acts with
  | nil =>
    intro e _ hE
    exact ⟨e, rfl, hE, rfl⟩
  | cons a rest ih =>
    intro e hacts hE
    have hnext := hacts a (List.mem_cons_self _ _)
    obtain ⟨g, e1, hstep⟩ := process_step_total C r R h hs a e hE.inv hst
    have hE1 := exhaust_step C S r R h hs a e e1 g hE hst hnext hstep
    obtain ⟨hc1, _⟩ := process_step_appends C h hs hst a e e1 g hstep
    have hg : g = none := by
      rcases process_step_ok C h hs a e e1 g hstep with ⟨_, _, hg⟩ | ⟨_, _, _, _, hg⟩
      · exact hg
      · rcases hg with ⟨_, hgoal⟩ | ⟨hg, _⟩
        · rw [hnogoal _ hnext] at hgoal
          cases hgoal
        · exact hg
    subst hg
    obtain ⟨e2, hloop, hE2, hc2⟩ := ih e1 (fun b hb => hacts b (List.mem_cons_of_mem _ hb)) hE1
    refine ⟨e2, ?_, hE2, by rw [hc2, hc1]⟩
    unfold process_loop
    rw [hstep]
    exact hloop

theorem exhaust_process {σ ν : Type} [DecidableEq σ] (C : Env σ ν) (S : Finset σ)
    (r : Node σ) (R : Fluent_Set) (h : Node σ) (e : RP_IW σ ν)
    (hclosed : ∀ x ∈ S, ∀ a ∈ C.m_problem.applicable_set_v2 x, C.m_problem.next x a ∈ S)
    (hnogoal : ∀ x ∈ S, C.m_problem.goal x = false)
    (hE : Exhaust_Inv C S r R (some h) e) :
    ∃ e2, process C e h = .ok (none, e2) ∧ Exhaust_Inv C S r R (some h) e2 ∧
      e2.m_closed = e.m_closed := by
  obtain ⟨hs, hsS, hst⟩ := hE.states h (by simp [history])
  unfold process
  simp only [hst]
  exact exhaust_process_loop C S r R h hs hst hnogoal _ e (hclosed hs hsS) hE

/-- Closing the expanded node and dequeueing the next one keeps the loop state of the
finite search. -/
theorem exhaust_next {σ ν : Type} [DecidableEq σ] (C : Env σ ν) (S : Finset σ)
    (r : Node σ) (R : Fluent_Set) (h : Node σ) (e : RP_IW σ ν)
    (hE : Exhaust_Inv C S r R (some h) e) :
    ∃ next e3, get_node (close (inc_exp e) h) = .ok (next, e3) ∧
      Exhaust_Inv C S r R next e3 ∧ e3.m_closed = e.m_closed ++ [h] := by
  have hI2 := inv_close C r R h e hE.inv
  have hget : ∃ next e3, get_node (close (inc_exp e) h) = .ok (next, e3) ∧
      e3.m_closed = e.m_closed ++ [h] := by
    rcases get_node_inv C r R _ hI2 with ⟨_, hg⟩ | ⟨nx, rs, _, hg⟩
    · exact ⟨_, _, hg, rfl⟩
    · exact ⟨_, _, hg, rfl⟩
  obtain ⟨next, e3, hg, hc⟩ := hget
  obtain ⟨hI3, hh⟩ := inv_pop C r R _ e3 next hI2 hg
  have hh2 : history next e3 = history (some h) e := by
    rw [hh]
    simp [history, close, inc_exp, Closed_List.put]
  exact ⟨next, e3, hg, ⟨hI3, by rw [hh2]; exact hE.states, by rw [hh2]; exact hE.parts,
    by rw [hh2]; exact hE.twice⟩, hc⟩

/-- Over a finite set of states closed under the applicable actions and free of goal
states, the loop of `do_search` returns NULL once the fuel and the number of closed nodes
together reach twice the number of pairs of a state and a partition. -/
theorem exhaust_loop {σ ν : Type} [DecidableEq σ] (C : Env σ ν) (S : Finset σ)
    (r : Node σ) (R : Fluent_Set)
    (hclosed : ∀ x ∈ S, ∀ a ∈ C.m_problem.applicable_set_v2 x, C.m_problem.next x a ∈ S)
    (hnogoal : ∀ x ∈ S, C.m_problem.goal x = false) :
    ∀ (fuel : Nat) (head : Option (Node σ)) (e : RP_IW σ ν),
      Exhaust_Inv C S r R head e → 2 * (S.card * (R.card + 1)) ≤ fuel + e.m_closed.length →
      ∃ e2, do_search_loop C fuel head e = .ok (none, e2) := by
  intro fuel
  induction fuel with
  | zero =>
    intro head e hE hfuel
    cases head with
    | none => exact ⟨e, do_search_loop_none C 0 e⟩
    | some h0 =>
      have hlen := length_le_of_twice S R.card (history (some h0) e) hE.inv.hist_nodup
        hE.states hE.parts hE.twice
      simp only [history, Option.toList, List.length_append, List.length_singleton] at hlen
      omega
  | succ fuel ih =>
    intro head e hE hfuel
    cases head with
    | none => exact ⟨e, do_search_loop_none C _ e⟩
    | some h0 =>
      obtain ⟨hs, _, hst⟩ := hE.states h0 (by simp [history])
      obtain ⟨e1, hp, hE1, hc1⟩ := exhaust_process C S r R h0 e hclosed hnogoal hE
      obtain ⟨next, e3, hg, hE3, hc3⟩ := exhaust_next C S r R h0 e1 hE1
      rw [do_search_loop_step C fuel h0 hs hst e e1 hp, hg]
      refine ih next e3 hE3 ?_
      rw [hc3, hc1, List.length_append, List.length_singleton]
      omega

/-- After a `start` that queued the root, over a finite set of states that holds the
start state, is closed under the applicable actions and is free of goal states,
`do_search` returns NULL with fuel twice the number of pairs of a state and a
partition. -/
theorem exhaust_search {σ ν : Type} [DecidableEq σ] (C : Env σ ν) (e e0 : RP_IW σ ν)
    (s : Option σ) (hs : start C e s = .ok e0) (S : Finset σ)
    (hstart : start_state C s ∈ S)
    (hclosed : ∀ x ∈ S, ∀ a ∈ C.m_problem.applicable_set_v2 x, C.m_problem.next x a ∈ S)
    (hnogoal : ∀ x ∈ S, C.m_problem.goal x = false) (hopen : e0.m_open ≠ []) :
    ∃ e2, do_search C (2 * (S.card * (e0.m_rp_fl_set.card + 1))) e0 = .ok (none, e2) := by
  rcases start_first_pop C e e0 s hs with ⟨ho, _⟩ | ⟨e1, hg, _, hI1, ho1, hc1⟩
  · exact absurd ho hopen
  · have hhist : history (some (Node.mk (some (start_state C s)) none no_op 0 0 false)) e1
        = [Node.mk (some (start_state C s)) none no_op 0 0 false] := by
      simp [history, ho1, hc1]
    have hE : Exhaust_Inv C S (Node.mk (some (start_state C s)) none no_op 0 0 false)
        e0.m_rp_fl_set (some (Node.mk (some (start_state C s)) none no_op 0 0 false)) e1 := by
      refine ⟨hI1, ?_, ?_, ?_⟩
      · intro n hn
        rw [hhist] at hn
        rw [List.mem_singleton.1 hn]
        exact ⟨_, hstart, rfl⟩
      · intro n hn
        rw [hhist] at hn
        rw [List.mem_singleton.1 hn]
        exact Nat.zero_le _
      · intro k
        rw [hhist]
        have h1 := @List.countP_le_length _ (fun n : Node σ => decide (n.key = k))
          [Node.mk (some (start_state C s)) none no_op 0 0 false]
        simp only [List.length_singleton] at h1
        omega
    unfold do_search
    rw [hg]
    simp only [is_goal, Node.m_state, hnogoal _ hstart]
    exact exhaust_loop C S _ _ hclosed hnogoal _ _ e1 hE (by rw [hc1]; simp)

theorem engine_counted_eta {σ ν : Type} (e : RP_IW σ ν) (hc : e.counted = ∅) :
    ({ e with counted := ∅ } : RP_IW σ ν) = e := by
  cases e
  simp only at hc
  subst hc
  rfl

/-- On a rooted node, with the marker set empty, `rp_fl_achieved` returns the number of
relevant fluents among those added along the path, and the engine as it was. -/
theorem rp_fl_achieved_card {σ ν : Type} (C : Env σ ν) (e : RP_IW σ ν) (n : Node σ)
    (hroot : n.rooted) (hc : e.counted = ∅) :
    rp_fl_achieved C e n
      = .ok (((n.path_fluents C).toFinset ∩ e.m_rp_fl_set).card, e) := by
  have hw := rp_fl_walk_rooted C e.m_rp_fl_set n hroot (0, e.counted)
  rw [rp_fl_mark_fold, hc] at hw
  simp only [Finset.sdiff_empty, Nat.zero_add] at hw
  unfold rp_fl_achieved
  rw [hc, hw]
  simp only []
  rw [engine_counted_eta e hc]

theorem path_fluents_child {σ ν : Type} (C : Env σ ν) (st : Option σ) (p : Node σ)
    (a : Action_Idx) (g pt : Nat) (c : Bool) :
    (Node.mk st (some p) a g pt c).path_fluents C
      = (C.m_problem.actions a).added ++ p.path_fluents C := by
  simp [Node.path_fluents, Node.path_actions, encounter_order]

/-- What the preparation of `start` leaves in the relevant-fluent vector and set: the
vector has no duplicates and the members of the set; both are empty when relaxed-plan
mode is off. -/
theorem start_prepare_relplan {σ ν : Type} (C : Env σ ν) (e : RP_IW σ ν) (s : Option σ) :
    (start_prepare C e s).2.m_rp_fl_vec.Nodup ∧
    (∀ p, p ∈ (start_prepare C e s).2.m_rp_fl_vec ↔ p ∈ (start_prepare C e s).2.m_rp_fl_set) ∧
    (e.m_use_relplan = false → (start_prepare C e s).2.m_rp_fl_set = ∅ ∧
      (start_prepare C e s).2.m_rp_fl_vec = []) := by
  unfold start_prepare
  simp only []
  cases hu : e.m_use_relplan with
  | true =>
    simp only [reset, hu, if_true]
    unfold set_relplan
    simp only [set_relplan_fold_eq]
    refine ⟨relplan_fluents_nodup _, ?_, ?_⟩
    · intro p
      rw [(relplan_fluents_spec _).2.1 p, (relplan_fluents_spec _).1, List.mem_toFinset]
    · intro hf
      cases hf
  | false =>
    simp only [reset, hu]
    exact ⟨List.nodup_nil, fun p => by simp, fun _ => ⟨rfl, rfl⟩⟩

theorem start_relplan {σ ν : Type} [DecidableEq σ] (C : Env σ ν) (e e0 : RP_IW σ ν)
    (s : Option σ) (h : start C e s = .ok e0) :
    e0.m_rp_fl_vec.Nodup ∧ (∀ p, p ∈ e0.m_rp_fl_vec ↔ p ∈ e0.m_rp_fl_set) ∧
    (e.m_use_relplan = false → e0.m_rp_fl_set = ∅ ∧ e0.m_rp_fl_vec = []) := by
  have hprep := start_prepare_relplan C e s
  obtain ⟨nov, pb, he | he⟩ := start_engine C e e0 s h
  · rw [he]; exact hprep
  · rw [he]; exact hprep

theorem rp_fl_mark_empty (l : Fluent_Vec) (acc : Nat × Fluent_Set) :
    l.foldl (rp_fl_mark ∅) acc = acc := by
  induction l with
  | nil => rfl
  | cons p ps ih =>
    rw [List.foldl_cons]
    have hp : rp_fl_mark ∅ acc p = acc := by
      unfold rp_fl_mark
      simp
    rw [hp]
    exact ih

/-- With no relevant fluent the loop of `rp_fl_achieved` counts nothing. -/
theorem rp_fl_walk_empty {σ ν : Type} (C : Env σ ν) :
    ∀ (n : Node σ) (acc res : Nat × Fluent_Set),
      rp_fl_walk C ∅ n acc = .ok res → res = acc := by
  intro n
  induction n using Node.chain_induction with
  | root s a g pt c =>
    intro acc res h
    unfold rp_fl_walk at h
    by_cases ha : a ≠ no_op
    · rw [if_pos ha] at h
      cases h
    · rw [if_neg ha] at h
      injection h with h
      exact h.symm
  | child s p a g pt c ih =>
    intro acc res h
    unfold rp_fl_walk at h
    by_cases ha : a ≠ no_op
    · rw [if_pos ha] at h
      have h2 := ih _ res h
      rw [h2, rp_fl_action_eq, rp_fl_mark_empty]
    · rw [if_neg ha] at h
      injection h with h
      exact h.symm

/-- The counts of `rp_fl_achieved` on a rooted node and on its parent. -/
theorem rp_fl_achieved_parent {σ ν : Type} (C : Env σ ν) (e : RP_IW σ ν) (n p : Node σ)
    (hroot : n.rooted) (hp : n.m_parent = some p) :
    p.rooted ∧
    ((p.path_fluents C).toFinset ∩ e.m_rp_fl_set).card
      ≤ ((n.path_fluents C).toFinset ∩ e.m_rp_fl_set).card ∧
    ((n.path_fluents C).toFinset ∩ e.m_rp_fl_set).card ≤ e.m_rp_fl_set.card := by
  cases n with
  | mk st par a g pt c =>
    have hpar : par = some p := hp
    subst hpar
    refine ⟨hroot.2, ?_, Finset.card_le_card Finset.inter_subset_right⟩
    apply Finset.card_le_card
    intro x hx
    rw [Finset.mem_inter, List.mem_toFinset] at hx ⊢
    rw [path_fluents_child]
    exact ⟨List.mem_append_right _ hx.1, hx.2⟩

/-- C19. After `start`, with the relevant fluents it computed: for every node `n` whose
chain ends at the `no_op` root and whose parent is `p`, `rp_fl_achieved(p)` is at most
`rp_fl_achieved(n)`, which is at most the size of `m_rp_fl_vec`; `rp_fl_achieved` of the
root is 0; in every state of the loop of `do_search` the partition of such a node in the
closed set, being expanded or in the frontier is at least the count of its parent and at
most the size of `m_rp_fl_vec`.  When relaxed-plan mode is off the relevant-fluent set is
empty, every such node has partition 0, and two of them are equality-equal exactly when
their states are equal. -/
theorem partition_monotone_bounded {σ ν : Type} [DecidableEq σ] (C : Env σ ν)
    (e e0 : RP_IW σ ν) (s : Option σ) (hs : start C e s = .ok e0) :
    (∀ (n p : Node σ), n.rooted → n.m_parent = some p →
      ∃ cp cn, rp_fl_achieved C e0 p = .ok (cp, e0) ∧ rp_fl_achieved C e0 n = .ok (cn, e0) ∧
        cp ≤ cn ∧ cn ≤ e0.m_rp_fl_vec.length) ∧
    (∀ r, e0.m_root = some r → rp_fl_achieved C e0 r = .ok (0, e0)) ∧
    (∀ (head : Option (Node σ)) (e1 : RP_IW σ ν), Loop_State C e0 head e1 →
      ∀ n ∈ history head e1, n.rooted →
        n.m_partition ≤ e0.m_rp_fl_vec.length ∧
        ∀ p, n.m_parent = some p →
          ∃ cp, rp_fl_achieved C e1 p = .ok (cp, e1) ∧ cp ≤ n.m_partition) ∧
    (e.m_use_relplan = false →
      e0.m_rp_fl_set = ∅ ∧ e0.m_rp_fl_vec = [] ∧
      ∀ (head : Option (Node σ)) (e1 : RP_IW σ ν), Loop_State C e0 head e1 →
        (∀ n ∈ history head e1, n.m_partition = 0) ∧
        ∀ a ∈ history head e1, ∀ b ∈ history head e1,
          (Node.eq a b = .ok true ↔ a.m_state = b.m_state)) := by
  have hI0 := inv_start C e e0 s hs
  obtain ⟨hnd, hmem, hoff⟩ := start_relplan C e e0 s hs
  have hcard : e0.m_rp_fl_set.card = e0.m_rp_fl_vec.length := by
    have hset : e0.m_rp_fl_set = e0.m_rp_fl_vec.toFinset := by
      ext p
      rw [List.mem_toFinset]
      exact (hmem p).symm
    rw [hset, List.toFinset_card_of_nodup hnd]
  refine ⟨?_, ?_, ?_, ?_⟩
  · intro n p hroot hp
    obtain ⟨hpr, h1, h2⟩ := rp_fl_achieved_parent C e0 n p hroot hp
    exact ⟨_, _, rp_fl_achieved_card C e0 p hpr hI0.counted,
      rp_fl_achieved_card C e0 n hroot hI0.counted, h1, by rw [← hcard]; exact h2⟩
  · intro r hr
    rw [hI0.root] at hr
    injection hr with hr
    subst hr
    rw [rp_fl_achieved_root, engine_counted_eta e0 hI0.counted]
  · intro head e1 hl n hn hroot
    have hI := loop_state_inv C e e0 s hs head e1 hl
    have hpart := inv_partition C _ _ head e1 hI n hn
    rw [rp_fl_achieved_card C e1 n hroot hI.counted] at hpart
    injection hpart with hpart
    simp only [Prod.mk.injEq, and_true] at hpart
    have hset : e1.m_rp_fl_set = e0.m_rp_fl_set := hI.rp_set
    refine ⟨?_, ?_⟩
    · rw [← hpart, ← hcard, hset]
      exact Finset.card_le_card Finset.inter_subset_right
    · intro p hp
      obtain ⟨hpr, h1, _⟩ := rp_fl_achieved_parent C e1 n p hroot hp
      exact ⟨_, rp_fl_achieved_card C e1 p hpr hI.counted, by rw [← hpart]; exact h1⟩
  · intro hu
    obtain ⟨hR, hV⟩ := hoff hu
    refine ⟨hR, hV, ?_⟩
    intro head e1 hl
    have hI := loop_state_inv C e e0 s hs head e1 hl
    have hzero : ∀ n ∈ history head e1, n.m_partition = 0 := by
      intro n hn
      obtain ⟨_, K, hK⟩ := hI.hist_good n hn
      rw [hR] at hK
      have h2 := rp_fl_walk_empty C n _ _ hK
      injection h2 with h2
    refine ⟨hzero, ?_⟩
    intro a ha b hb
    obtain ⟨⟨sa, hsa⟩, fa⟩ := built_state C _ a hI.root_shape (hI.hist_good a ha).1
    obtain ⟨⟨sb, hsb⟩, fb⟩ := built_state C _ b hI.root_shape (hI.hist_good b hb).1
    rw [node_eq_form a b sa sb hsa hsb fa fb, hzero a ha, hzero b hb, hsa, hsb]
    simp

theorem partition_monotone_bounded_witness :
    start chainEnv chainEngine none = .ok chainStarted ∧
    start chainEnv (set_use_relplan chainEngine false) none = .ok chainPlainStarted ∧
    (∃ cp cn, rp_fl_achieved chainEnv chainStarted chainRoot = .ok (cp, chainStarted) ∧
      rp_fl_achieved chainEnv chainStarted chainChild = .ok (cn, chainStarted) ∧
      cp ≤ cn ∧ cn ≤ chainStarted.m_rp_fl_vec.length) ∧
    chainPlainStarted.m_rp_fl_set = ∅ ∧
    (∀ n ∈ history (some chainRoot) chainPlainPopped, n.m_partition = 0) :=
  have h1 := partition_monotone_bounded chainEnv chainEngine chainStarted none (by decide!)
  have h2 := partition_monotone_bounded chainEnv (set_use_relplan chainEngine false)
    chainPlainStarted none (by decide!)
  ⟨by decide!, by decide!, h1.1 chainChild chainRoot ⟨by decide, rfl⟩ rfl,
    (h2.2.2.2 rfl).1,
    ((h2.2.2.2 rfl).2.2 (some chainRoot) chainPlainPopped
      (Loop_State.entry _ _ (by decide!) (by decide!))).1⟩

/-- A state of the loop of `do_search` is reached by the run: the result of the loop from
that state is the result of `do_search` with more fuel. -/
theorem loop_state_run {σ ν : Type} [DecidableEq σ] (C : Env σ ν) (e0 : RP_IW σ ν)
    (head : Option (Node σ)) (e1 : RP_IW σ ν) (hl : Loop_State C e0 head e1) :
    ∀ (fuel : Nat) (res : Except Fault (Option (Node σ) × RP_IW σ ν)),
      do_search_loop C fuel head e1 = res → ∃ fuel2, do_search C fuel2 e0 = res := by
  induction hl with
  | entry head e1 hget hgoal =>
    intro fuel res h
    refine ⟨fuel, ?_⟩
    unfold do_search
    rw [hget]
    simp only [hgoal]
    exact h
  | iter head0 head e2 e3 e4 next _ hmat hproc hget ih =>
    intro fuel res h
    refine ih (fuel + 1) res ?_
    unfold do_search_loop
    rw [hmat]
    simp only [hproc, hget]
    exact h

/-- C12. After `start`: when the root was pruned, so that the frontier is empty, neither
`do_search` nor `find_solution` returns, whatever the fuel: the null node returned by
`get_node` is dereferenced by the first goal test.  When the root was queued, over a
finite set of states that holds the start state, is closed under the applicable actions
and is free of goal states, `do_search` returns NULL and `find_solution` returns false,
with fuel twice the number of pairs of a state and a partition.  Whenever `do_search`
returns NULL, the frontier is empty, every node that was queued is closed and fails the
goal test, and `find_solution` returns false; and whenever the loop finds the frontier
empty, `do_search` returns NULL. -/
theorem exhaustion_pruned_root_faults {σ ν : Type} [DecidableEq σ] (C : Env σ ν)
    (e e0 : RP_IW σ ν) (s : Option σ) (hs : start C e s = .ok e0) :
    (e0.m_open = [] →
      ∀ (fuel : Nat) (cost : ℚ) (plan : List Action_Idx),
        do_search C fuel e0 = .error Fault.null_deref ∧
        find_solution C fuel e0 cost plan = .error Fault.null_deref) ∧
    (∀ S : Finset σ, start_state C s ∈ S →
      (∀ x ∈ S, ∀ a ∈ C.m_problem.applicable_set_v2 x, C.m_problem.next x a ∈ S) →
      (∀ x ∈ S, C.m_problem.goal x = false) → e0.m_open ≠ [] →
      ∃ e2, do_search C (2 * (S.card * (e0.m_rp_fl_set.card + 1))) e0 = .ok (none, e2) ∧
        ∀ (cost : ℚ) (plan : List Action_Idx),
          find_solution C (2 * (S.card * (e0.m_rp_fl_set.card + 1))) e0 cost plan
            = .ok (false, cost, plan, e2)) ∧
    (∀ (fuel : Nat) (e2 : RP_IW σ ν), do_search C fuel e0 = .ok (none, e2) →
      e2.m_open = [] ∧ (∀ n ∈ e2.m_closed, Non_Goal C n) ∧
      ∀ (cost : ℚ) (plan : List Action_Idx),
        find_solution C fuel e0 cost plan = .ok (false, cost, plan, e2)) ∧
    (∀ (e1 : RP_IW σ ν), Loop_State C e0 none e1 →
      ∃ fuel, do_search C fuel e0 = .ok (none, e1)) := by
  refine ⟨?_, ?_, ?_, ?_⟩
  · intro ho fuel cost plan
    exact ⟨do_search_empty C fuel e0 ho, find_solution_empty C fuel e0 cost plan ho⟩
  · intro S hstart hclosed hnogoal hopen
    obtain ⟨e2, h⟩ := exhaust_search C e e0 s hs S hstart hclosed hnogoal hopen
    refine ⟨e2, h, ?_⟩
    intro cost plan
    unfold find_solution
    rw [h]
  · intro fuel e2 h
    obtain ⟨_, hcase⟩ := do_search_result C e e0 s hs fuel none e2 h
    rcases hcase with ⟨_, hr, _⟩ | ⟨_, _, ⟨_, ho, hng⟩ | ⟨g, q, hg, _⟩⟩
    · cases hr
    · refine ⟨ho, fun n hn => hng n (by simp [history, hn]), ?_⟩
      intro cost plan
      unfold find_solution
      rw [h]
    · cases hg
  · intro e1 hl
    exact loop_state_run C e0 none e1 hl 0 _ (do_search_loop_none C 0 e1)

theorem exhaustion_pruned_root_faults_witness :
    start loopEnv loopZeroEngine none = .ok loopZeroStarted ∧
    loopZeroStarted.m_open = [] ∧ loopZeroStarted.m_pruned_B_count = 1 ∧
    (∀ s : Nat, loopEnv.m_problem.goal s = false) ∧
    (∀ fuel : Nat, do_search loopEnv fuel loopZeroStarted = .error Fault.null_deref ∧
      find_solution loopEnv fuel loopZeroStarted 0 [] = .error Fault.null_deref) ∧
    start loopEnv loopEngine none = .ok loopStarted ∧ loopStarted.m_open ≠ [] ∧
    (∃ e2, do_search loopEnv (2 * (({0} : Finset Nat).card * (loopStarted.m_rp_fl_set.card + 1)))
        loopStarted = .ok (none, e2) ∧
      ∀ (cost : ℚ) (plan : List Action_Idx),
        find_solution loopEnv (2 * (({0} : Finset Nat).card * (loopStarted.m_rp_fl_set.card + 1)))
          loopStarted cost plan = .ok (false, cost, plan, e2)) :=
  ⟨by decide!, by decide!, by decide!, fun _ => rfl, fun fuel =>
    (exhaustion_pruned_root_faults loopEnv loopZeroEngine loopZeroStarted none
      (by decide!)).1 (by decide!) fuel 0 [],
    by decide!, by decide!,
    (exhaustion_pruned_root_faults loopEnv loopEngine loopStarted none (by decide!)).2.1
      {0} (by decide!) (fun x hx _ _ => hx) (fun _ _ => rfl) (by decide!)⟩

end RpIw
